import Mathlib

/-
Verification of the Balance repository: a shallow embedding of the
Balance2 coin-weighing searcher (partition/weighing enumeration, the MAJORITY
problem's state canonicalisation, and the generic branch-and-bound search
engine of Manager2.hpp), together with theorems settling the specification's
claims about it.

Modelling conventions:
* uint8 quantities are modelled as Nat.  All subtractions in the embedded code
  are guarded in the source by invariants that prevent wrap-around (left and
  right pan selections never exceed the part sizes; depth arithmetic is
  guarded by DEPTH_INFINITY checks before every increment), so natural
  subtraction and unchecked addition agree with the uint8 semantics there.
* std::vector reads past the end are undefined behaviour in the source; where
  a theorem exercises such a read (the provenance-vector slip of
  Generator::get) the embedding models the read as returning 0 via getD.
* std::sort is modelled as insertion sort with the non-strict closure of the
  comparator: a stable sorted permutation, which is one of the permutations
  std::sort may produce (where the source's comparison is a strict weak order
  on values with ties, the tied order is fixed by the later canonicalisation
  passes or is irrelevant to the claims).
* C++ asserts are not modelled; theorems about code paths whose asserts would
  fire state explicitly what the code computes there.
-/

namespace Balance

/-- Placement of a set of coins during a weighing (Types2.h). -/
inductive Placement
  | LeftPan
  | RightPan
  | SetAside
deriving DecidableEq, Repr

/-- Numeric index of a placement, used for the C++ `operator<` on enum values. -/
def Placement.idx : Placement → Nat
  | .LeftPan => 0
  | .RightPan => 1
  | .SetAside => 2

/-- One entry of a weighing's provenance vector (Weighing2::Part).
A value-initialised entry (as produced by vector::resize) is `⟨0, LeftPan⟩`. -/
structure WPart where
  part : Nat
  placement : Placement
deriving DecidableEq, Repr

def WPart.default : WPart := ⟨0, .LeftPan⟩

/-- State of the weighing generator (class Generator in Partition2.cpp):
the input partition plus, for each input part, the number of coins selected
for the left and right pans. -/
structure Gen where
  input : List Nat
  left : List Nat
  right : List Nat
deriving DecidableEq, Repr

def coinCount (input : List Nat) : Nat := input.sum

def panCount (g : Gen) : Nat := g.left.sum

/-- fill body shared by fill_left / fill_right: write min(count, cap) into each
successive slot, decrementing count. -/
def fillList (caps : List Nat) (count : Nat) : List Nat :=
  match caps with
  | [] => []
  | c :: cs => let t := min count c; t :: fillList cs (count - t)

/-- Generator::fill_left(count, index): overwrite left[index..] placing `count`
coins as early as possible. -/
def fillLeft (input left : List Nat) (count index : Nat) : List Nat :=
  left.take index ++ fillList (input.drop index) count

/-- Generator::fill_right(count, index): same, but each slot's capacity is
input[i] - left[i]. -/
def fillRight (input left right : List Nat) (count index : Nat) : List Nat :=
  right.take index ++
    fillList (List.zipWith (fun a b => a - b) (input.drop index) (left.drop index)) count

/-- First loop of Generator::advance_left: scan backwards from `index` while
left[index] = input[index], accumulating the passed coins; returns the final
index and the count including the coins at that index. -/
def scanLeftFull (input left : List Nat) : Nat → Nat → Nat × Nat
  | 0, count => (0, count + left.getD 0 0)
  | i + 1, count =>
    if left.getD (i + 1) 0 == input.getD (i + 1) 0 then
      scanLeftFull input left i (count + left.getD (i + 1) 0)
    else
      (i + 1, count + left.getD (i + 1) 0)

/-- Search loop `while (index > 0) { --index; if (v[index] > 0) ... }`:
find the largest j < index with v[j] > 0. -/
def findPositive (v : List Nat) : Nat → Option Nat
  | 0 => none
  | i + 1 => if v.getD i 0 > 0 then some i else findPositive v i

/-- Generator::advance_left. `none` models returning false (no mutation happens
on that path in the source). -/
def advanceLeft (g : Gen) : Option Gen :=
  let sc := scanLeftFull g.input g.left (g.input.length - 1) 0
  match findPositive g.left sc.1 with
  | some j =>
    let left1 := (g.left.set j (g.left.getD j 0 - 1))
    some { g with left := fillLeft g.input left1 (sc.2 + 1) (j + 1) }
  | none =>
    let count := sc.2 + 1
    if 2 * count > coinCount g.input then none
    else some { g with left := fillLeft g.input g.left count 0 }

/-- First loop of Generator::advance_right: scan backwards while
right[index] + left[index] = input[index]; returns none when the scan hits
index 0 with no spare capacity (return false in the source). -/
def scanRightFull (input left right : List Nat) : Nat → Nat → Option (Nat × Nat)
  | 0, count =>
    if right.getD 0 0 + left.getD 0 0 == input.getD 0 0 then none
    else some (0, count + right.getD 0 0)
  | i + 1, count =>
    if right.getD (i + 1) 0 + left.getD (i + 1) 0 == input.getD (i + 1) 0 then
      scanRightFull input left right i (count + right.getD (i + 1) 0)
    else
      some (i + 1, count + right.getD (i + 1) 0)

/-- Generator::advance_right. -/
def advanceRight (g : Gen) : Option Gen :=
  match scanRightFull g.input g.left g.right (g.right.length - 1) 0 with
  | none => none
  | some sc =>
    match findPositive g.right sc.1 with
    | some j =>
      let right1 := g.right.set j (g.right.getD j 0 - 1)
      some { g with right := fillRight g.input g.left right1 (sc.2 + 1) (j + 1) }
    | none => none

/-- Forward fill inside select_right's else branch, with the remaining slot
count made explicit so the recursion is structural: slots i.. are filled with
min(count, input[i]-left[i]); returns the new right and the leftover count. -/
def fillForwardAux (input left : List Nat) : Nat → List Nat → Nat → Nat → List Nat × Nat
  | 0, right, count, _ => (right, count)
  | rem + 1, right, count, i =>
    let cap := input.getD i 0 - left.getD i 0
    let t := min count cap
    fillForwardAux input left rem (right.set i t) (count - t) (i + 1)

def fillForward (input left right : List Nat) (count i : Nat) : List Nat × Nat :=
  fillForwardAux input left (input.length - i) right count i

/-- Sum of v[0..j] inclusive. -/
def sumTo (v : List Nat) (j : Nat) : Nat := (v.take j).sum

/-- The `while (index > 1)` backtracking loop of Generator::select_right.
Returns (success, right). -/
def backSearch (g : Gen) : List Nat → Nat → Nat → Bool × List Nat
  | right, 0, _ => (false, right)
  | right, 1, _ => (false, right)
  | right, i + 2, count =>
    let idx := i + 1
    let count := count + right.getD idx 0
    let ri := min count (g.input.getD idx 0 - g.left.getD idx 0)
    let right := right.set idx ri
    let count := count - ri
    if count == 0 then
      match findPositive right idx with
      | some j =>
        let right := right.set j (right.getD j 0 - 1)
        let c := panCount g - sumTo right (j + 1)
        (true, fillRight g.input g.left right c (j + 1))
      | none => (false, right)
    else
      backSearch g right idx count

/-- Outer loop of Generator::select_right, with the remaining slot count made
explicit so the recursion is structural. -/
def selectLoopAux (g : Gen) : Nat → Nat → Nat → List Nat → Bool × List Nat
  | 0, _, _, right => (true, right)
  | rem + 1, index, count, right =>
    let li := g.left.getD index 0
    let ii := g.input.getD index 0
    if ii ≥ 2 * li then
      selectLoopAux g rem (index + 1) (count - li) (right.set index li)
    else
      let ri := min count (ii - li)
      let right := right.set index ri
      let count := count - ri
      let fc := fillForward g.input g.left right count (index + 1)
      if fc.2 == 0 then (true, fc.1)
      else backSearch g fc.1 index (fc.2 + 1)

def selectLoop (g : Gen) (index count : Nat) (right : List Nat) : Bool × List Nat :=
  selectLoopAux g (g.input.length - index) index count right

/-- Generator::select_right: returns the success flag and the state with the
right pan as the routine left it (it writes every slot before returning). -/
def selectRight (g : Gen) : Bool × Gen :=
  let r := selectLoop g 0 (panCount g) g.right
  (r.1, { g with right := r.2 })

/-- Generator::advance. `none` models returning false. -/
def advance (g : Gen) : Option Gen :=
  match advanceRight g with
  | some g1 => some g1
  | none =>
    match advanceLeft g with
    | none => none
    | some g1 =>
      let sr := selectRight g1
      if sr.1 then some sr.2
      else
        let n := panCount g1 + 1
        if 2 * n > coinCount g1.input then none
        else
          let g2 := { g1 with left := fillLeft g1.input g1.left n 0 }
          some (selectRight g2).2

/-- Generator::Generator(input): first weighing takes one coin for each pan
from the earliest available parts. -/
def genInit (input : List Nat) : Gen :=
  let zeros := List.replicate input.length 0
  { input := input
    left := zeros.set 0 1
    right := if input.getD 0 0 ≥ 2 then zeros.set 0 1 else zeros.set 1 1 }

/-- The local Item structure of Generator::get. -/
structure Item where
  part : Nat
  placement : Placement
  size : Nat
deriving DecidableEq, Repr

/-- Item::operator<: by part_size, then input_part, then placement. -/
def Item.lt (a b : Item) : Bool :=
  if a.size ≠ b.size then a.size < b.size
  else if a.part ≠ b.part then a.part < b.part
  else a.placement.idx < b.placement.idx

/-- Non-strict comparator used to model std::sort with Item::operator<. -/
def Item.le (a b : Item) : Prop := ¬ Item.lt b a = true

instance : DecidableRel Item.le := fun a b => instDecidableNot

/-- The unsorted item list of Generator::get: for each input part, its
left-pan, right-pan and set-aside chunks, dropping empty chunks. -/
def buildItems (g : Gen) : List Item :=
  (List.range g.input.length).flatMap (fun i =>
    let cnt := g.input.getD i 0
    let l := g.left.getD i 0
    let r := g.right.getD i 0
    (if l > 0 then [⟨i, .LeftPan, l⟩] else []) ++
    (if r > 0 then [⟨i, .RightPan, r⟩] else []) ++
    (if cnt - l - r > 0 then [⟨i, .SetAside, cnt - l - r⟩] else []))

/-- The sorted item list of Generator::get. -/
def sortedItems (g : Gen) : List Item := List.insertionSort Item.le (buildItems g)


/-- The WPart entry of an Item. -/
def Item.prov (it : Item) : WPart := ⟨it.part, it.placement⟩

/-- Provenance vector of a weighing written with one entry per output part
(the layout Weighing2.hpp documents for the provenances member). -/
def itemsProvs (items : List Item) : List WPart := items.map Item.prov

/-- Output partition of a weighing given by its item list. -/
def itemsOutput (items : List Item) : List Nat := items.map Item.size

/-- A canonical weighing item list: strictly sorted by (size, part,
placement), at most one entry per (part, placement), all sizes positive --
the shape Generator::get produces. -/
def CanonicalItems (items : List Item) : Prop :=
  items.Pairwise (fun a b => a.size < b.size ∨ (a.size = b.size ∧ (a.part < b.part ∨
    (a.part = b.part ∧ a.placement.idx < b.placement.idx)))) ∧
  items.Pairwise (fun a b => ¬ (a.part = b.part ∧ a.placement = b.placement)) ∧
  ∀ it ∈ items, 0 < it.size

/-- The is_symmetric loop replayed directly on the item list (reading each
entry's size in place of output[i]). -/
def symItems : List Item → Nat → Nat → Bool
  | [], _, lp => lp == 0
  | z :: rest, part, lp =>
    if z.part ≠ part ∧ lp ≠ 0 then false
    else
      match z.placement with
      | .LeftPan => symItems rest z.part z.size
      | .RightPan => if lp ≠ z.size then false else symItems rest z.part 0
      | .SetAside => symItems rest z.part lp

/-- Structural characterisation of acceptance by the is_symmetric loop: every
left-pan entry is immediately followed by the matching right-pan entry of the
same part and size. -/
def pairsOK : List Item → Bool
  | [] => true
  | z :: rest =>
    match z.placement with
    | .SetAside => pairsOK rest
    | .RightPan => false
    | .LeftPan =>
      match rest with
      | [] => false
      | y :: rest2 =>
        y.part == z.part && y.placement == Placement.RightPan &&
          y.size == z.size && pairsOK rest2

/-- Number of coins an input part contributes to a pan. -/
def panSum (items : List Item) (pl : Placement) (p : Nat) : Nat :=
  ((items.filter (fun it => it.part == p && it.placement == pl)).map Item.size).sum

/-- A weighing-with-output pair (Partition2::Child, by value). -/
structure Child where
  provenances : List WPart
  output : List Nat
deriving DecidableEq, Repr

/-- Generator::get.  NOTE the faithful `List.replicate`: the source calls
provenances.resize(items.size()) and then emplace_back's each provenance,
so the vector starts with items.size() value-initialised entries. -/
def genGet (g : Gen) : Child :=
  let items := sortedItems g
  { provenances := List.replicate items.length WPart.default ++
      items.map (fun it => ⟨it.part, it.placement⟩)
    output := items.map (·.size) }

/-- Weighing enumeration (Partition2::get_children's do/while loop), with fuel. -/
def genChildren : Gen → Nat → List Child
  | g, 0 => [genGet g]
  | g, fuel + 1 =>
    genGet g :: (match advance g with
      | none => []
      | some g1 => genChildren g1 fuel)

/-- The (left, right) selections visited by the generator, with fuel. -/
def genSelections : Gen → Nat → List (List Nat × List Nat)
  | g, 0 => [(g.left, g.right)]
  | g, fuel + 1 =>
    (g.left, g.right) :: (match advance g with
      | none => []
      | some g1 => genSelections g1 fuel)



/-- Weighing2::input_size: 1 + max part index over the provenance entries. -/
def inputSize (provenances : List WPart) : Nat :=
  (provenances.foldl (fun m p => if p.part > m then p.part else m) 0) + 1

/-- Weighing2::input_parts: sizes of the input partition, deduced by summing
output part sizes by provenance part.  Out-of-range reads of the output
partition (which are undefined behaviour in the source) are modelled as 0. -/
def inputParts (provenances : List WPart) (output : List Nat) : List Nat :=
  (List.range provenances.length).foldl
    (fun result i =>
      let p := (provenances.getD i WPart.default).part
      result.set p (result.getD p 0 + output.getD i 0))
    (List.replicate (inputSize provenances) 0)

/-- Weighing2::pan_contents. -/
def panContents (provenances : List WPart) (output : List Nat) (pl : Placement) : List Nat :=
  (List.range provenances.length).foldl
    (fun result i =>
      if (provenances.getD i WPart.default).placement = pl then
        result.set (provenances.getD i WPart.default).part
          (result.getD (provenances.getD i WPart.default).part 0 + output.getD i 0)
      else result)
    (List.replicate (inputSize provenances) 0)

/-- Weighing2::is_symmetric's loop, `lp` is left_pan, `part` the current part
(initially the sentinel 255). -/
def symLoop (output : List Nat) : List WPart → Nat → Nat → Nat → Bool
  | [], _, lp, _ => lp == 0
  | p :: ps, part, lp, i =>
    if p.part ≠ part ∧ lp ≠ 0 then false
    else
      let part := p.part
      match p.placement with
      | .LeftPan => symLoop output ps part (output.getD i 0) (i + 1)
      | .RightPan =>
        if lp ≠ output.getD i 0 then false else symLoop output ps part 0 (i + 1)
      | .SetAside => symLoop output ps part lp (i + 1)

/-- Weighing2::is_symmetric. -/
def isSymmetric (provenances : List WPart) (output : List Nat) : Bool :=
  symLoop output provenances 255 0 0



/-- The three outcomes of a weighing (Types2.h). -/
inductive Outcome
  | LeftHeavier
  | RightHeavier
  | Balances
deriving DecidableEq, Repr

def Outcome.list : List Outcome := [.LeftHeavier, .RightHeavier, .Balances]

/-- OutcomeArray D: one value per outcome. -/
structure OutcomeArray (D : Type _) where
  left : D
  right : D
  balance : D
deriving DecidableEq, Repr

def OutcomeArray.get {D : Type _} (a : OutcomeArray D) : Outcome → D
  | .LeftHeavier => a.left
  | .RightHeavier => a.right
  | .Balances => a.balance

def OutcomeArray.set {D : Type _} (a : OutcomeArray D) : Outcome → D → OutcomeArray D
  | .LeftHeavier, v => { a with left := v }
  | .RightHeavier, v => { a with right := v }
  | .Balances, v => { a with balance := v }

/-- Special resolved depth: no estimate yet (Manager2.hpp DEPTH_INFINITY). -/
def DEPTH_INF : Nat := 255

/-- Manager2::Child: for each outcome the resulting state (none when omitted),
plus the weighing number for reporting. -/
structure EChild (σ : Type _) where
  keys : OutcomeArray (Option σ)
  weighingNumber : Nat
deriving DecidableEq

/-- Manager2::Status. -/
structure Status (σ : Type _) where
  children : List (EChild σ) := []
  depth_max : Nat := DEPTH_INF
  depth_min : Nat := 0
deriving DecidableEq

def Status.isResolved {σ : Type _} (st : Status σ) : Bool := st.depth_min == st.depth_max

def Status.isExpanded {σ : Type _} (st : Status σ) : Bool :=
  st.depth_max != DEPTH_INF || !st.children.isEmpty

/-- The manager's states map (std::map<Key, Status>), modelled as the partial
function from problem states to their Status. -/
def States (σ : Type _) : Type _ := σ → Option (Status σ)

variable {σ : Type _} [DecidableEq σ]

def States.lookup (m : States σ) (s : σ) : Option (Status σ) := m s

/-- Write the status stored under a key that is already present (all engine
writes go through handles obtained from the map). -/
def States.update (m : States σ) (s : σ) (st : Status σ) : States σ :=
  fun t => if t = s then (m s).map (fun _ => st) else m t

/-- states.try_emplace: insert a fresh entry only if the key is absent. -/
def States.emplace (m : States σ) (s : σ) (st : Status σ) : States σ :=
  match m s with
  | some _ => m
  | none => fun t => if t = s then some st else m t

/-- A problem plugged into the engine (StateTemplates.h concept Problem),
together with the partition/weighing services the engine uses.  `W` stands for
one entry of Partition2::get_children (a weighing and its output partition);
`applyW` is Problem::apply_weighing, `isSolved` Problem::is_solved,
`symW` Weighing2::is_symmetric on the weighing and its output partition, and
`weighings` the cached list Partition2::get_children of the state's partition. -/
structure Engine (σ W : Type _) where
  applyW : σ → W → OutcomeArray (Option σ)
  isSolved : σ → Bool
  symW : W → Bool
  weighings : σ → List W
  root : σ

variable {W : Type _}

/-- Canonical form of an OutcomeArray of keys, modelling the sorted `probe`
array used for duplicate-weighing suppression: two weighings collide exactly
when their key arrays agree as multisets (pointer order on interned states is
an arbitrary total order). -/
def probeOf (a : OutcomeArray (Option σ)) : Multiset (Option σ) :=
  {a.left, a.right, a.balance}

/-- Accumulator of the expand loop over weighings. -/
structure ExpandAcc (σ : Type _) where
  states : σ → Option (Status σ)
  seen : List (Multiset (Option σ))
  worst : Nat

/-- Outcome-interning step of Manager2::expand (the inner `for i` loop),
processing one outcome.  Returns the updated states / keys / deepest / worst. -/
def internOutcome (eng : Engine σ W) (o : Outcome) (out : Option σ)
    (acc : States σ × OutcomeArray (Option σ) × Nat × Nat) :
    States σ × OutcomeArray (Option σ) × Nat × Nat :=
  match out with
  | none => acc
  | some t =>
    let (m, keys, deepest, worst) := acc
    match States.lookup m t with
    | none =>
      if eng.isSolved t then
        (States.emplace m t { children := [], depth_max := 0, depth_min := 0 },
         keys.set o (some t), deepest, worst)
      else
        (States.emplace m t { children := [], depth_max := DEPTH_INF, depth_min := 1 },
         keys.set o (some t), DEPTH_INF, 1)
    | some ts =>
      (m, keys.set o (some t), max deepest ts.depth_max,
       if ts.depth_min < ts.depth_max then min worst ts.depth_min else worst)

/-- One weighing of the Manager2::expand loop.  `.error` models the early
return taken when every non-none outcome is solved. -/
def expandStep (eng : Engine σ W) (s : σ) (wIdx : Nat) (w : W) (acc : ExpandAcc σ) :
    Except (States σ) (ExpandAcc σ) :=
  let outcomes := eng.applyW s w
  let impossible := (Outcome.list.filter (fun o => (outcomes.get o).isNone)).length
  if impossible ≥ 2 then .ok acc
  else
    let outcomes := if eng.symW w then outcomes.set .RightHeavier none else outcomes
    let res := Outcome.list.foldl
      (fun r o => internOutcome eng o (outcomes.get o) r)
      (acc.states, ⟨none, none, none⟩, 0, acc.worst)
    let (m, keys, deepest, worst) := res
    if deepest == 0 then
      match States.lookup m s with
      | none => .ok { states := m, seen := acc.seen, worst := worst }
      | some st =>
        .error (States.update m s
          { st with children := [⟨keys, wIdx⟩], depth_min := 1, depth_max := 1 })
    else
      let probe := probeOf keys
      if acc.seen.contains probe then
        .ok { states := m, seen := acc.seen, worst := worst }
      else
        match States.lookup m s with
        | none => .ok { states := m, seen := acc.seen ++ [probe], worst := worst }
        | some st =>
          let st := { st with children := st.children ++ [⟨keys, wIdx⟩] }
          let st := if deepest < DEPTH_INF ∧ st.depth_max > deepest + 1 then
              { st with depth_max := deepest + 1 } else st
          .ok { states := States.update m s st, seen := acc.seen ++ [probe],
                worst := worst }

/-- Fold of expandStep over an indexed list of weighings, propagating the
early return. -/
def expandFold (eng : Engine σ W) (s : σ) :
    Nat → List W → ExpandAcc σ → Except (States σ) (ExpandAcc σ)
  | _, [], acc => .ok acc
  | i, w :: ws, acc =>
    match expandStep eng s i w acc with
    | .error m => .error m
    | .ok acc1 => expandFold eng s (i + 1) ws acc1

/-- Closing step of Manager2::expand: set depth_min from worst_child_min_depth. -/
def expandFinish (s : σ) (acc : ExpandAcc σ) : States σ :=
  match States.lookup acc.states s with
  | none => acc.states
  | some st =>
    if acc.worst == DEPTH_INF then
      States.update acc.states s { st with depth_min := st.depth_max }
    else
      States.update acc.states s
        { st with depth_min := min (acc.worst + 1) st.depth_max }

/-- Manager2::expand on an explicit weighing list. -/
def expandList (eng : Engine σ W) (s : σ) (ws : List W) (m : States σ) : States σ :=
  match States.lookup m s with
  | none => m
  | some st =>
    if st.isExpanded then m
    else
      match expandFold eng s 0 ws { states := m, seen := [], worst := DEPTH_INF } with
      | .error m1 => m1
      | .ok acc => expandFinish s acc

/-- Manager2::expand. -/
def expand (eng : Engine σ W) (s : σ) (m : States σ) : States σ :=
  expandList eng s (eng.weighings s) m

/-- Status value read from the map (engine code only reads present nodes). -/
def statusOf (m : States σ) (s : σ) : Status σ :=
  (States.lookup m s).getD {}

/-- The outcome states of one Child, in outcome order (the iterator's
advance_outcome order). -/
def childKeys (c : EChild σ) : List σ :=
  Outcome.list.filterMap (fun o => c.keys.get o)

/-- One weighing group of the improve_node child loop: improve every present
outcome with the smaller target (`impr` is improve_node at target - 1),
collecting the worst depth_max of the group and threading worst_child_min. -/
def improveGroup (impr : σ → States σ → States σ) (c : EChild σ)
    (m : States σ) (worstMin : Nat) : States σ × Nat × Nat :=
  (childKeys c).foldl
    (fun (r : States σ × Nat × Nat) k =>
      let m1 := impr k r.1
      let ks := statusOf m1 k
      (m1, max r.2.1 ks.depth_max,
       if ks.isResolved then r.2.2 else min r.2.2 ks.depth_min))
    (m, 0, worstMin)

/-- The `do { ... } while (node.advance_sibling())` loop of improve_node.
`.error` models the early return taken when lowering depth_max resolves the
node. -/
def improveChildren (impr : σ → States σ → States σ) (s : σ) :
    List (EChild σ) → States σ → Nat → Except (States σ) (States σ × Nat)
  | [], m, worstMin => .ok (m, worstMin)
  | c :: cs, m, worstMin =>
    let r := improveGroup impr c m worstMin
    let m1 := r.1
    let worstMax := r.2.1
    let worstMin1 := r.2.2
    let st1 := statusOf m1 s
    if worstMax ≠ DEPTH_INF ∧ worstMax + 1 < st1.depth_max then
      let st2 := { st1 with depth_max := worstMax + 1 }
      let m2 := States.update m1 s st2
      if st2.isResolved then .error m2
      else improveChildren impr s cs m2 worstMin1
    else improveChildren impr s cs m1 worstMin1

/-- Manager2::improve_node.  Recursion is on the target depth, which the
source decrements on each recursive call (the guard depth_min ≥ target always
exits at target 0, so the 0 case below is never reached past the guard). -/
def improve (eng : Engine σ W) : Nat → σ → States σ → States σ
  | t, s, m =>
    let m := expand eng s m
    let st := statusOf m s
    if st.isResolved || st.depth_min ≥ t then m
    else
      match t with
      | 0 => m
      | t' + 1 =>
        match improveChildren (improve eng t') s st.children m DEPTH_INF with
        | .error m1 => m1
        | .ok (m1, worstMin) =>
          let st1 := statusOf m1 s
          if worstMin == DEPTH_INF then
            States.update m1 s { st1 with depth_min := st1.depth_max }
          else
            States.update m1 s
              { st1 with depth_min := min (worstMin + 1) st1.depth_max }

/-- Manager2::clear: a map holding just the root with a default Status. -/
def clearMap (eng : Engine σ W) : States σ :=
  fun t => if t = eng.root then some {} else none

/-- The sequence of states maps seen at the call boundaries of
Manager2::solve_breadth: after clear + the initial expand, then after each
improve_node call.  The driver loop runs while the root is unresolved and its
depth_min is below stop_depth; `stop_depth - depth_min` bounds the fuel since
every iteration must raise depth_min for the loop to continue. -/
def solveTraceAux (eng : Engine σ W) (stop : Nat) : Nat → States σ → List (States σ)
  | 0, m => [m]
  | fuel + 1, m =>
    let st := statusOf m eng.root
    if st.isResolved || ¬ (st.depth_min < stop) then [m]
    else
      let m1 := improve eng (st.depth_min + 1) eng.root m
      m :: solveTraceAux eng stop fuel m1

/-- The states maps at the call boundaries of solve_breadth: after clear, after
the initial expand of the root, then after each improve_node iteration of the
driver's while loop. -/
def solveTrace (eng : Engine σ W) (stop fuel : Nat) : List (States σ) :=
  let m0 := clearMap eng
  let m1 := expand eng eng.root m0
  m0 :: solveTraceAux eng stop fuel m1



/-- A Distribution gives, for each part, the number of H coins in the part. -/
abbrev Distribution := List Nat
abbrev Distributions := List (List Nat)

/-- ProblemFindMajority2::is_majority: accumulate H coins, answering true as
soon as the threshold is reached. -/
def isMajorityLoop (threshold : Nat) : List Nat → Nat → Bool
  | [], _ => false
  | c :: cs, h => if h + c ≥ threshold then true else isMajorityLoop threshold cs (h + c)

def isMajority (threshold : Nat) (d : Distribution) : Bool :=
  isMajorityLoop threshold d 0

/-- apply_weighing_to_distribution: count the H coins each pan receives and
compare. -/
def outcomeOf (w : List WPart) (d : Distribution) : Outcome :=
  let counts := (List.range w.length).foldl
    (fun (r : Nat × Nat) i =>
      match (w.getD i WPart.default).placement with
      | .LeftPan => (r.1 + d.getD i 0, r.2)
      | .RightPan => (r.1, r.2 + d.getD i 0)
      | .SetAside => r)
    (0, 0)
  if counts.1 > counts.2 then .LeftHeavier
  else if counts.2 > counts.1 then .RightHeavier
  else .Balances

/-- Marker prefixed to a group that may not be joined (UniquePartMarker). -/
def UniquePartMarker : Nat := 255

/-- Try to join part `index` into the first group whose sample column has H
coins in the same rows (the inner `for (auto& group : groups)` loop of
join_same_variety). -/
def tryJoin (ds : Distributions) (index psize : Nat) :
    List (List Nat × Nat) → Option (List (List Nat × Nat))
  | [] => none
  | g :: gs =>
    let sample := g.1.headD 0
    if sample == UniquePartMarker then
      (tryJoin ds index psize gs).map (g :: ·)
    else if ds.all (fun d => ((d.getD index 0 == 0) == (d.getD sample 0 == 0))) then
      some ((g.1 ++ [index], g.2 + psize) :: gs)
    else
      (tryJoin ds index psize gs).map (g :: ·)

/-- One index of the group-building loop of join_same_variety. -/
def groupStep (ds : Distributions) (partition : List Nat)
    (groups : List (List Nat × Nat)) (index : Nat) : List (List Nat × Nat) :=
  let psize := partition.getD index 0
  let isCandidate :=
    psize ≤ 1 || ds.all (fun d => d.getD index 0 == 0 || d.getD index 0 == psize)
  if isCandidate then
    match tryJoin ds index psize groups with
    | some groups1 => groups1
    | none => groups ++ [([index], psize)]
  else
    groups ++ [([UniquePartMarker, index], psize)]

/-- compare_groups: ascending part size, ties by first (non-marker) index. -/
def groupKey (g : List Nat × Nat) : Nat :=
  match g.1 with
  | [] => 0
  | x :: xs => if x == UniquePartMarker then xs.headD 0 else x

def groupLt (a b : List Nat × Nat) : Bool :=
  if a.2 ≠ b.2 then a.2 < b.2 else groupKey a < groupKey b

def groupLe (a b : List Nat × Nat) : Prop := ¬ groupLt b a = true

instance : DecidableRel groupLe := fun _ _ => instDecidableNot

/-- Entry of the output distribution contributed by one group. -/
def groupValue (d : Distribution) (g : List Nat × Nat) : Nat :=
  match g.1 with
  | [] => 0
  | x :: xs =>
    if x == UniquePartMarker then d.getD (xs.headD 0) 0
    else (g.1.map (fun i => d.getD i 0)).sum

/-- ProblemFindMajority2::join_same_variety.  Returns none when no parts can
be joined (the source returns nullptr and leaves the output distributions
untouched); otherwise the joined partition and the joined distributions. -/
def joinSameVariety (ds : Distributions) (partition : List Nat) :
    Option (List Nat × Distributions) :=
  let groups := (List.range partition.length).foldl (groupStep ds partition) []
  if groups.length == partition.length then none
  else
    let groups := List.insertionSort groupLe groups
    some (groups.map (·.2), ds.map (fun d => groups.map (groupValue d)))

/-- Lexicographic < on lists of naturals (std::vector operator<=>). -/
def listLtNat : List Nat → List Nat → Bool
  | [], [] => false
  | [], _ :: _ => true
  | _ :: _, [] => false
  | a :: as_, b :: bs => if a < b then true else if b < a then false else listLtNat as_ bs

/-- Lexicographic < on vectors of vectors. -/
def distsLt : Distributions → Distributions → Bool
  | [], [] => false
  | [], _ :: _ => true
  | _ :: _, [] => false
  | a :: as_, b :: bs =>
    if listLtNat a b then true else if listLtNat b a then false else distsLt as_ bs

def rowLe (a b : List Nat) : Prop := ¬ listLtNat b a = true

instance : DecidableRel rowLe := fun _ _ => instDecidableNot

/-- PartCompareHelper: the part size followed by the sorted column values. -/
def partHelper (ds : Distributions) (partition : List Nat) (i : Nat) : List Nat :=
  partition.getD i 0 :: List.insertionSort (· ≤ ·) (ds.map (fun d => d.getD i 0))

/-- The comparator sorting part indexes by their PartCompareHelper values. -/
def helperIdxLe (helpers : List (List Nat)) (a b : Nat) : Prop :=
  ¬ listLtNat (helpers.getD b []) (helpers.getD a []) = true

instance (helpers : List (List Nat)) : DecidableRel (helperIdxLe helpers) :=
  fun _ _ => instDecidableNot

/-- ColumnCompare: compare two part indexes lexicographically by their columns. -/
def columnLt (ds : Distributions) (a b : Nat) : Bool :=
  if a == b then false
  else listLtNat (ds.map (fun d => d.getD a 0)) (ds.map (fun d => d.getD b 0))

def columnLe (ds : Distributions) (a b : Nat) : Prop := ¬ columnLt ds b a = true

instance (ds : Distributions) : DecidableRel (columnLe ds) := fun _ _ => instDecidableNot

/-- The maximal runs (start, length) of helper-equal entries in sorted_indexes,
keeping only runs of at least two entries. -/
def rangesOf (eqh : Nat → Nat → Bool) (si : List Nat) : List (Nat × Nat) :=
  let runs := si.foldl
    (fun (acc : List (Nat × Nat × Nat) × Nat) i =>
      match acc.1 with
      | [] => ([(i, acc.2, 1)], acc.2 + 1)
      | (j, st, len) :: rest =>
        if eqh j i then ((j, st, len + 1) :: rest, acc.2 + 1)
        else ((i, acc.2, 1) :: (j, st, len) :: rest, acc.2 + 1))
    ([], 0)
  (runs.1.reverse.filterMap (fun r => if r.2.2 ≥ 2 then some (r.2.1, r.2.2) else none))

def sublistRange (l : List Nat) (start len : Nat) : List Nat := (l.drop start).take len

def spliceRange (l : List Nat) (start len : Nat) (rep : List Nat) : List Nat :=
  l.take start ++ rep ++ l.drop (start + len)

/-- std::next_permutation with comparator `lt`: returns whether a next
permutation exists together with the successor (or the reset first
permutation). -/
def nextPermutation (lt : Nat → Nat → Bool) (l : List Nat) : Bool × List Nat :=
  let n := l.length
  let pivot := (List.range (n - 1)).foldl
    (fun acc i => if lt (l.getD i 0) (l.getD (i + 1) 0) then some i else acc) none
  match pivot with
  | none => (false, l.reverse)
  | some i =>
    let j := (List.range n).foldl
      (fun acc k => if k > i ∧ lt (l.getD i 0) (l.getD k 0) then some k else acc) none
    match j with
    | none => (false, l.reverse)
    | some j =>
      let li := l.getD i 0
      let lj := l.getD j 0
      let swapped := (l.set i lj).set j li
      (true, swapped.take (i + 1) ++ (swapped.drop (i + 1)).reverse)

/-- advance_sorted_index: find the first range with a next permutation,
resetting the ranges that had run out. -/
def advanceSortedIndex (lt : Nat → Nat → Bool) :
    List (Nat × Nat) → List Nat → Bool × List Nat
  | [], si => (false, si)
  | (st, len) :: rs, si =>
    let r := nextPermutation lt (sublistRange si st len)
    let si1 := spliceRange si st len r.2
    if r.1 then (true, si1) else advanceSortedIndex lt rs si1

/-- reorder_distribution: permute the columns of every row by sorted_indexes,
then sort the rows. -/
def reorderDistribution (ds : Distributions) (si : List Nat) : Distributions :=
  List.insertionSort rowLe (ds.map (fun d => si.map (fun j => d.getD j 0)))

/-- The capped permutation search loop of simplify_state; counter starts at 1
and the loop exits once it passes 5040, so fuel 5041 never runs out first. -/
def permLoop (lt : Nat → Nat → Bool) (ds : Distributions) (ranges : List (Nat × Nat)) :
    Nat → Nat → List Nat → Distributions → Distributions
  | 0, _, _, best => best
  | fuel + 1, counter, si, best =>
    let r := advanceSortedIndex lt ranges si
    if r.1 ∧ counter ≤ 5040 then
      let ws := reorderDistribution ds r.2
      permLoop lt ds ranges fuel (counter + 1) r.2 (if distsLt ws best then ws else best)
    else best

def isAscending : List Nat → Bool
  | [] => true
  | [_] => true
  | x :: y :: r => x ≤ y && isAscending (y :: r)

/-- A canonicalized problem state (ProblemFindMajority2::StateType; the
derived `score` field takes no part in the state's identity and is omitted). -/
structure MState where
  distributions : Distributions
  partition : List Nat
deriving DecidableEq, Repr

/-- ProblemFindMajority2::simplify_state: variety swap, column sort, capped
permutation search over tied columns, row sort. -/
def simplifyState (coinCount : Nat) (ds0 : Distributions) (partition : List Nat) : MState :=
  -- variety swap
  let hCount := (ds0.map (fun d => d.sum)).sum
  let lCount := ds0.length * coinCount - hCount
  let swapCoins :=
    if hCount == lCount then
      let h2 := ((List.range partition.length).map (fun i =>
        (ds0.map (fun d => d.getD i 0 * d.getD i 0)).sum)).sum
      let l2 := ((List.range partition.length).map (fun i =>
        (ds0.map (fun d =>
          (partition.getD i 0 - d.getD i 0) * (partition.getD i 0 - d.getD i 0))).sum)).sum
      decide (l2 > h2)
    else decide (lCount > hCount)
  let ds := if swapCoins then
      ds0.map (fun d => (List.range partition.length).map
        (fun i => partition.getD i 0 - d.getD i 0))
    else ds0
  -- column sort
  let helpers := (List.range partition.length).map (partHelper ds partition)
  let si := List.insertionSort (helperIdxLe helpers) (List.range partition.length)
  let hEq := fun a b => helpers.getD a [] == helpers.getD b []
  let ranges := rangesOf hEq si
  if ranges.isEmpty then
    let ds1 := if isAscending si then ds
      else ds.map (fun d => si.map (fun j => d.getD j 0))
    { distributions := List.insertionSort rowLe ds1, partition := partition }
  else
    let lt := columnLt ds
    let si := ranges.foldl
      (fun si r => spliceRange si r.1 r.2
        (List.insertionSort (columnLe ds) (sublistRange si r.1 r.2))) si
    let best := reorderDistribution ds si
    { distributions := permLoop lt ds ranges 5041 1 si best, partition := partition }

/-- ProblemFindMajority2::simplify_partition for the default SameVariety join
strategy (the strategy the problem instances under test are constructed with). -/
def simplifyPartition (coinCount : Nat) (ds : Distributions) (partition : List Nat) :
    Option MState :=
  if ds.isEmpty then none
  else
    match joinSameVariety ds partition with
    | some jp => some (simplifyState coinCount jp.2 jp.1)
    | none => some (simplifyState coinCount ds partition)

/-- ProblemFindMajority2::apply_weighing_to_distributions. -/
def applyWeighingToDistributions (coinCount : Nat) (ds : Distributions)
    (w : List WPart) (partition : List Nat) : OutcomeArray (Option MState) :=
  { left := simplifyPartition coinCount (ds.filter (fun d => outcomeOf w d == .LeftHeavier)) partition
    right := simplifyPartition coinCount (ds.filter (fun d => outcomeOf w d == .RightHeavier)) partition
    balance := simplifyPartition coinCount (ds.filter (fun d => outcomeOf w d == .Balances)) partition }

/-- ProblemFindMajority2::is_solved. -/
def isSolvedLoop (threshold : Nat) : Distributions → Bool → Bool → Bool
  | [], _, _ => true
  | d :: rest, seenMaj, seenMin =>
    if isMajority threshold d then
      if seenMin then false else isSolvedLoop threshold rest true seenMin
    else if seenMaj then false
    else isSolvedLoop threshold rest seenMaj true

def stateIsSolved (threshold : Nat) (st : MState) : Bool :=
  isSolvedLoop threshold st.distributions false false

/-- Modelled from the spec: Partition2::get_root is called by make_root but is
absent from the sources; per the spec the initial state lives at the trivial
one-part partition of all coins. -/
def rootPartition (coinCount : Nat) : List Nat := [coinCount]

/-- ProblemFindMajority2::make_root with the almost-balanced constraint. -/
def makeRoot (coinCount : Nat) : MState :=
  let threshold := (coinCount + 1) / 2
  let minimumCount := threshold - 1
  let maximumCount := threshold
  { distributions := (List.range (maximumCount + 1 - minimumCount)).map
      (fun k => [minimumCount + k])
    partition := rootPartition coinCount }

/-- The split_indexes vector built by the SplitGenerator constructor: for each
input part, the list of output-part indexes that derive from it. -/
def splitIndexes (w : List WPart) (inputSize : Nat) : List (List Nat) :=
  (List.range w.length).foldl
    (fun acc i =>
      let p := (w.getD i WPart.default).part
      acc.set p (acc.getD p [] ++ [i]))
    (List.replicate inputSize [])


-- ////////////////////////////////////////////////////////////////////////////
-- Definitions supporting C7 and C10

/-- Numeric value of an outcome (Types2.h enum ordering, Begin..End). -/
def Outcome.idx : Outcome → Nat
  | .LeftHeavier => 0
  | .RightHeavier => 1
  | .Balances => 2

/-- The effective outcome array examined by expand for one weighing: the
problem's answer, with the RightHeavier outcome discarded when the weighing is
symmetric (Manager2.hpp:539-546). -/
def effOuts (eng : Engine σ W) (s : σ) (w : W) : OutcomeArray (Option σ) :=
  if eng.symW w then (eng.applyW s w).set .RightHeavier none else eng.applyW s w

/-- An outcome state that expand will see as solved: if it is already interned
its depth_max is 0, and if it is fresh the problem reports it solved. -/
def GoodOut (eng : Engine σ W) (m : States σ) (t : σ) : Prop :=
  (∀ ts, m t = some ts → ts.depth_max = 0) ∧ (m t = none → eng.isSolved t = true)

/-- Invariant: every Child recorded anywhere in the states map has at least one
non-null outcome key. -/
def ChildInv (m : States σ) : Prop :=
  ∀ s st, m s = some st → ∀ c ∈ st.children, childKeys c ≠ []

/-- The `for (int outcome = Outcome::Begin; ...)` scan shared by
advance_first_child and advance_sibling: the first outcome of the child with a
non-null key, together with its state. -/
def firstChildKey (c : EChild σ) : Option (Outcome × σ) :=
  (Outcome.list.filterMap (fun o => (c.keys.get o).map (fun t => (o, t)))).head?

/-- Manager2::Iterator::advance_first_child on the current node's Status.
`none` models returning false (no children); `some (.ok p)` models advancing to
the first child's first keyed outcome; `some (.error ())` models the
`assert(false)` branch reached when the first child has no keyed outcome. -/
def advanceFirstChild (st : Status σ) : Option (Except Unit (Outcome × σ)) :=
  match st.children with
  | [] => none
  | c :: _ =>
    match firstChildKey c with
    | some p => some (.ok p)
    | none => some (.error ())

/-- Manager2::Iterator::advance_outcome on the current child: the first keyed
outcome strictly after the current one. -/
def advanceOutcome (c : EChild σ) (o : Outcome) : Option (Outcome × σ) :=
  ((Outcome.list.filter (fun q => o.idx < q.idx)).filterMap
    (fun q => (c.keys.get q).map (fun t => (q, t)))).head?

/-- Manager2::Iterator::advance_sibling given the parent's Status, the current
child number and outcome.  `none` models returning false; `some (.ok ...)` an
advance; `some (.error ())` the `assert(false)` branch reached when the next
child has no keyed outcome. -/
def advanceSibling (isRoot : Bool) (st : Status σ) (cn : Nat) (o : Outcome) :
    Option (Except Unit (Nat × Outcome × σ)) :=
  if isRoot then none
  else
    match st.children[cn]? with
    | none => none
    | some c =>
      match advanceOutcome c o with
      | some p => some (.ok (cn, p))
      | none =>
        if cn + 1 == st.children.length then none
        else
          match st.children[cn + 1]? with
          | none => none
          | some c1 =>
            match firstChildKey c1 with
            | some p => some (.ok (cn + 1, p))
            | none => some (.error ())

/-- A small concrete engine used to witness the engine-level theorems: the
root 0 has a single weighing leading to two fresh solved states 1 and 2. -/
def demoEngine : Engine Nat Nat :=
  ⟨fun _ _ => ⟨some 1, some 2, none⟩, fun t => t != 0, fun _ => false,
   fun _ => [0], 0⟩


-- ////////////////////////////////////////////////////////////////////////////
-- Definitions supporting C6 (monotone bounds)

/-- A weighing that expand discards for having two or more impossible
outcomes. -/
def Skipped (eng : Engine σ W) (s : σ) (w : W) : Prop :=
  (Outcome.list.filter (fun o => ((eng.applyW s w).get o).isNone)).length ≥ 2

/-- Every weighing of the state is discarded. -/
def AllSkip (eng : Engine σ W) (s : σ) : Prop :=
  ∀ w ∈ eng.weighings s, Skipped eng s w

/-- The monotone-bounds order between two states maps: every entry persists,
its depth_min never decreases and its depth_max never increases. -/
def MapLe (m1 m2 : States σ) : Prop :=
  ∀ s st1, m1 s = some st1 → ∃ st2, m2 s = some st2 ∧
    st1.depth_min ≤ st2.depth_min ∧ st2.depth_max ≤ st1.depth_max

/-- A rank function certifying that retained weighings always lead to strictly
smaller states; the MAJORITY problem satisfies this with the number of
distributions, since every retained outcome keeps strictly fewer
distributions than its parent. -/
def RankedEngine (eng : Engine σ W) (rank : σ → Nat) : Prop :=
  ∀ s w, w ∈ eng.weighings s → ¬ Skipped eng s w →
    ∀ o t, (effOuts eng s w).get o = some t → rank t < rank s

/-- The search invariant maintained by expand and improve_node on the states
map. -/
structure InvS (eng : Engine σ W) (rank : σ → Nat) (m : States σ) : Prop where
  le : ∀ s st, m s = some st → st.depth_min ≤ st.depth_max
  ub : ∀ s st, m s = some st → st.depth_max ≤ DEPTH_INF
  unexp : ∀ s st, m s = some st → st.isExpanded = false →
    st.depth_min ≤ 1 ∨ (st.depth_min = st.depth_max ∧ AllSkip eng s)
  pos : ∀ s st, m s = some st → st.isExpanded = true →
    st.depth_min ≠ st.depth_max → 1 ≤ st.depth_min
  closed : ∀ s st, m s = some st → ∀ c ∈ st.children, ∀ k ∈ childKeys c,
    rank k < rank s ∧ ∃ stk, m k = some stk
  kbound : ∀ s st, m s = some st → st.depth_min ≠ st.depth_max →
    ∀ c ∈ st.children, ∃ k ∈ childKeys c, ∃ stk, m k = some stk ∧
      (st.depth_min ≤ 1 + stk.depth_min ∨
       (stk.depth_min = 0 ∧ st.depth_min ≤ 2))
  kmax1 : ∀ s st, m s = some st → st.depth_min ≠ st.depth_max →
    ∀ c ∈ st.children, ∃ k ∈ childKeys c, ∃ stk, m k = some stk ∧ 1 ≤ stk.depth_max

/-- Invariant of the expand loop accumulator while expanding an unexpanded
state s whose depth_min is at most 1. -/
structure EFInv (eng : Engine σ W) (rank : σ → Nat) (s : σ) (m0 : States σ)
    (st0 : Status σ) (acc : ExpandAcc σ) : Prop where
  le : ∀ u stu, acc.states u = some stu → stu.depth_min ≤ stu.depth_max
  ub : ∀ u stu, acc.states u = some stu → stu.depth_max ≤ DEPTH_INF
  unexp : ∀ u stu, acc.states u = some stu → stu.isExpanded = false →
    stu.depth_min ≤ 1 ∨ (stu.depth_min = stu.depth_max ∧ AllSkip eng u)
  pos : ∀ u stu, acc.states u = some stu → u ≠ s → stu.isExpanded = true →
    stu.depth_min ≠ stu.depth_max → 1 ≤ stu.depth_min
  closed : ∀ u stu, acc.states u = some stu → ∀ c ∈ stu.children, ∀ k ∈ childKeys c,
    rank k < rank u ∧ ∃ stk, acc.states k = some stk
  kbound : ∀ u stu, acc.states u = some stu → stu.depth_min ≠ stu.depth_max →
    ∀ c ∈ stu.children, ∃ k ∈ childKeys c, ∃ stk, acc.states k = some stk ∧
      (stu.depth_min ≤ 1 + stk.depth_min ∨
       (stk.depth_min = 0 ∧ stu.depth_min ≤ 2))
  kmax1 : ∀ u stu, acc.states u = some stu → stu.depth_min ≠ stu.depth_max →
    ∀ c ∈ stu.children, ∃ k ∈ childKeys c, ∃ stk, acc.states k = some stk ∧
      1 ≤ stk.depth_max
  pres : ∀ u stu, m0 u = some stu → u ≠ s → acc.states u = some stu
  sentry : ∃ st', acc.states s = some st' ∧ st'.depth_min = st0.depth_min ∧
    st'.depth_max ≤ st0.depth_max ∧ 1 ≤ st'.depth_max
  worstUB : acc.worst ≤ DEPTH_INF
  childOK : ∀ st', acc.states s = some st' → ∀ c ∈ st'.children,
    ∃ k ∈ childKeys c, ∃ stk, acc.states k = some stk ∧
      ((stk.depth_min = stk.depth_max ∧ st'.depth_max ≤ 1 + stk.depth_max) ∨
       acc.worst ≤ stk.depth_min ∨
       (stk.depth_min = 0 ∧ acc.worst ≤ 1))
  skipNil : ∀ st', acc.states s = some st' → st'.children = [] →
    acc.seen = [] ∧ acc.worst = DEPTH_INF

/-- What one weighing group of improve_node guarantees about the fold result:
invariants and monotonicity, the two worst accumulators, and the kbound
witness classes for the group. -/
structure GFacts (eng : Engine σ W) (rank : σ → Nat) (s : σ) (t' : Nat)
    (m : States σ) (kl : List σ) (wMax0 wMin0 : Nat)
    (r : States σ × Nat × Nat) : Prop where
  inv : InvS eng rank r.1
  mle : MapLe m r.1
  frame : ∀ u stu, m u = some stu → rank s ≤ rank u → r.1 u = some stu
  pres1 : ∀ u stu stu', m u = some stu → r.1 u = some stu' →
    1 ≤ stu.depth_max → 1 ≤ stu'.depth_max
  wminle : r.2.2 ≤ wMin0
  wmininv : r.2.2 = wMin0 ∨ t' ≤ r.2.2
  wmaxge : wMax0 ≤ r.2.1
  dom : ∀ k ∈ kl, ∀ stk, r.1 k = some stk → stk.depth_max ≤ r.2.1
  classes : (∃ k ∈ kl, ∃ stk, r.1 k = some stk ∧ r.2.2 ≤ stk.depth_min) ∨
    ((∀ k ∈ kl, ∀ stk, r.1 k = some stk → stk.depth_min = stk.depth_max) ∧
     (r.2.1 = wMax0 ∨ ∃ k ∈ kl, ∃ stk, r.1 k = some stk ∧
       stk.depth_min = stk.depth_max ∧ stk.depth_max = r.2.1))

/-- A two-leaf toy problem: the root state 0 has one weighing sending the
left and right outcomes to the solved states 1 and 2. -/
def toyEngine : Engine Nat Nat :=
  { applyW := fun s _ => if s = 0 then ⟨some 1, some 2, none⟩ else ⟨none, none, none⟩
    isSolved := fun s => s != 0
    symW := fun _ => false
    weighings := fun s => if s = 0 then [0] else []
    root := 0 }

/-- Rank certificate for the toy engine. -/
def toyRank : Nat → Nat := fun s => if s = 0 then 1 else 0

-- ////////////////////////////////////////////////////////////////////////////
-- Theorems

/-- C2: the spec states that a weighing's provenance sequence has length
exactly |P_out|, one entry per output part.  In the code, Generator::get calls
provenances.resize(items.size()) and then emplace_back's one more entry per
item, so every enumerated weighing carries 2·|P_out| provenance entries, the
first |P_out| of them value-initialised.  On input partition [1,1] the single
enumerated weighing has 2 output parts but 4 provenance entries. -/
theorem c2_provenance_length_bug :
    genChildren (genInit [1, 1]) 10 = [genGet (genInit [1, 1])] ∧
    (genGet (genInit [1, 1])).output = [1, 1] ∧
    (genGet (genInit [1, 1])).provenances =
      [⟨0, .LeftPan⟩, ⟨0, .LeftPan⟩, ⟨0, .LeftPan⟩, ⟨1, .RightPan⟩] ∧
    (genGet (genInit [1, 1])).provenances.length ≠
      (genGet (genInit [1, 1])).output.length := by
  decide

/-- C1: conservation fails on the code.  For the single weighing enumerated on
input partition [1,1] (true part sizes 1 and 1), the provenance entries naming
input part 0 are at indexes 0, 1 and 2, so the sum of P_out[i] over them is
1 + 1 + 0 = 2 ≠ 1 (index 2 reads past the end of P_out, modelled as 0); the
source's own Weighing2::input_parts computes [2, 0] instead of [1, 1].  The
root cause is the provenance-vector slip of Generator::get. -/
theorem c1_conservation_bug :
    (((List.range (genGet (genInit [1, 1])).provenances.length).filter
        (fun i => ((genGet (genInit [1, 1])).provenances.getD i WPart.default).part = 0)).foldl
      (fun a i => a + (genGet (genInit [1, 1])).output.getD i 0) 0) = 2 ∧
    (genInit [1, 1]).input.getD 0 0 = 1 ∧
    inputParts (genGet (genInit [1, 1])).provenances (genGet (genInit [1, 1])).output
      = [2, 0] := by
  decide

/-- C9: for c = 3 the root state has the one-part partition [3] with
distributions {[1], [2]}, and the only weighing on [3] splits the single input
part into three output parts.  Because of the provenance-vector slip the
weighing carries 6 provenance entries, all naming input part 0, so the
SplitGenerator constructor computes a 6-way split for part 0 — a split arity
its switch statement rejects with assert(false) (arities 1, 2, 3 are the only
ones handled).  The c = 3 search therefore dies inside the first
apply_weighing call instead of terminating with root depth bounds 2/2. -/
theorem c9_split_arity_bug :
    makeRoot 3 = { distributions := [[1], [2]], partition := [3] } ∧
    genChildren (genInit [3]) 10 = [genGet (genInit [3])] ∧
    (genGet (genInit [3])).output = [1, 1, 1] ∧
    (makeRoot 3).partition.length ≠ (genGet (genInit [3])).output.length ∧
    splitIndexes (genGet (genInit [3])).provenances
      ((makeRoot 3).distributions.headD []).length = [[0, 1, 2, 3, 4, 5]] ∧
    ¬ (splitIndexes (genGet (genInit [3])).provenances
        ((makeRoot 3).distributions.headD []).length).all
      (fun l => l.length = 1 ∨ l.length = 2 ∨ l.length = 3) := by
  decide

theorem placement_idx_lt_three (p : Placement) : p.idx < 3 := by
  cases p <;> simp [Placement.idx]

theorem itemLt_iff (a b : Item) : Item.lt a b = true ↔
    (a.size < b.size ∨ (a.size = b.size ∧ (a.part < b.part ∨
      (a.part = b.part ∧ a.placement.idx < b.placement.idx)))) := by
  simp only [Item.lt]
  split_ifs with h1 h2 <;> simp_all <;> omega

theorem itemLe_iff (a b : Item) : Item.le a b ↔
    (a.size < b.size ∨ (a.size = b.size ∧ (a.part < b.part ∨
      (a.part = b.part ∧ a.placement.idx ≤ b.placement.idx)))) := by
  simp only [Item.le, itemLt_iff]
  omega

instance : IsTotal Item Item.le := by
  constructor
  intro a b
  simp only [itemLe_iff]
  omega

instance : IsTrans Item Item.le := by
  constructor
  intro a b c
  simp only [itemLe_iff]
  omega

/-- Every item built for input part i names part i. -/
theorem buildItems_part_eq (g : Gen) (i : Nat) (x : Item)
    (hx : x ∈ (if g.left.getD i 0 > 0 then [⟨i, .LeftPan, g.left.getD i 0⟩] else []) ++
      (if g.right.getD i 0 > 0 then [⟨i, .RightPan, g.right.getD i 0⟩] else []) ++
      (if g.input.getD i 0 - g.left.getD i 0 - g.right.getD i 0 > 0 then
        [⟨i, .SetAside, g.input.getD i 0 - g.left.getD i 0 - g.right.getD i 0⟩] else [])) :
    x.part = i := by
  simp only [List.mem_append] at hx
  rcases hx with (hx | hx) | hx <;> split_ifs at hx <;>
    simp_all <;> subst hx <;> rfl

/-- The unsorted item list is strictly increasing in (part, placement). -/
theorem buildItems_pairwise (g : Gen) :
    (buildItems g).Pairwise (fun x y => x.part < y.part ∨
      (x.part = y.part ∧ x.placement.idx < y.placement.idx)) := by
  rw [buildItems, List.pairwise_flatMap]
  constructor
  · intro i _
    simp only []
    split_ifs <;>
      simp [List.pairwise_cons, Placement.idx]
  · have hr : (List.range g.input.length).Pairwise (· < ·) := List.pairwise_lt_range _
    refine hr.imp_of_mem ?_
    intro a b _ _ hab
    intro x hx y hy
    have hxa := buildItems_part_eq g a x hx
    have hyb := buildItems_part_eq g b y hy
    left
    omega

/-- C4: for every generator state, the output partition produced by
Generator::get lists the output parts in non-decreasing order of size, and
parts of equal size appear in strictly ascending order of
(input part, placement). -/
theorem c4_canonical_order (g : Gen) :
    (genGet g).output = (sortedItems g).map Item.size ∧
    (sortedItems g).Pairwise (fun a b => a.size ≤ b.size ∧
      (a.size = b.size → a.part < b.part ∨
        (a.part = b.part ∧ a.placement.idx < b.placement.idx))) := by
  constructor
  · rfl
  · have hs : (sortedItems g).Pairwise Item.le :=
      List.sorted_insertionSort Item.le (buildItems g)
    have hperm : (sortedItems g).Perm (buildItems g) :=
      List.perm_insertionSort Item.le (buildItems g)
    have hne : (buildItems g).Pairwise (fun x y => ¬ (x.part = y.part ∧
        x.placement.idx = y.placement.idx)) := by
      refine (buildItems_pairwise g).imp ?_
      intro a b h
      omega
    have hne2 : (sortedItems g).Pairwise (fun x y => ¬ (x.part = y.part ∧
        x.placement.idx = y.placement.idx)) := by
      refine (List.Perm.pairwise_iff ?_ hperm).mpr hne
      intro x y h
      omega
    refine (hs.and hne2).imp ?_
    intro a b h
    rw [itemLe_iff] at h
    obtain ⟨h1, h2⟩ := h
    omega


-- C5 development, stage 1: loop alignment and fold bridges

theorem symLoop_eq_symItems (full : List Item) :
    ∀ (zs : List Item) (i part lp : Nat), full.drop i = zs →
    symLoop (itemsOutput full) (itemsProvs zs) part lp i = symItems zs part lp := by
  intro zs
  induction zs with
  | nil => intro i part lp _; rfl
  | cons z rest ih =>
    intro i part lp hdrop
    have hz : full[i]? = some z := by
      have := List.getElem?_drop full i 0
      rw [hdrop] at this
      simpa using this.symm
    have hrest : full.drop (i + 1) = rest := by
      have : (full.drop i).drop 1 = rest := by rw [hdrop]; rfl
      rwa [List.drop_drop] at this
    have hout : (itemsOutput full).getD i 0 = z.size := by
      rw [itemsOutput, List.getD, List.get?_map, List.get?_eq_getElem?, hz]
      rfl
    show symLoop (itemsOutput full) (Item.prov z :: itemsProvs rest) part lp i = _
    rw [symLoop, symItems]
    simp only [Item.prov, hout]
    split
    · rfl
    · cases z.placement <;> simp only [] <;> rw [ih (i+1) _ _ hrest]

theorem foldl_partmax_le (provs : List WPart) :
    ∀ (b : Nat), b ≤ provs.foldl (fun m p => if p.part > m then p.part else m) b ∧
      ∀ x ∈ provs, x.part ≤ provs.foldl (fun m p => if p.part > m then p.part else m) b := by
  induction provs with
  | nil => intro b; exact ⟨le_refl _, by simp⟩
  | cons q rest ih =>
    intro b
    constructor
    · have hb : b ≤ (if q.part > b then q.part else b) := by split <;> omega
      simp only [List.foldl_cons]
      exact le_trans hb (ih _).1
    · intro x hx
      rcases List.mem_cons.mp hx with h | h
      · subst h
        have hb : x.part ≤ (if x.part > b then x.part else b) := by split <;> omega
        simp only [List.foldl_cons]
        exact le_trans hb (ih _).1
      · simp only [List.foldl_cons]
        exact (ih _).2 x h

theorem part_lt_inputSize (provs : List WPart) (i : Nat) :
    (provs.getD i WPart.default).part < inputSize provs := by
  rw [inputSize]
  rcases Nat.lt_or_ge i provs.length with h | h
  · have heq : provs.getD i WPart.default = provs[i] := by
      rw [List.getD, List.get?_eq_getElem?, List.getElem?_eq_getElem h]
      rfl
    have hmem : provs[i] ∈ provs := List.getElem_mem h
    have := (foldl_partmax_le provs 0).2 _ hmem
    rw [heq]
    omega
  · have heq : provs.getD i WPart.default = WPart.default := by
      rw [List.getD, List.get?_eq_getElem?, List.getElem?_eq_none (by omega)]
      rfl
    rw [heq]
    have := (foldl_partmax_le provs 0).1
    simp only [WPart.default]
    omega

theorem addInto_getD (provs : List WPart) (output : List Nat) (pl : Placement) :
    ∀ (idxs : List Nat) (init : List Nat) (p : Nat),
    (∀ i ∈ idxs, ((provs.getD i WPart.default).part) < init.length) →
    ((idxs.foldl (fun result i =>
        if (provs.getD i WPart.default).placement = pl then
          result.set (provs.getD i WPart.default).part
            (result.getD (provs.getD i WPart.default).part 0 + output.getD i 0)
        else result) init).getD p 0)
    = init.getD p 0 +
      ((idxs.filter (fun i => ((provs.getD i WPart.default).placement == pl) &&
        ((provs.getD i WPart.default).part == p))).map (fun i => output.getD i 0)).sum := by
  intro idxs
  induction idxs with
  | nil => intro init p _; simp
  | cons i rest ih =>
    intro init p hlt
    simp only [List.foldl_cons, List.filter_cons]
    by_cases hpl : (provs.getD i WPart.default).placement = pl
    · rw [if_pos hpl]
      have hlen : ∀ j ∈ rest, ((provs.getD j WPart.default).part) <
          (init.set (provs.getD i WPart.default).part
            (init.getD (provs.getD i WPart.default).part 0 + output.getD i 0)).length := by
        intro j hj
        rw [List.length_set]
        exact hlt j (List.mem_cons_of_mem i hj)
      rw [ih _ p hlen]
      by_cases hpt : (provs.getD i WPart.default).part = p
      · have hp : p < init.length := hpt ▸ hlt i (List.mem_cons_self i rest)
        have hset : ((init.set (provs.getD i WPart.default).part
            (init.getD (provs.getD i WPart.default).part 0 + output.getD i 0)).getD p 0)
            = init.getD p 0 + output.getD i 0 := by
          rw [hpt, List.getD, List.get?_eq_getElem?, List.getElem?_set_eq hp]
          rfl
        rw [hset]
        have h1 : ((provs.getD i WPart.default).placement == pl) = true := by
          simp only [beq_iff_eq]
          exact hpl
        have h2 : ((provs.getD i WPart.default).part == p) = true := by
          simp only [beq_iff_eq]
          exact hpt
        simp only [h1, h2, Bool.and_self, if_true, List.map_cons, List.sum_cons]
        omega
      · have hset : ((init.set (provs.getD i WPart.default).part
            (init.getD (provs.getD i WPart.default).part 0 + output.getD i 0)).getD p 0)
            = init.getD p 0 := by
          rw [List.getD, List.get?_eq_getElem?, List.getElem?_set_ne (by omega)]
          rw [List.getD, List.get?_eq_getElem?]
        rw [hset]
        have h2 : (((provs.getD i WPart.default).placement == pl) &&
            ((provs.getD i WPart.default).part == p)) = false := by
          simp only [Bool.and_eq_false_iff, beq_eq_false_iff_ne, ne_eq]
          right
          exact hpt
        rw [if_neg (fun hc => Bool.false_ne_true (h2 ▸ hc))]
    · rw [if_neg hpl, ih _ p (fun j hj => hlt j (List.mem_cons_of_mem i hj))]
      have h2 : (((provs.getD i WPart.default).placement == pl) &&
          ((provs.getD i WPart.default).part == p)) = false := by
        simp only [Bool.and_eq_false_iff, beq_eq_false_iff_ne, ne_eq]
        left
        exact hpl
      rw [if_neg (fun hc => Bool.false_ne_true (h2 ▸ hc))]

theorem addInto_length (provs : List WPart) (output : List Nat) (pl : Placement) :
    ∀ (idxs : List Nat) (init : List Nat),
    (idxs.foldl (fun result i =>
        if (provs.getD i WPart.default).placement = pl then
          result.set (provs.getD i WPart.default).part
            (result.getD (provs.getD i WPart.default).part 0 + output.getD i 0)
        else result) init).length = init.length := by
  intro idxs
  induction idxs with
  | nil => intro init; rfl
  | cons i rest ih =>
    intro init
    simp only [List.foldl_cons]
    split
    · rw [ih, List.length_set]
    · rw [ih]

theorem panContents_length (provs : List WPart) (output : List Nat) (pl : Placement) :
    (panContents provs output pl).length = inputSize provs := by
  rw [panContents, addInto_length, List.length_replicate]

theorem panContents_getD (provs : List WPart) (output : List Nat) (pl : Placement) (p : Nat) :
    (panContents provs output pl).getD p 0 =
      (((List.range provs.length).filter (fun i =>
        ((provs.getD i WPart.default).placement == pl) &&
        ((provs.getD i WPart.default).part == p))).map (fun i => output.getD i 0)).sum := by
  rw [panContents, addInto_getD]
  · have : (List.replicate (inputSize provs) 0).getD p 0 = 0 := by
      rcases Nat.lt_or_ge p (inputSize provs) with h | h
      · rw [List.getD, List.get?_eq_getElem?,
          List.getElem?_eq_getElem (by rwa [List.length_replicate])]
        simp
      · rw [List.getD, List.get?_eq_getElem?,
          List.getElem?_eq_none (by rwa [List.length_replicate])]
        rfl
    rw [this, Nat.zero_add]
  · intro i _
    rw [List.length_replicate]
    exact part_lt_inputSize provs i

def dfltItem : Item := ⟨0, .LeftPan, 0⟩

theorem getD_itemsOutput (items : List Item) : ∀ (i : Nat),
    (itemsOutput items).getD i 0 = (items.getD i dfltItem).size := by
  induction items with
  | nil => intro i; cases i <;> rfl
  | cons x xs ih =>
    intro i
    cases i with
    | zero => rfl
    | succ j =>
      show (itemsOutput xs).getD j 0 = (xs.getD j dfltItem).size
      exact ih j

theorem getD_itemsProvs (items : List Item) : ∀ (i : Nat),
    (itemsProvs items).getD i WPart.default = Item.prov (items.getD i dfltItem) := by
  induction items with
  | nil => intro i; cases i <;> rfl
  | cons x xs ih =>
    intro i
    cases i with
    | zero => rfl
    | succ j =>
      show (itemsProvs xs).getD j WPart.default = Item.prov (xs.getD j dfltItem)
      exact ih j

theorem sum_over_range (f : Item → Bool) (g : Item → Nat) :
    ∀ (items : List Item),
    (((List.range items.length).filter (fun i => f (items.getD i dfltItem))).map
      (fun i => g (items.getD i dfltItem))).sum
    = ((items.filter f).map g).sum := by
  intro items
  induction items with
  | nil => simp
  | cons x xs ih =>
    rw [List.length_cons, List.range_succ_eq_map]
    rw [List.filter_cons, List.filter_cons]
    have hcomm : (List.filter (fun i => f ((x :: xs).getD i dfltItem))
        (List.map Nat.succ (List.range xs.length)))
        = List.map Nat.succ (List.filter (fun i => f (xs.getD i dfltItem))
            (List.range xs.length)) := by
      rw [List.filter_map]
      rfl
    simp only [List.getD_cons_zero]
    split
    · rw [List.map_cons, List.sum_cons, hcomm, List.map_map, List.map_cons, List.sum_cons]
      have : ((List.filter (fun i => f (xs.getD i dfltItem)) (List.range xs.length)).map
          ((fun i => g ((x :: xs).getD i dfltItem)) ∘ Nat.succ)).sum
          = ((List.filter (fun i => f (xs.getD i dfltItem)) (List.range xs.length)).map
            (fun i => g (xs.getD i dfltItem))).sum := by
        rfl
      rw [this, ih]
      rfl
    · rw [hcomm, List.map_map]
      have : ((List.filter (fun i => f (xs.getD i dfltItem)) (List.range xs.length)).map
          ((fun i => g ((x :: xs).getD i dfltItem)) ∘ Nat.succ)).sum
          = ((List.filter (fun i => f (xs.getD i dfltItem)) (List.range xs.length)).map
            (fun i => g (xs.getD i dfltItem))).sum := by
        rfl
      rw [this, ih]

theorem panContents_items (items : List Item) (pl : Placement) (p : Nat) :
    (panContents (itemsProvs items) (itemsOutput items) pl).getD p 0 = panSum items pl p := by
  rw [panContents_getD]
  have hlen : (itemsProvs items).length = items.length := List.length_map _ _
  rw [hlen]
  have hf : (fun i => ((itemsProvs items).getD i WPart.default).placement == pl &&
      (((itemsProvs items).getD i WPart.default).part == p))
      = fun i => ((items.getD i dfltItem).placement == pl) &&
        ((items.getD i dfltItem).part == p) := by
    funext i
    rw [getD_itemsProvs]
    rfl
  have hg : (fun i => (itemsOutput items).getD i 0)
      = fun i => (items.getD i dfltItem).size := by
    funext i
    rw [getD_itemsOutput]
  rw [hf, hg, sum_over_range (fun it => (it.placement == pl) && (it.part == p)) Item.size]
  rw [panSum]
  have : (fun it => (it.placement == pl) && (it.part == p))
      = (fun (it : Item) => (it.part == p) && (it.placement == pl)) := by
    funext it
    rw [Bool.and_comm]
  rw [this]

theorem canonicalItems_tail {z : Item} {zs : List Item}
    (h : CanonicalItems (z :: zs)) : CanonicalItems zs :=
  ⟨h.1.of_cons, h.2.1.of_cons, fun it hit => h.2.2 it (List.mem_cons_of_mem z hit)⟩

theorem pairsOK_aside (pt sz : Nat) (rest : List Item) :
    pairsOK (⟨pt, .SetAside, sz⟩ :: rest) = pairsOK rest := rfl

theorem pairsOK_right (pt sz : Nat) (rest : List Item) :
    pairsOK (⟨pt, .RightPan, sz⟩ :: rest) = false := rfl

theorem pairsOK_left_nil (pt sz : Nat) : pairsOK [⟨pt, .LeftPan, sz⟩] = false := rfl

theorem pairsOK_left_cons (pt sz : Nat) (y : Item) (rest2 : List Item) :
    pairsOK (⟨pt, .LeftPan, sz⟩ :: y :: rest2) =
      (y.part == pt && y.placement == Placement.RightPan &&
        y.size == sz && pairsOK rest2) := rfl

theorem symItems_state (zs : List Item) (p q : Nat) :
    symItems zs p 0 = symItems zs q 0 := by
  cases zs with
  | nil => rfl
  | cons z rest =>
    rw [symItems, symItems]
    rw [if_neg (show ¬(z.part ≠ p ∧ (0 : Nat) ≠ 0) by simp),
      if_neg (show ¬(z.part ≠ q ∧ (0 : Nat) ≠ 0) by simp)]

theorem symItems_pending_false : ∀ (zs : List Item) (p s : Nat), s ≠ 0 →
    (∀ w ∈ zs, w.part = p → w.placement ≠ .LeftPan) →
    (∀ w ∈ zs, w.part = p → w.placement = .RightPan → w.size ≠ s) →
    symItems zs p s = false := by
  intro zs
  induction zs with
  | nil =>
    intro p s hs _ _
    rw [symItems]
    exact beq_eq_false_iff_ne.mpr hs
  | cons w rest ih =>
    intro p s hs hL hR
    rw [symItems]
    by_cases hw : w.part = p
    · rw [if_neg (by simp [hw])]
      cases hpl : w.placement with
      | LeftPan => exact absurd hpl (hL w (List.mem_cons_self w rest) hw)
      | RightPan =>
        rw [if_pos]
        exact fun hc => (hR w (List.mem_cons_self w rest) hw hpl) (by omega)
      | SetAside =>
        rw [hw]
        exact ih p s hs (fun v hv => hL v (List.mem_cons_of_mem w hv))
          (fun v hv => hR v (List.mem_cons_of_mem w hv))
    · rw [if_pos ⟨hw, hs⟩]

theorem symItems_eq_pairsOK : ∀ (n : Nat) (zs : List Item), zs.length ≤ n →
    CanonicalItems zs → ∀ p, symItems zs p 0 = pairsOK zs := by
  intro n
  induction n with
  | zero =>
    intro zs hlen _ p
    rw [List.length_eq_zero.mp (Nat.le_zero.mp hlen)]
    rfl
  | succ n ih =>
    intro zs hlen hcan p
    cases zs with
    | nil => rfl
    | cons z rest =>
      obtain ⟨zp, zpl, zsz⟩ := z
      have hzpos : 0 < zsz := hcan.2.2 _ (List.mem_cons_self _ rest)
      rw [symItems, if_neg (show ¬(zp ≠ p ∧ (0 : Nat) ≠ 0) by simp)]
      cases zpl with
      | SetAside =>
        rw [pairsOK_aside]
        exact ih rest (by simp at hlen; omega) (canonicalItems_tail hcan) zp
      | RightPan =>
        rw [pairsOK_right, if_pos (by simp only [Item] at hzpos ⊢; omega)]
      | LeftPan =>
        cases rest with
        | nil =>
          rw [pairsOK_left_nil, symItems]
          exact beq_eq_false_iff_ne.mpr (by simp only [Item] at hzpos ⊢; omega)
        | cons y rest2 =>
          rw [pairsOK_left_cons, symItems]
          by_cases hyp : y.part = zp
          · rw [if_neg (by simp [hyp])]
            obtain ⟨yp, ypl, ysz⟩ := y
            simp only [Item] at hyp
            cases ypl with
            | LeftPan =>
              exfalso
              have hnd := (List.pairwise_cons.mp hcan.2.1).1 _ (List.mem_cons_self _ rest2)
              exact hnd ⟨hyp.symm, rfl⟩
            | RightPan =>
              by_cases hsz : zsz = ysz
              · rw [if_neg (by simp only [Item]; omega)]
                have h1 : ((⟨yp, Placement.RightPan, ysz⟩ : Item).part == zp) = true :=
                  beq_iff_eq.mpr hyp
                have h3 : ((⟨yp, Placement.RightPan, ysz⟩ : Item).size == zsz) = true :=
                  beq_iff_eq.mpr hsz.symm
                rw [h1, h3]
                show symItems rest2 yp 0 = (true && (true && (true && pairsOK rest2)))
                simp only [Bool.true_and]
                exact ih rest2 (by simp at hlen; omega)
                  (canonicalItems_tail (canonicalItems_tail hcan)) yp
              · rw [if_pos (by simp only [Item]; omega)]
                have h3 : ((⟨yp, Placement.RightPan, ysz⟩ : Item).size == zsz) = false := by
                  simp only [beq_eq_false_iff_ne, ne_eq, Item]
                  omega
                rw [h3]
                simp
            | SetAside =>
              show symItems rest2 yp zsz =
                ((⟨yp, Placement.SetAside, ysz⟩ : Item).part == zp &&
                  ((⟨yp, Placement.SetAside, ysz⟩ : Item).placement == Placement.RightPan) &&
                  ((⟨yp, Placement.SetAside, ysz⟩ : Item).size == zsz) && pairsOK rest2)
              have h2 : ((⟨yp, Placement.SetAside, ysz⟩ : Item).placement ==
                  Placement.RightPan) = false := rfl
              rw [h2]
              simp only [Bool.and_false, Bool.false_and]
              have hzy := (List.pairwise_cons.mp hcan.1).1 _ (List.mem_cons_self _ rest2)
              simp only [Placement.idx, Item] at hzy
              apply symItems_pending_false rest2 yp zsz (by omega)
              · intro w hw hwp
                have hnd := (List.pairwise_cons.mp hcan.2.1).1 w
                  (List.mem_cons_of_mem _ hw)
                intro hwl
                refine hnd ⟨?_, ?_⟩
                · simp only [Item]
                  omega
                · rw [hwl]
              · intro w hw hwp hwr
                have hyw := (List.pairwise_cons.mp (List.pairwise_cons.mp hcan.1).2).1 w hw
                rw [hwr] at hyw
                simp only [Placement.idx, Item] at hyw
                omega
          · rw [if_pos (show y.part ≠ zp ∧ zsz ≠ 0 from ⟨hyp, by omega⟩)]
            have h1 : (y.part == zp) = false := beq_eq_false_iff_ne.mpr hyp
            rw [h1]
            simp

theorem panSum_cons (x : Item) (zs : List Item) (pl : Placement) (p : Nat) :
    panSum (x :: zs) pl p =
      (if x.part = p ∧ x.placement = pl then x.size else 0) + panSum zs pl p := by
  rw [panSum, panSum, List.filter_cons]
  by_cases h : x.part = p ∧ x.placement = pl
  · rw [if_pos (by simp [h.1, h.2]), if_pos h, List.map_cons, List.sum_cons]
  · rw [if_neg (by simpa using fun h1 h2 => h ⟨h1, h2⟩), if_neg h, Nat.zero_add]

theorem panSum_zero (zs : List Item) (pl : Placement) (p : Nat)
    (h : ∀ w ∈ zs, ¬ (w.part = p ∧ w.placement = pl)) : panSum zs pl p = 0 := by
  induction zs with
  | nil => rfl
  | cons x xs ih =>
    rw [panSum_cons, if_neg (h x (List.mem_cons_self x xs)), Nat.zero_add]
    exact ih (fun w hw => h w (List.mem_cons_of_mem x hw))

theorem panSum_unique (zs : List Item) (pl : Placement) (p : Nat) (w : Item)
    (hnd : zs.Pairwise (fun a b => ¬ (a.part = b.part ∧ a.placement = b.placement)))
    (hw : w ∈ zs) (hwp : w.part = p) (hwpl : w.placement = pl) :
    panSum zs pl p = w.size := by
  induction zs with
  | nil => cases hw
  | cons x xs ih =>
    rcases List.mem_cons.mp hw with h | h
    · subst h
      have hz : panSum xs pl p = 0 := panSum_zero xs pl p (fun v hv hvc =>
        (List.pairwise_cons.mp hnd).1 v hv ⟨by omega, by rw [hwpl, hvc.2]⟩)
      rw [panSum_cons, if_pos ⟨hwp, hwpl⟩, hz]
      omega
    · have hx : ¬ (x.part = p ∧ x.placement = pl) := fun hc =>
        (List.pairwise_cons.mp hnd).1 w h ⟨by omega, by rw [hwpl, hc.2]⟩
      rw [panSum_cons, if_neg hx, Nat.zero_add]
      exact ih (List.pairwise_cons.mp hnd).2 h

theorem panSum_exists (zs : List Item) (pl : Placement) (p : Nat)
    (h : panSum zs pl p ≠ 0) : ∃ w ∈ zs, w.part = p ∧ w.placement = pl := by
  induction zs with
  | nil => exact absurd rfl h
  | cons x xs ih =>
    rw [panSum_cons] at h
    by_cases hx : x.part = p ∧ x.placement = pl
    · exact ⟨x, List.mem_cons_self x xs, hx⟩
    · rw [if_neg hx, Nat.zero_add] at h
      obtain ⟨w, hw, hwc⟩ := ih h
      exact ⟨w, List.mem_cons_of_mem x hw, hwc⟩

theorem pairsOK_sums : ∀ (n : Nat) (zs : List Item), zs.length ≤ n →
    pairsOK zs = true → ∀ p, panSum zs .LeftPan p = panSum zs .RightPan p := by
  intro n
  induction n with
  | zero =>
    intro zs hlen _ p
    rw [List.length_eq_zero.mp (Nat.le_zero.mp hlen)]
    rfl
  | succ n ih =>
    intro zs hlen hok p
    cases zs with
    | nil => rfl
    | cons z rest =>
      obtain ⟨zp, zpl, zsz⟩ := z
      cases zpl with
      | SetAside =>
        rw [panSum_cons, panSum_cons, if_neg (by simp), if_neg (by simp)]
        rw [pairsOK_aside] at hok
        have := ih rest (by simp at hlen; omega) hok p
        omega
      | RightPan =>
        rw [pairsOK_right] at hok
        cases hok
      | LeftPan =>
        cases rest with
        | nil =>
          rw [pairsOK_left_nil] at hok
          cases hok
        | cons y rest2 =>
          rw [pairsOK_left_cons] at hok
          simp only [Bool.and_eq_true, beq_iff_eq] at hok
          obtain ⟨⟨⟨hyp, hypl⟩, hysz⟩, hok2⟩ := hok
          rw [panSum_cons, panSum_cons, panSum_cons, panSum_cons]
          rw [if_neg (show ¬((⟨zp, .LeftPan, zsz⟩ : Item).part = p ∧
            (⟨zp, .LeftPan, zsz⟩ : Item).placement = .RightPan) by simp)]
          rw [if_neg (show ¬(y.part = p ∧ y.placement = .LeftPan) by rw [hypl]; simp)]
          have hih := ih rest2 (by simp at hlen; omega) hok2 p
          by_cases hzp : zp = p
          · rw [if_pos (show (⟨zp, .LeftPan, zsz⟩ : Item).part = p ∧
              (⟨zp, .LeftPan, zsz⟩ : Item).placement = .LeftPan from ⟨hzp, rfl⟩)]
            rw [if_pos (show y.part = p ∧ y.placement = .RightPan from
              ⟨hyp.trans hzp, hypl⟩)]
            show zsz + (0 + panSum rest2 Placement.LeftPan p) =
              0 + (y.size + panSum rest2 Placement.RightPan p)
            omega
          · rw [if_neg (show ¬((⟨zp, .LeftPan, zsz⟩ : Item).part = p ∧
              (⟨zp, .LeftPan, zsz⟩ : Item).placement = .LeftPan) from fun hc => hzp hc.1)]
            rw [if_neg (show ¬(y.part = p ∧ y.placement = .RightPan) from
              fun hc => hzp (hyp.symm.trans hc.1))]
            omega

theorem sums_pairsOK : ∀ (n : Nat) (zs : List Item), zs.length ≤ n →
    CanonicalItems zs →
    (∀ p, panSum zs .LeftPan p = panSum zs .RightPan p) → pairsOK zs = true := by
  intro n
  induction n with
  | zero =>
    intro zs hlen _ _
    rw [List.length_eq_zero.mp (Nat.le_zero.mp hlen)]
    rfl
  | succ n ih =>
    intro zs hlen hcan hsum
    cases zs with
    | nil => rfl
    | cons z rest =>
      obtain ⟨zp, zpl, zsz⟩ := z
      have hzpos : 0 < zsz := hcan.2.2 _ (List.mem_cons_self _ rest)
      cases zpl with
      | SetAside =>
        rw [pairsOK_aside]
        refine ih rest (by simp at hlen; omega) (canonicalItems_tail hcan) ?_
        intro p
        have := hsum p
        rw [panSum_cons, panSum_cons, if_neg (by simp), if_neg (by simp)] at this
        omega
      | RightPan =>
        exfalso
        have h0 := hsum zp
        rw [panSum_cons, panSum_cons,
          if_neg (show ¬((⟨zp, .RightPan, zsz⟩ : Item).part = zp ∧
            (⟨zp, .RightPan, zsz⟩ : Item).placement = .LeftPan) by simp),
          if_pos (show (⟨zp, .RightPan, zsz⟩ : Item).part = zp ∧
            (⟨zp, .RightPan, zsz⟩ : Item).placement = .RightPan from ⟨rfl, rfl⟩)] at h0
        have h0x : 0 + panSum rest Placement.LeftPan zp =
            zsz + panSum rest Placement.RightPan zp := h0
        have hRr : panSum rest .RightPan zp = 0 := by
          apply panSum_zero
          intro w hw hwc
          exact (List.pairwise_cons.mp hcan.2.1).1 w hw ⟨hwc.1.symm, by rw [hwc.2]⟩
        by_cases hL : panSum rest .LeftPan zp = 0
        · omega
        · obtain ⟨w, hw, hwp, hwpl⟩ := panSum_exists rest .LeftPan zp hL
          have huniq := panSum_unique rest .LeftPan zp w
            (List.pairwise_cons.mp hcan.2.1).2 hw hwp hwpl
          have hlex := (List.pairwise_cons.mp hcan.1).1 w hw
          rw [hwpl] at hlex
          simp only [Placement.idx, Item] at hlex
          omega
      | LeftPan =>
        have h0 := hsum zp
        rw [panSum_cons, panSum_cons,
          if_pos (show (⟨zp, .LeftPan, zsz⟩ : Item).part = zp ∧
            (⟨zp, .LeftPan, zsz⟩ : Item).placement = .LeftPan from ⟨rfl, rfl⟩),
          if_neg (show ¬((⟨zp, .LeftPan, zsz⟩ : Item).part = zp ∧
            (⟨zp, .LeftPan, zsz⟩ : Item).placement = .RightPan) by simp)] at h0
        have hLr : panSum rest .LeftPan zp = 0 := by
          apply panSum_zero
          intro w hw hwc
          exact (List.pairwise_cons.mp hcan.2.1).1 w hw ⟨hwc.1.symm, by rw [hwc.2]⟩
        have hzl : zsz + panSum rest Placement.LeftPan zp =
            0 + panSum rest Placement.RightPan zp := h0
        have hRr : panSum rest .RightPan zp ≠ 0 := by omega
        obtain ⟨w, hw, hwp, hwpl⟩ := panSum_exists rest .RightPan zp hRr
        have huniq := panSum_unique rest .RightPan zp w
          (List.pairwise_cons.mp hcan.2.1).2 hw hwp hwpl
        have hwsz : w.size = zsz := by omega
        cases rest with
        | nil => cases hw
        | cons y rest2 =>
          have hzy := (List.pairwise_cons.mp hcan.1).1 y (List.mem_cons_self y rest2)
          simp only [Placement.idx, Item] at hzy
          have hwy : w = y := by
            rcases List.mem_cons.mp hw with h | h
            · exact h
            · exfalso
              have hyw := (List.pairwise_cons.mp (List.pairwise_cons.mp hcan.1).2).1 w h
              rw [hwpl] at hyw
              simp only [Placement.idx, Item] at hyw
              omega
          subst hwy
          rw [pairsOK_left_cons]
          have h1 : (w.part == zp) = true := beq_iff_eq.mpr hwp
          have h2 : (w.placement == Placement.RightPan) = true := by
            rw [hwpl]
            rfl
          have h3 : (w.size == zsz) = true := beq_iff_eq.mpr hwsz
          rw [h1, h2, h3]
          simp only [Bool.true_and]
          refine ih rest2 (by simp at hlen; omega)
            (canonicalItems_tail (canonicalItems_tail hcan)) ?_
          intro q
          have hq := hsum q
          rw [panSum_cons, panSum_cons, panSum_cons, panSum_cons,
            if_neg (show ¬((⟨zp, .LeftPan, zsz⟩ : Item).part = q ∧
              (⟨zp, .LeftPan, zsz⟩ : Item).placement = .RightPan) by simp),
            if_neg (show ¬(w.part = q ∧ w.placement = .LeftPan) by rw [hwpl]; simp)] at hq
          by_cases hzq : zp = q
          · rw [if_pos (show (⟨zp, .LeftPan, zsz⟩ : Item).part = q ∧
              (⟨zp, .LeftPan, zsz⟩ : Item).placement = .LeftPan from ⟨hzq, rfl⟩),
              if_pos (show w.part = q ∧ w.placement = .RightPan from
                ⟨hwp.trans hzq, hwpl⟩)] at hq
            have hq2 : zsz + (0 + panSum rest2 Placement.LeftPan q) =
                0 + (w.size + panSum rest2 Placement.RightPan q) := hq
            omega
          · rw [if_neg (show ¬((⟨zp, .LeftPan, zsz⟩ : Item).part = q ∧
              (⟨zp, .LeftPan, zsz⟩ : Item).placement = .LeftPan) from fun hc => hzq hc.1),
              if_neg (show ¬(w.part = q ∧ w.placement = .RightPan) from
                fun hc => hzq (hwp.symm.trans hc.1))] at hq
            omega

theorem lists_eq_of_getD : ∀ (l1 l2 : List Nat), l1.length = l2.length →
    (∀ p, l1.getD p 0 = l2.getD p 0) → l1 = l2 := by
  intro l1
  induction l1 with
  | nil =>
    intro l2 hlen _
    cases l2 with
    | nil => rfl
    | cons b bs => cases hlen
  | cons a as_ ih =>
    intro l2 hlen h
    cases l2 with
    | nil => cases hlen
    | cons b bs =>
      have h0 := h 0
      have ht : as_ = bs := ih bs (by simpa using hlen) (fun p => h (p + 1))
      rw [show a = b from h0, ht]

/-- C5 (counterexample): for the weighing on input [1,3] that puts the one
coin of part 0 in the left pan and one coin of part 1 in the right pan
(provenances [(0,Left),(1,Right),(1,Aside)], output parts [1,1,2]), the
multiset of per-input-part left-pan sizes {1,0} equals the multiset of
per-input-part right-pan sizes {0,1}, yet is_symmetric answers false: the
claim's multiset condition is not what the code decides. -/
theorem c5_multiset_counterexample :
    Multiset.ofList (panContents [⟨0, .LeftPan⟩, ⟨1, .RightPan⟩, ⟨1, .SetAside⟩]
        [1, 1, 2] .LeftPan)
      = Multiset.ofList (panContents [⟨0, .LeftPan⟩, ⟨1, .RightPan⟩, ⟨1, .SetAside⟩]
        [1, 1, 2] .RightPan) ∧
    isSymmetric [⟨0, .LeftPan⟩, ⟨1, .RightPan⟩, ⟨1, .SetAside⟩] [1, 1, 2] = false := by
  constructor
  · decide
  · rfl

/-- C5 (amended): for every weighing in the canonical form Generator::get
produces (entries sorted by (size, part, placement), one entry per
(part, placement), positive sizes), is_symmetric returns true exactly when
for every input part the left-pan size equals the right-pan size, i.e. when
the two pan_contents vectors are equal. -/
theorem c5_sym_pointwise (items : List Item) (hcan : CanonicalItems items) :
    isSymmetric (itemsProvs items) (itemsOutput items) = true ↔
      panContents (itemsProvs items) (itemsOutput items) .LeftPan =
        panContents (itemsProvs items) (itemsOutput items) .RightPan := by
  have hsl : isSymmetric (itemsProvs items) (itemsOutput items) = symItems items 255 0 :=
    symLoop_eq_symItems items items 0 255 0 rfl
  have h2 : symItems items 255 0 = pairsOK items :=
    symItems_eq_pairsOK items.length items le_rfl hcan 255
  constructor
  · intro h
    have hok : pairsOK items = true := by rw [← h2, ← hsl]; exact h
    have hsums := pairsOK_sums items.length items le_rfl hok
    apply lists_eq_of_getD
    · rw [panContents_length, panContents_length]
    · intro p
      rw [panContents_items, panContents_items]
      exact hsums p
  · intro h
    rw [hsl, h2]
    apply sums_pairsOK items.length items le_rfl hcan
    intro p
    rw [← panContents_items, ← panContents_items, h]

/-- Witness for c5_sym_pointwise at the symmetric weighing splitting a 3-coin
part into left 1 / right 1 / aside 1. -/
theorem c5_sym_pointwise_witness :
    isSymmetric (itemsProvs [⟨0, .LeftPan, 1⟩, ⟨0, .RightPan, 1⟩, ⟨0, .SetAside, 1⟩])
      (itemsOutput [⟨0, .LeftPan, 1⟩, ⟨0, .RightPan, 1⟩, ⟨0, .SetAside, 1⟩]) = true :=
  (c5_sym_pointwise [⟨0, .LeftPan, 1⟩, ⟨0, .RightPan, 1⟩, ⟨0, .SetAside, 1⟩]
    (by constructor
        · decide
        · exact ⟨by decide, by decide⟩)).mpr (by decide)

-- ////////////////////////////////////////////////////////////////////////////
-- C8: apply_weighing of the MAJORITY problem
theorem insertionSort_length {α : Type _} (r : α → α → Prop) [DecidableRel r] (l : List α) :
    (List.insertionSort r l).length = l.length :=
  (List.perm_insertionSort r l).length_eq

theorem insertionSort_ne_nil {α : Type _} (r : α → α → Prop) [DecidableRel r] (l : List α)
    (h : l ≠ []) : List.insertionSort r l ≠ [] := by
  intro he
  apply h
  have hl := insertionSort_length r l
  rw [he] at hl
  exact List.eq_nil_of_length_eq_zero hl.symm

theorem map_ne_nil' {α β : Type _} (f : α → β) (l : List α) (h : l ≠ []) : l.map f ≠ [] := by
  cases l with
  | nil => exact absurd rfl h
  | cons a as => simp

theorem reorderDistribution_ne_nil (ds : Distributions) (si : List Nat) (h : ds ≠ []) :
    reorderDistribution ds si ≠ [] :=
  insertionSort_ne_nil _ _ (map_ne_nil' _ _ h)

theorem permLoop_ne_nil (lt : Nat → Nat → Bool) (ds : Distributions)
    (ranges : List (Nat × Nat)) (hds : ds ≠ []) :
    ∀ (fuel counter : Nat) (si : List Nat) (best : Distributions),
    best ≠ [] → permLoop lt ds ranges fuel counter si best ≠ []
  | 0, _, _, _, hb => hb
  | fuel + 1, counter, si, best, hb => by
    rw [permLoop]
    split
    · apply permLoop_ne_nil lt ds ranges hds fuel
      split
      · exact reorderDistribution_ne_nil ds _ hds
      · exact hb
    · exact hb

theorem simplifyState_ne_nil (c : Nat) (ds0 : Distributions) (p : List Nat) (h : ds0 ≠ []) :
    (simplifyState c ds0 p).distributions ≠ [] := by
  unfold simplifyState
  simp only []
  repeat' split
  all_goals
    first
    | exact insertionSort_ne_nil _ _ h
    | exact insertionSort_ne_nil _ _ (map_ne_nil' _ _ h)
    | exact insertionSort_ne_nil _ _ (map_ne_nil' _ _ (map_ne_nil' _ _ h))
    | exact permLoop_ne_nil _ _ _ h _ _ _ _ (reorderDistribution_ne_nil _ _ h)
    | exact permLoop_ne_nil _ _ _ (map_ne_nil' _ _ h) _ _ _ _
        (reorderDistribution_ne_nil _ _ (map_ne_nil' _ _ h))

theorem joinSameVariety_some_ne_nil (ds : Distributions) (p : List Nat)
    (jp : List Nat × Distributions) (h : joinSameVariety ds p = some jp) (hds : ds ≠ []) :
    jp.2 ≠ [] := by
  unfold joinSameVariety at h
  simp only [] at h
  split at h
  · cases h
  · cases h
    show List.map _ ds ≠ []
    exact map_ne_nil' _ _ hds

theorem simplifyPartition_none_iff (c : Nat) (ds : Distributions) (p : List Nat) :
    simplifyPartition c ds p = none ↔ ds = [] := by
  constructor
  · intro h
    unfold simplifyPartition at h
    by_cases he : ds.isEmpty = true
    · exact List.isEmpty_iff.mp he
    · rw [if_neg he] at h
      cases hj : joinSameVariety ds p <;> rw [hj] at h <;> cases h
  · intro h
    subst h
    rfl

theorem simplifyPartition_some_ne_nil (c : Nat) (ds : Distributions) (p : List Nat)
    (st : MState) (h : simplifyPartition c ds p = some st) : st.distributions ≠ [] := by
  unfold simplifyPartition at h
  by_cases he : ds.isEmpty = true
  · rw [if_pos he] at h; cases h
  · rw [if_neg he] at h
    have hds : ds ≠ [] := fun hn => he (by simp [hn])
    cases hj : joinSameVariety ds p <;> rw [hj] at h <;> cases h
    · exact simplifyState_ne_nil c ds p hds
    next jp =>
      exact simplifyState_ne_nil c jp.2 jp.1 (joinSameVariety_some_ne_nil ds p jp hj hds)

/-- C8: apply_weighing_to_distributions of the MAJORITY problem returns None
for an outcome if and only if no input distribution is classified to that
outcome by the weighing, and every non-None returned state carries a non-empty
distribution list. -/
theorem c8_apply_weighing_none_iff (c : Nat) (ds : Distributions) (w : List WPart)
    (p : List Nat) (o : Outcome) :
    ((applyWeighingToDistributions c ds w p).get o = none ↔
      ds.filter (fun d => outcomeOf w d == o) = []) ∧
    (∀ st, (applyWeighingToDistributions c ds w p).get o = some st →
      st.distributions ≠ []) := by
  cases o
  · exact ⟨simplifyPartition_none_iff c _ p,
      fun st h => simplifyPartition_some_ne_nil c _ p st h⟩
  · exact ⟨simplifyPartition_none_iff c _ p,
      fun st h => simplifyPartition_some_ne_nil c _ p st h⟩
  · exact ⟨simplifyPartition_none_iff c _ p,
      fun st h => simplifyPartition_some_ne_nil c _ p st h⟩

/-- Witness for C8 at the three-outcome weighing of a single three-coin part. -/
theorem c8_witness :
    (applyWeighingToDistributions 3 [[1,0,0],[0,1,0],[0,0,1]]
        [⟨0,.LeftPan⟩,⟨0,.RightPan⟩,⟨0,.SetAside⟩] [1,1,1]).get .LeftHeavier
      = some ⟨[[0,2]],[1,2]⟩ ∧ (MState.mk [[0,2]] [1,2]).distributions ≠ [] :=
  ⟨by decide, (c8_apply_weighing_none_iff 3 [[1,0,0],[0,1,0],[0,0,1]]
    [⟨0,.LeftPan⟩,⟨0,.RightPan⟩,⟨0,.SetAside⟩] [1,1,1] .LeftHeavier).2
    ⟨[[0,2]],[1,2]⟩ (by decide)⟩

-- ////////////////////////////////////////////////////////////////////////////
-- Lemmas about the outcome-interning loop

/-- The keys accumulator records exactly the non-none outcomes. -/
theorem internOutcome_keys (eng : Engine σ W) (o : Outcome) (out : Option σ)
    (acc : States σ × OutcomeArray (Option σ) × Nat × Nat) :
    (internOutcome eng o out acc).2.1 =
      (match out with
       | none => acc.2.1
       | some t => acc.2.1.set o (some t)) := by
  obtain ⟨m, k, d, w⟩ := acc
  cases out with
  | none => rfl
  | some t =>
    show (internOutcome eng o (some t) (m, k, d, w)).2.1 = k.set o (some t)
    unfold internOutcome
    simp only []
    cases hm : States.lookup m t with
    | none =>
      simp only [hm]
      by_cases hs : eng.isSolved t = true
      · rw [if_pos hs]
      · rw [if_neg hs]
    | some ts => simp only [hm]

/-- Interning never touches an entry already in the map. -/
theorem internOutcome_preserves (eng : Engine σ W) (o : Outcome) (out : Option σ)
    (acc : States σ × OutcomeArray (Option σ) × Nat × Nat) (t : σ) (st : Status σ)
    (h : acc.1 t = some st) : (internOutcome eng o out acc).1 t = some st := by
  obtain ⟨m, k, d, w⟩ := acc
  cases out with
  | none => exact h
  | some u =>
    show (internOutcome eng o (some u) (m, k, d, w)).1 t = some st
    unfold internOutcome
    simp only []
    cases hm : States.lookup m u with
    | none =>
      simp only [hm]
      have hmu : m u = none := hm
      have hne : t ≠ u := by
        intro he
        have h2 : m u = some st := by
          rw [← he]
          exact h
        rw [hmu] at h2
        cases h2
      have hemp : ∀ stN : Status σ, States.emplace m u stN t = some st := by
        intro stN
        unfold States.emplace
        rw [hmu]
        show (if t = u then some stN else m t) = some st
        rw [if_neg hne]
        exact h
      by_cases hs : eng.isSolved u = true
      · rw [if_pos hs]
        exact hemp _
      · rw [if_neg hs]
        exact hemp _
    | some ts =>
      simp only [hm]
      exact h


/-- An entry inserted by try_emplace with empty children keeps ChildInv. -/
theorem emplace_childInv (m : States σ) (t : σ) (stN : Status σ)
    (hinv : ChildInv m) (hch : stN.children = []) : ChildInv (States.emplace m t stN) := by
  intro s' st' h' c hc
  unfold States.emplace at h'
  cases hmt : m t with
  | some x =>
    rw [hmt] at h'
    exact hinv s' st' h' c hc
  | none =>
    rw [hmt] at h'
    simp only [] at h'
    by_cases he : s' = t
    · rw [if_pos he] at h'
      cases h'
      rw [hch] at hc
      cases hc
    · rw [if_neg he] at h'
      exact hinv s' st' h' c hc

/-- Interning an outcome keeps ChildInv. -/
theorem internOutcome_childInv (eng : Engine σ W) (o : Outcome) (out : Option σ)
    (acc : States σ × OutcomeArray (Option σ) × Nat × Nat)
    (hinv : ChildInv acc.1) : ChildInv (internOutcome eng o out acc).1 := by
  obtain ⟨m, k, d, w⟩ := acc
  cases out with
  | none => exact hinv
  | some t =>
    show ChildInv (internOutcome eng o (some t) (m, k, d, w)).1
    unfold internOutcome
    simp only []
    cases hm : States.lookup m t with
    | none =>
      simp only [hm]
      by_cases hs : eng.isSolved t = true
      · rw [if_pos hs]
        exact emplace_childInv m t _ hinv rfl
      · rw [if_neg hs]
        exact emplace_childInv m t _ hinv rfl
    | some ts =>
      simp only [hm]
      exact hinv

/-- An updated status whose children all carry a key keeps ChildInv. -/
theorem update_childInv (m : States σ) (s : σ) (st' : Status σ)
    (hinv : ChildInv m) (hch : ∀ c ∈ st'.children, childKeys c ≠ []) :
    ChildInv (States.update m s st') := by
  intro t st h c hc
  unfold States.update at h
  by_cases he : t = s
  · rw [if_pos he] at h
    cases hms : m s with
    | none => rw [hms] at h; cases h
    | some x =>
      rw [hms] at h
      cases h
      exact hch c hc
  · rw [if_neg he] at h
    exact hinv t st h c hc

/-- The children seen through statusOf all carry a key under ChildInv. -/
theorem statusOf_children_inv (m : States σ) (s : σ) (hinv : ChildInv m) :
    ∀ c ∈ (statusOf m s).children, childKeys c ≠ [] := by
  intro c hc
  unfold statusOf at hc
  cases hms : States.lookup m s with
  | none =>
    rw [hms] at hc
    cases hc
  | some st =>
    rw [hms] at hc
    exact hinv s st hms c hc

/-- Keys accumulated by the interning loop over the three outcomes are exactly
the weighing's effective outcome array. -/
theorem internFold_keys (eng : Engine σ W) (outs : OutcomeArray (Option σ))
    (m0 : States σ) (w0 : Nat) :
    (Outcome.list.foldl (fun r o => internOutcome eng o (outs.get o) r)
      (m0, (⟨none, none, none⟩ : OutcomeArray (Option σ)), 0, w0)).2.1 = outs := by
  obtain ⟨l, r, b⟩ := outs
  show (internOutcome eng .Balances b (internOutcome eng .RightHeavier r
    (internOutcome eng .LeftHeavier l (m0, ⟨none, none, none⟩, 0, w0)))).2.1
      = (⟨l, r, b⟩ : OutcomeArray (Option σ))
  rw [internOutcome_keys eng .Balances b, internOutcome_keys eng .RightHeavier r,
    internOutcome_keys eng .LeftHeavier l]
  cases l <;> cases r <;> cases b <;> rfl

/-- The interning loop never touches entries already present. -/
theorem internFold_preserves (eng : Engine σ W) (outs : OutcomeArray (Option σ))
    (m0 : States σ) (w0 : Nat) (t : σ) (st : Status σ) (h : m0 t = some st) :
    (Outcome.list.foldl (fun r o => internOutcome eng o (outs.get o) r)
      (m0, (⟨none, none, none⟩ : OutcomeArray (Option σ)), 0, w0)).1 t = some st := by
  show (internOutcome eng .Balances (outs.get .Balances)
    (internOutcome eng .RightHeavier (outs.get .RightHeavier)
      (internOutcome eng .LeftHeavier (outs.get .LeftHeavier)
        (m0, ⟨none, none, none⟩, 0, w0)))).1 t = some st
  exact internOutcome_preserves eng _ _ _ t st
    (internOutcome_preserves eng _ _ _ t st
      (internOutcome_preserves eng _ _ _ t st h))

/-- The interning loop keeps ChildInv. -/
theorem internFold_childInv (eng : Engine σ W) (outs : OutcomeArray (Option σ))
    (m0 : States σ) (w0 : Nat) (hinv : ChildInv m0) :
    ChildInv (Outcome.list.foldl (fun r o => internOutcome eng o (outs.get o) r)
      (m0, (⟨none, none, none⟩ : OutcomeArray (Option σ)), 0, w0)).1 := by
  show ChildInv (internOutcome eng .Balances (outs.get .Balances)
    (internOutcome eng .RightHeavier (outs.get .RightHeavier)
      (internOutcome eng .LeftHeavier (outs.get .LeftHeavier)
        (m0, ⟨none, none, none⟩, 0, w0)))).1
  exact internOutcome_childInv eng _ _ _
    (internOutcome_childInv eng _ _ _
      (internOutcome_childInv eng _ _ _ hinv))

/-- A retained weighing has at least one effective outcome, so the child it
records carries at least one key. -/
theorem childKeys_effOuts (eng : Engine σ W) (s : σ) (w : W) (wn : Nat)
    (himp : ¬ (Outcome.list.filter
      (fun o => ((eng.applyW s w).get o).isNone)).length ≥ 2) :
    childKeys (⟨effOuts eng s w, wn⟩ : EChild σ) ≠ [] := by
  unfold childKeys effOuts
  rcases ha : eng.applyW s w with ⟨l, r, b⟩
  rw [ha] at himp
  cases hsym : eng.symW w <;>
    cases l <;> cases r <;> cases b <;>
    simp_all [Outcome.list, OutcomeArray.get, OutcomeArray.set]


/-- One weighing of the expand loop keeps ChildInv, whether it records a child,
skips, or takes the early return. -/
theorem expandStep_childInv (eng : Engine σ W) (s : σ) (i : Nat) (w : W)
    (acc : ExpandAcc σ) (hinv : ChildInv acc.states) :
    ChildInv (match expandStep eng s i w acc with
              | .ok acc' => acc'.states
              | .error m' => m') := by
  unfold expandStep
  simp only []
  by_cases himp : (Outcome.list.filter
      (fun o => ((eng.applyW s w).get o).isNone)).length ≥ 2
  · rw [if_pos himp]
    exact hinv
  · rw [if_neg himp]
    rw [show (if eng.symW w then (eng.applyW s w).set .RightHeavier none
        else eng.applyW s w) = effOuts eng s w from rfl]
    have hkeys := internFold_keys eng (effOuts eng s w) acc.states acc.worst
    have hcinvF := internFold_childInv eng (effOuts eng s w) acc.states acc.worst hinv
    generalize hres : (Outcome.list.foldl
      (fun r o => internOutcome eng o ((effOuts eng s w).get o) r)
      (acc.states, (⟨none, none, none⟩ : OutcomeArray (Option σ)), 0, acc.worst)) = res
      at hkeys hcinvF ⊢
    obtain ⟨mF, kF, dF, wF⟩ := res
    have hkF : kF = effOuts eng s w := hkeys
    have hmF : ChildInv mF := hcinvF
    simp only []
    by_cases hd : (dF == 0) = true
    · rw [if_pos hd]
      cases hls : States.lookup mF s with
      | none => exact hmF
      | some st =>
        simp only []
        apply update_childInv mF s _ hmF
        intro c hc
        rw [List.mem_singleton] at hc
        subst hc
        show childKeys (⟨kF, i⟩ : EChild σ) ≠ []
        rw [hkF]
        exact childKeys_effOuts eng s w i himp
    · rw [if_neg hd]
      by_cases hseen : acc.seen.contains (probeOf kF) = true
      · rw [if_pos hseen]
        exact hmF
      · rw [if_neg hseen]
        cases hls : States.lookup mF s with
        | none => exact hmF
        | some st =>
          simp only []
          apply update_childInv mF s _ hmF
          intro c hc
          split at hc <;>
          · rcases List.mem_append.mp hc with hold | hnew
            · exact hmF s st hls c hold
            · rw [List.mem_singleton] at hnew
              subst hnew
              show childKeys (⟨kF, i⟩ : EChild σ) ≠ []
              rw [hkF]
              exact childKeys_effOuts eng s w i himp


/-- The whole expand loop keeps ChildInv. -/
theorem expandFold_childInv (eng : Engine σ W) (s : σ) :
    ∀ (i : Nat) (ws : List W) (acc : ExpandAcc σ), ChildInv acc.states →
    ChildInv (match expandFold eng s i ws acc with
              | .ok acc' => acc'.states
              | .error m' => m')
  | _, [], acc, hinv => hinv
  | i, w :: ws, acc, hinv => by
    have hstep := expandStep_childInv eng s i w acc hinv
    rw [show expandFold eng s i (w :: ws) acc =
      (match expandStep eng s i w acc with
       | .error m => .error m
       | .ok acc1 => expandFold eng s (i + 1) ws acc1) from rfl]
    cases hs : expandStep eng s i w acc with
    | error m =>
      rw [hs] at hstep
      exact hstep
    | ok acc1 =>
      rw [hs] at hstep
      exact expandFold_childInv eng s (i + 1) ws acc1 hstep

/-- Setting depth_min at the end of expand keeps ChildInv. -/
theorem expandFinish_childInv (s : σ) (acc : ExpandAcc σ) (hinv : ChildInv acc.states) :
    ChildInv (expandFinish s acc) := by
  unfold expandFinish
  cases hls : States.lookup acc.states s with
  | none => exact hinv
  | some st =>
    simp only []
    split
    · exact update_childInv _ s _ hinv (hinv s st hls)
    · exact update_childInv _ s _ hinv (hinv s st hls)

/-- Manager2::expand keeps ChildInv. -/
theorem expandList_childInv (eng : Engine σ W) (s : σ) (ws : List W) (m : States σ)
    (hinv : ChildInv m) : ChildInv (expandList eng s ws m) := by
  unfold expandList
  cases hls : States.lookup m s with
  | none => exact hinv
  | some st =>
    simp only []
    split
    · exact hinv
    · have hfold := expandFold_childInv eng s 0 ws
        { states := m, seen := [], worst := DEPTH_INF } hinv
      cases hf : expandFold eng s 0 ws { states := m, seen := [], worst := DEPTH_INF } with
      | error m1 =>
        rw [hf] at hfold
        exact hfold
      | ok acc =>
        rw [hf] at hfold
        exact expandFinish_childInv s acc hfold

theorem expand_childInv (eng : Engine σ W) (s : σ) (m : States σ) (hinv : ChildInv m) :
    ChildInv (expand eng s m) :=
  expandList_childInv eng s (eng.weighings s) m hinv

/-- The child loop of improve_node keeps ChildInv provided the recursive
improver does. -/
theorem improveGroup_childInv (impr : σ → States σ → States σ)
    (himpr : ∀ (k : σ) (m : States σ), ChildInv m → ChildInv (impr k m))
    (c : EChild σ) (m : States σ) (worstMin : Nat) (hinv : ChildInv m) :
    ChildInv (improveGroup impr c m worstMin).1 := by
  suffices h : ∀ (ks : List σ) (a : States σ × Nat × Nat), ChildInv a.1 →
      ChildInv (ks.foldl (fun (r : States σ × Nat × Nat) k =>
        let m1 := impr k r.1
        let ks := statusOf m1 k
        (m1, max r.2.1 ks.depth_max,
         if ks.isResolved then r.2.2 else min r.2.2 ks.depth_min)) a).1 by
    exact h (childKeys c) (m, 0, worstMin) hinv
  intro ks
  induction ks with
  | nil => exact fun a ha => ha
  | cons k ks ih =>
    intro a ha
    rw [List.foldl_cons]
    exact ih _ (himpr k a.1 ha)

theorem improveChildren_childInv (impr : σ → States σ → States σ)
    (himpr : ∀ (k : σ) (m : States σ), ChildInv m → ChildInv (impr k m)) (s : σ) :
    ∀ (cs : List (EChild σ)) (m : States σ) (worstMin : Nat), ChildInv m →
    ChildInv (match improveChildren impr s cs m worstMin with
              | .ok (m1, _) => m1
              | .error m1 => m1)
  | [], _, _, hinv => hinv
  | c :: cs, m, worstMin, hinv => by
    have hm1 : ChildInv (improveGroup impr c m worstMin).1 :=
      improveGroup_childInv impr himpr c m worstMin hinv
    rw [show improveChildren impr s (c :: cs) m worstMin =
      (let r := improveGroup impr c m worstMin
       let m1 := r.1
       let worstMax := r.2.1
       let worstMin1 := r.2.2
       let st1 := statusOf m1 s
       if worstMax ≠ DEPTH_INF ∧ worstMax + 1 < st1.depth_max then
         let st2 := { st1 with depth_max := worstMax + 1 }
         let m2 := States.update m1 s st2
         if st2.isResolved then .error m2
         else improveChildren impr s cs m2 worstMin1
       else improveChildren impr s cs m1 worstMin1) from rfl]
    simp only []
    by_cases hcond : (improveGroup impr c m worstMin).2.1 ≠ DEPTH_INF ∧
        (improveGroup impr c m worstMin).2.1 + 1 <
          (statusOf (improveGroup impr c m worstMin).1 s).depth_max
    · rw [if_pos hcond]
      have hm2 : ChildInv (States.update (improveGroup impr c m worstMin).1 s
          { statusOf (improveGroup impr c m worstMin).1 s with
            depth_max := (improveGroup impr c m worstMin).2.1 + 1 }) :=
        update_childInv _ s _ hm1 (statusOf_children_inv _ s hm1)
      by_cases hres : ({ statusOf (improveGroup impr c m worstMin).1 s with
          depth_max := (improveGroup impr c m worstMin).2.1 + 1 } : Status σ).isResolved = true
      · rw [if_pos hres]
        exact hm2
      · rw [if_neg hres]
        exact improveChildren_childInv impr himpr s cs _ _ hm2
    · rw [if_neg hcond]
      exact improveChildren_childInv impr himpr s cs _ _ hm1

/-- Manager2::improve_node keeps ChildInv. -/
theorem improve_childInv (eng : Engine σ W) :
    ∀ (t : Nat) (s : σ) (m : States σ), ChildInv m → ChildInv (improve eng t s m)
  | t, s, m, hinv => by
    have hm1 : ChildInv (expand eng s m) := expand_childInv eng s m hinv
    rw [improve.eq_def]
    simp only []
    split
    · exact hm1
    · cases t with
      | zero => exact hm1
      | succ t' =>
        show ChildInv (match improveChildren (improve eng t') s
            (statusOf (expand eng s m) s).children (expand eng s m) DEPTH_INF with
          | .error m2 => m2
          | .ok (m2, worstMin) =>
            if worstMin == DEPTH_INF then
              States.update m2 s
                { statusOf m2 s with depth_min := (statusOf m2 s).depth_max }
            else
              States.update m2 s { statusOf m2 s with
                depth_min := min (worstMin + 1) (statusOf m2 s).depth_max })
        have hrec : ∀ (k : σ) (m' : States σ), ChildInv m' →
            ChildInv (improve eng t' k m') :=
          fun k m' h => improve_childInv eng t' k m' h
        have hic := improveChildren_childInv (improve eng t') hrec s
          (statusOf (expand eng s m) s).children (expand eng s m) DEPTH_INF hm1
        cases hi : improveChildren (improve eng t') s
            (statusOf (expand eng s m) s).children (expand eng s m) DEPTH_INF with
        | error m2 =>
          rw [hi] at hic
          exact hic
        | ok r =>
          rw [hi] at hic
          obtain ⟨m2, worstMin⟩ := r
          simp only []
          split
          · exact update_childInv _ s _ hic (statusOf_children_inv _ s hic)
          · exact update_childInv _ s _ hic (statusOf_children_inv _ s hic)

theorem clearMap_childInv (eng : Engine σ W) : ChildInv (clearMap eng) := by
  intro s st h c hc
  unfold clearMap at h
  by_cases he : s = eng.root
  · rw [if_pos he] at h
    cases h
    cases hc
  · rw [if_neg he] at h
    cases h

/-- Every map reached along solve_breadth satisfies ChildInv. -/
theorem solveTraceAux_childInv (eng : Engine σ W) (stop : Nat) :
    ∀ (fuel : Nat) (m : States σ), ChildInv m →
    ∀ m' ∈ solveTraceAux eng stop fuel m, ChildInv m'
  | 0, m, hinv => by
    intro m' hm'
    rw [show solveTraceAux eng stop 0 m = [m] from rfl] at hm'
    rw [List.mem_singleton] at hm'
    subst hm'
    exact hinv
  | fuel + 1, m, hinv => by
    intro m' hm'
    rw [show solveTraceAux eng stop (fuel + 1) m =
      (let st := statusOf m eng.root
       if st.isResolved || ¬ (st.depth_min < stop) then [m]
       else
         let m1 := improve eng (st.depth_min + 1) eng.root m
         m :: solveTraceAux eng stop fuel m1) from rfl] at hm'
    simp only [] at hm'
    split at hm'
    · rw [List.mem_singleton] at hm'
      subst hm'
      exact hinv
    · rcases List.mem_cons.mp hm' with h | h
      · subst h
        exact hinv
      · exact solveTraceAux_childInv eng stop fuel _
          (improve_childInv eng _ eng.root m hinv) m' h

theorem solveTrace_childInv (eng : Engine σ W) (stop fuel : Nat) :
    ∀ m ∈ solveTrace eng stop fuel, ChildInv m := by
  intro m hm
  rw [show solveTrace eng stop fuel =
    clearMap eng :: solveTraceAux eng stop fuel
      (expand eng eng.root (clearMap eng)) from rfl] at hm
  rcases List.mem_cons.mp hm with h | h
  · subst h
    exact clearMap_childInv eng
  · exact solveTraceAux_childInv eng stop fuel _
      (expand_childInv eng eng.root (clearMap eng) (clearMap_childInv eng)) m h


/-- A child with at least one key always yields a first keyed outcome. -/
theorem firstChildKey_of_ne (c : EChild σ) (h : childKeys c ≠ []) :
    firstChildKey c ≠ none := by
  obtain ⟨⟨kl, kr, kb⟩, wn⟩ := c
  cases kl <;> cases kr <;> cases kb <;>
    simp_all [childKeys, firstChildKey, OutcomeArray.get, Outcome.list]

/-- advance_first_child never reaches its assert(false) branch when every
child has a key. -/
theorem advanceFirstChild_no_assert (st : Status σ)
    (h : ∀ c ∈ st.children, childKeys c ≠ []) :
    advanceFirstChild st ≠ some (.error ()) := by
  unfold advanceFirstChild
  cases hch : st.children with
  | nil => simp
  | cons c cs =>
    have hk := firstChildKey_of_ne c (h c (hch ▸ List.mem_cons_self c cs))
    cases hf : firstChildKey c with
    | none => exact absurd hf hk
    | some p => simp [hf]

/-- advance_sibling never reaches its assert(false) branch when every child
has a key. -/
theorem advanceSibling_no_assert (ir : Bool) (st : Status σ) (cn : Nat) (o : Outcome)
    (h : ∀ c ∈ st.children, childKeys c ≠ []) :
    advanceSibling ir st cn o ≠ some (.error ()) := by
  unfold advanceSibling
  cases ir with
  | true => simp
  | false =>
    simp only [Bool.false_eq_true, if_false]
    cases hc : st.children[cn]? with
    | none => simp
    | some c =>
      simp only []
      cases ha : advanceOutcome c o with
      | some p => simp
      | none =>
        simp only []
        by_cases hlen : (cn + 1 == st.children.length) = true
        · rw [if_pos hlen]
          simp
        · rw [if_neg hlen]
          cases hc1 : st.children[cn + 1]? with
          | none => simp
          | some c1 =>
            have hmem : c1 ∈ st.children := by
              have := List.getElem?_eq_some_iff.mp hc1
              obtain ⟨hlt, hgl⟩ := this
              exact hgl ▸ List.getElem_mem hlt
            have hk := firstChildKey_of_ne c1 (h c1 hmem)
            cases hf : firstChildKey c1 with
            | none => exact absurd hf hk
            | some p => simp [hf]


/-- C10: every Child recorded by expand during solve_breadth has at least one
non-null outcome key, and on any Status whose children all carry a key the
assert(false) branches of advance_first_child and advance_sibling are
unreachable. -/
theorem c10_children_have_keys (eng : Engine σ W) (stop fuel : Nat) :
    (∀ m ∈ solveTrace eng stop fuel, ChildInv m) ∧
    (∀ st : Status σ, (∀ c ∈ st.children, childKeys c ≠ []) →
      advanceFirstChild st ≠ some (.error ()) ∧
      ∀ (ir : Bool) (cn : Nat) (o : Outcome),
        advanceSibling ir st cn o ≠ some (.error ())) :=
  ⟨solveTrace_childInv eng stop fuel,
   fun st h => ⟨advanceFirstChild_no_assert st h,
     fun ir cn o => advanceSibling_no_assert ir st cn o h⟩⟩

/-- Witness for C10 on a concrete engine and a Status with one keyed child. -/
theorem c10_witness :
    advanceFirstChild (σ := Nat) ⟨[⟨⟨some 1, none, none⟩, 0⟩], 255, 0⟩
      ≠ some (.error ()) :=
  ((c10_children_have_keys
      (⟨fun _ _ => ⟨none, none, none⟩, fun _ => true, fun _ => false,
        fun _ => [], (0 : Nat)⟩ : Engine Nat Nat) 1 1).2
    ⟨[⟨⟨some 1, none, none⟩, 0⟩], 255, 0⟩ (by decide)).1


/-- try_emplace of a solved entry keeps every GoodOut fact. -/
theorem emplace_goodOut (eng : Engine σ W) (m : States σ) (u : σ) (st0 : Status σ)
    (h0 : st0.depth_max = 0) (t : σ) (hg : GoodOut eng m t) :
    GoodOut eng (States.emplace m u st0) t := by
  unfold States.emplace
  cases hmu : m u with
  | some x => exact hg
  | none =>
    constructor
    · intro ts hts
      simp only [] at hts
      by_cases he : t = u
      · rw [if_pos he] at hts
        cases hts
        exact h0
      · rw [if_neg he] at hts
        exact hg.1 ts hts
    · intro hn
      simp only [] at hn
      by_cases he : t = u
      · rw [if_pos he] at hn
        cases hn
      · rw [if_neg he] at hn
        exact hg.2 hn

/-- Interning one solved outcome keeps deepest at 0, keeps worst unchanged and
keeps every GoodOut fact. -/
theorem internOutcome_solved (eng : Engine σ W) (o : Outcome) (out : Option σ)
    (acc : States σ × OutcomeArray (Option σ) × Nat × Nat)
    (hd : acc.2.2.1 = 0)
    (hgood : ∀ t, out = some t → GoodOut eng acc.1 t) :
    (internOutcome eng o out acc).2.2.1 = 0 ∧
    (internOutcome eng o out acc).2.2.2 = acc.2.2.2 ∧
    (∀ t, GoodOut eng acc.1 t → GoodOut eng (internOutcome eng o out acc).1 t) := by
  obtain ⟨m, k, d, w⟩ := acc
  have hd0 : d = 0 := hd
  subst hd0
  cases out with
  | none => exact ⟨rfl, rfl, fun t h => h⟩
  | some u =>
    have hu := hgood u rfl
    show (internOutcome eng o (some u) (m, k, 0, w)).2.2.1 = 0 ∧
      (internOutcome eng o (some u) (m, k, 0, w)).2.2.2 = w ∧
      (∀ t, GoodOut eng m t → GoodOut eng (internOutcome eng o (some u) (m, k, 0, w)).1 t)
    unfold internOutcome
    simp only []
    cases hm : States.lookup m u with
    | none =>
      simp only [hm]
      have hs : eng.isSolved u = true := hu.2 hm
      rw [if_pos hs]
      exact ⟨rfl, rfl, fun t hg => emplace_goodOut eng m u _ rfl t hg⟩
    | some ts =>
      simp only [hm]
      have hts : ts.depth_max = 0 := hu.1 ts hm
      refine ⟨by rw [hts]; simp, ?_, fun t hg => hg⟩
      rw [hts]
      show (if ts.depth_min < 0 then min w ts.depth_min else w) = w
      rw [if_neg (by omega)]

/-- When every effective outcome is solved, the interning loop reports
deepest 0 and leaves worst unchanged. -/
theorem internFold_solved (eng : Engine σ W) (outs : OutcomeArray (Option σ))
    (m0 : States σ) (w0 : Nat)
    (hgood : ∀ o t, outs.get o = some t → GoodOut eng m0 t) :
    (Outcome.list.foldl (fun r o => internOutcome eng o (outs.get o) r)
      (m0, (⟨none, none, none⟩ : OutcomeArray (Option σ)), 0, w0)).2.2.1 = 0 ∧
    (Outcome.list.foldl (fun r o => internOutcome eng o (outs.get o) r)
      (m0, (⟨none, none, none⟩ : OutcomeArray (Option σ)), 0, w0)).2.2.2 = w0 := by
  have h1 := internOutcome_solved eng .LeftHeavier (outs.get .LeftHeavier)
    (m0, ⟨none, none, none⟩, 0, w0) rfl (fun t ht => hgood .LeftHeavier t ht)
  have h2 := internOutcome_solved eng .RightHeavier (outs.get .RightHeavier)
    (internOutcome eng .LeftHeavier (outs.get .LeftHeavier) (m0, ⟨none, none, none⟩, 0, w0))
    h1.1 (fun t ht => h1.2.2 t (hgood .RightHeavier t ht))
  have h3 := internOutcome_solved eng .Balances (outs.get .Balances)
    (internOutcome eng .RightHeavier (outs.get .RightHeavier)
      (internOutcome eng .LeftHeavier (outs.get .LeftHeavier)
        (m0, ⟨none, none, none⟩, 0, w0)))
    h2.1 (fun t ht => h2.2.2 t (h1.2.2 t (hgood .Balances t ht)))
  constructor
  · exact h3.1
  · exact h3.2.1.trans (h2.2.1.trans h1.2.1)

/-- Any entry present before a weighing is processed is still present after. -/
theorem expandStep_domain (eng : Engine σ W) (s : σ) (i : Nat) (w : W)
    (acc : ExpandAcc σ) (t : σ) (st : Status σ) (h : acc.states t = some st) :
    ∃ st', (match expandStep eng s i w acc with
            | .ok a => a.states
            | .error m' => m') t = some st' := by
  unfold expandStep
  simp only []
  by_cases himp : (Outcome.list.filter
      (fun o => ((eng.applyW s w).get o).isNone)).length ≥ 2
  · rw [if_pos himp]
    exact ⟨st, h⟩
  · rw [if_neg himp]
    rw [show (if eng.symW w then (eng.applyW s w).set .RightHeavier none
        else eng.applyW s w) = effOuts eng s w from rfl]
    have hpres := internFold_preserves eng (effOuts eng s w) acc.states acc.worst t st h
    generalize hres : (Outcome.list.foldl
      (fun r o => internOutcome eng o ((effOuts eng s w).get o) r)
      (acc.states, (⟨none, none, none⟩ : OutcomeArray (Option σ)), 0, acc.worst)) = res
      at hpres ⊢
    obtain ⟨mF, kF, dF, wF⟩ := res
    have hmt : mF t = some st := hpres
    have hupd : ∀ (st2 : Status σ), ∃ st', States.update mF s st2 t = some st' := by
      intro st2
      unfold States.update
      by_cases he : t = s
      · subst he
        rw [if_pos rfl, hmt]
        exact ⟨st2, rfl⟩
      · rw [if_neg he]
        exact ⟨st, hmt⟩
    simp only []
    by_cases hd : (dF == 0) = true
    · rw [if_pos hd]
      cases hls : States.lookup mF s with
      | none => exact ⟨st, hmt⟩
      | some stf =>
        simp only []
        exact hupd _
    · rw [if_neg hd]
      by_cases hseen : acc.seen.contains (probeOf kF) = true
      · rw [if_pos hseen]
        exact ⟨st, hmt⟩
      · rw [if_neg hseen]
        cases hls : States.lookup mF s with
        | none => exact ⟨st, hmt⟩
        | some stf =>
          simp only []
          exact hupd _

/-- expandFold on an ok run keeps every entry present. -/
theorem expandFold_ok_domain (eng : Engine σ W) (s : σ) :
    ∀ (ws : List W) (i : Nat) (acc acc' : ExpandAcc σ),
    expandFold eng s i ws acc = .ok acc' →
    ∀ (t : σ) (st : Status σ), acc.states t = some st →
    ∃ st', acc'.states t = some st'
  | [], i, acc, acc', h, t, st, hm => by
    rw [show expandFold eng s i [] acc = .ok acc from rfl] at h
    cases h
    exact ⟨st, hm⟩
  | w :: ws, i, acc, acc', h, t, st, hm => by
    rw [show expandFold eng s i (w :: ws) acc =
      (match expandStep eng s i w acc with
       | .error m => .error m
       | .ok acc1 => expandFold eng s (i + 1) ws acc1) from rfl] at h
    have hdom := expandStep_domain eng s i w acc t st hm
    cases hs : expandStep eng s i w acc with
    | error m =>
      rw [hs] at h
      cases h
    | ok acc1 =>
      rw [hs] at h
      rw [hs] at hdom
      obtain ⟨st1, hst1⟩ := hdom
      exact expandFold_ok_domain eng s ws (i + 1) acc1 acc' h t st1 hst1

/-- The expand loop splits at a list append. -/
theorem expandFold_append (eng : Engine σ W) (s : σ) :
    ∀ (ws1 ws2 : List W) (i : Nat) (acc : ExpandAcc σ),
    expandFold eng s i (ws1 ++ ws2) acc =
      (match expandFold eng s i ws1 acc with
       | .error m => .error m
       | .ok acc1 => expandFold eng s (i + ws1.length) ws2 acc1)
  | [], ws2, i, acc => by
    rw [show expandFold eng s i [] acc = .ok acc from rfl]
    simp
  | w :: ws1, ws2, i, acc => by
    rw [show ((w :: ws1) ++ ws2) = w :: (ws1 ++ ws2) from rfl]
    rw [show expandFold eng s i (w :: (ws1 ++ ws2)) acc =
      (match expandStep eng s i w acc with
       | .error m => .error m
       | .ok acc1 => expandFold eng s (i + 1) (ws1 ++ ws2) acc1) from rfl]
    rw [show expandFold eng s i (w :: ws1) acc =
      (match expandStep eng s i w acc with
       | .error m => .error m
       | .ok acc1 => expandFold eng s (i + 1) ws1 acc1) from rfl]
    cases hs : expandStep eng s i w acc with
    | error m => rfl
    | ok acc1 =>
      simp only []
      rw [expandFold_append eng s ws1 ws2 (i + 1) acc1]
      have hlen : i + 1 + ws1.length = i + (w :: ws1).length := by
        simp [List.length_cons]
        omega
      rw [hlen]


/-- Reading back a status just written over an existing entry. -/
theorem statusOf_update_self (m : States σ) (s : σ) (st' : Status σ) (x : Status σ)
    (h : m s = some x) : statusOf (States.update m s st') s = st' := by
  unfold statusOf States.update
  show ((if s = s then (m s).map (fun _ => st') else m s).getD {}) = st'
  rw [if_pos rfl, h]
  rfl

/-- A retained weighing whose effective outcomes are all solved makes
expandStep take the early-return branch, recording that weighing as the
node's only child with depth 1. -/
theorem expandStep_early (eng : Engine σ W) (s : σ) (i : Nat) (w : W)
    (acc : ExpandAcc σ) (st1 : Status σ)
    (himp : ¬ (Outcome.list.filter
      (fun o => ((eng.applyW s w).get o).isNone)).length ≥ 2)
    (hsol : ∀ o t, (effOuts eng s w).get o = some t → GoodOut eng acc.states t)
    (hst1 : acc.states s = some st1) :
    ∃ mF, expandStep eng s i w acc = .error (States.update mF s
        { st1 with children := [⟨effOuts eng s w, i⟩],
                   depth_min := 1, depth_max := 1 }) ∧
      mF s = some st1 := by
  unfold expandStep
  simp only []
  rw [if_neg himp]
  rw [show (if eng.symW w then (eng.applyW s w).set .RightHeavier none
      else eng.applyW s w) = effOuts eng s w from rfl]
  have hkeys := internFold_keys eng (effOuts eng s w) acc.states acc.worst
  have hdeep := internFold_solved eng (effOuts eng s w) acc.states acc.worst hsol
  have hpres := internFold_preserves eng (effOuts eng s w) acc.states acc.worst s st1 hst1
  generalize hres : (Outcome.list.foldl
    (fun r o => internOutcome eng o ((effOuts eng s w).get o) r)
    (acc.states, (⟨none, none, none⟩ : OutcomeArray (Option σ)), 0, acc.worst)) = res
    at hkeys hdeep hpres ⊢
  obtain ⟨mF, kF, dF, wF⟩ := res
  have hkF : kF = effOuts eng s w := hkeys
  have hdF : dF = 0 := hdeep.1
  have hsF : mF s = some st1 := hpres
  subst hkF
  subst hdF
  simp only []
  rw [if_pos (show ((0 : Nat) == 0) = true from rfl)]
  rw [show States.lookup mF s = some st1 from hsF]
  exact ⟨mF, rfl, hsF⟩

/-- C7: during expand of an unexpanded state, a retained weighing whose
effective outcomes are all solved makes expand record exactly that weighing as
the single child, set depth_min = depth_max = 1, and return without touching
the remaining weighings. -/
theorem c7_expand_early_return (eng : Engine σ W) (s : σ) (ws1 ws2 : List W) (w : W)
    (m : States σ) (st : Status σ) (acc1 : ExpandAcc σ)
    (hstat : m s = some st) (hunexp : st.isExpanded = false)
    (hpre : expandFold eng s 0 ws1 ⟨m, [], DEPTH_INF⟩ = .ok acc1)
    (himp : ¬ (Outcome.list.filter
      (fun o => ((eng.applyW s w).get o).isNone)).length ≥ 2)
    (hsol : ∀ o t, (effOuts eng s w).get o = some t → GoodOut eng acc1.states t) :
    expandList eng s (ws1 ++ w :: ws2) m = expandList eng s (ws1 ++ [w]) m ∧
    (statusOf (expandList eng s (ws1 ++ w :: ws2) m) s).children
      = [⟨effOuts eng s w, ws1.length⟩] ∧
    (statusOf (expandList eng s (ws1 ++ w :: ws2) m) s).depth_min = 1 ∧
    (statusOf (expandList eng s (ws1 ++ w :: ws2) m) s).depth_max = 1 := by
  obtain ⟨st1, hst1⟩ := expandFold_ok_domain eng s ws1 0 ⟨m, [], DEPTH_INF⟩ acc1 hpre
    s st hstat
  obtain ⟨mF, hsE, hmFs⟩ := expandStep_early eng s ws1.length w acc1 st1 himp hsol hst1
  have hne : ¬ st.isExpanded = true := by
    rw [hunexp]
    exact Bool.false_ne_true
  have hrun : ∀ ws2' : List W, expandList eng s (ws1 ++ w :: ws2') m =
      States.update mF s { st1 with
        children := [⟨effOuts eng s w, ws1.length⟩],
        depth_min := 1,
        depth_max := 1 } := by
    intro ws2'
    unfold expandList
    rw [show States.lookup m s = some st from hstat]
    simp only []
    rw [if_neg hne]
    rw [expandFold_append eng s ws1 (w :: ws2') 0 ⟨m, [], DEPTH_INF⟩]
    rw [hpre]
    simp only []
    rw [show (0 + ws1.length) = ws1.length from Nat.zero_add _]
    rw [show expandFold eng s ws1.length (w :: ws2') acc1 =
      (match expandStep eng s ws1.length w acc1 with
       | .error m' => .error m'
       | .ok a => expandFold eng s (ws1.length + 1) ws2' a) from rfl]
    rw [hsE]
  refine ⟨(hrun ws2).trans (hrun []).symm, ?_, ?_, ?_⟩ <;>
    rw [hrun ws2, statusOf_update_self mF s _ st1 hmFs]

/-- Witness for C7 on the demo engine: the root's single weighing leads to two
fresh solved states, so expand records it as the only child at depth 1 and
ignores the rest of the weighing list. -/
theorem c7_witness :
    (statusOf (expandList demoEngine 0 ([] ++ 0 :: [5]) (clearMap demoEngine)) 0).children
      = [⟨⟨some 1, some 2, none⟩, 0⟩] :=
  (c7_expand_early_return demoEngine 0 [] [5] 0 (clearMap demoEngine) {}
    ⟨clearMap demoEngine, [], DEPTH_INF⟩ rfl rfl rfl (by decide)
    (by
      intro o t ht
      cases o with
      | LeftHeavier =>
        cases ht
        refine ⟨fun ts hts => ?_, fun _ => rfl⟩
        cases hts
      | RightHeavier =>
        cases ht
        refine ⟨fun ts hts => ?_, fun _ => rfl⟩
        cases hts
      | Balances => cases ht)).2.1

-- ////////////////////////////////////////////////////////////////////////////
-- C6: monotone depth bounds along the solve_breadth trace

-- Basic lemmas for C6

theorem mapLe_refl (m : States σ) : MapLe m m :=
  fun _ st1 h => ⟨st1, h, le_refl _, le_refl _⟩

theorem mapLe_trans {m1 m2 m3 : States σ} (h12 : MapLe m1 m2) (h23 : MapLe m2 m3) :
    MapLe m1 m3 := by
  intro s st1 h1
  obtain ⟨st2, h2, ha, hb⟩ := h12 s st1 h1
  obtain ⟨st3, h3, hc, hd⟩ := h23 s st2 h2
  exact ⟨st3, h3, le_trans ha hc, le_trans hd hb⟩

theorem update_lookup (m : States σ) (s : σ) (st' : Status σ) (u : σ) :
    States.update m s st' u = if u = s then (m s).map (fun _ => st') else m u := rfl

theorem update_lookup_self (m : States σ) (s : σ) (st' : Status σ) (x : Status σ)
    (h : m s = some x) : States.update m s st' s = some st' := by
  rw [update_lookup, if_pos rfl, h]
  rfl

theorem update_lookup_ne (m : States σ) (s : σ) (st' : Status σ) (u : σ) (h : u ≠ s) :
    States.update m s st' u = m u := by
  rw [update_lookup, if_neg h]

theorem emplace_lookup_present (m : States σ) (s : σ) (stN : Status σ) (u : σ)
    (stu : Status σ) (h : m u = some stu) : States.emplace m s stN u = some stu := by
  unfold States.emplace
  cases hms : m s with
  | some x => exact h
  | none =>
    simp only []
    have hne : u ≠ s := by
      intro he
      rw [he, hms] at h
      cases h
    rw [if_neg hne]
    exact h

theorem emplace_lookup_cases (m : States σ) (s : σ) (stN : Status σ) (u : σ)
    (stu : Status σ) (h : States.emplace m s stN u = some stu) :
    m u = some stu ∨ (m u = none ∧ u = s ∧ stu = stN) := by
  unfold States.emplace at h
  cases hms : m s with
  | some x =>
    rw [hms] at h
    exact .inl h
  | none =>
    rw [hms] at h
    simp only [] at h
    by_cases he : u = s
    · rw [if_pos he] at h
      cases h
      exact .inr ⟨he ▸ hms, he, rfl⟩
    · rw [if_neg he] at h
      exact .inl h

/-- Rewriting depth_min to an equal depth_max leaves a resolved status
unchanged. -/
theorem status_min_to_max (st : Status σ) (h : st.depth_min = st.depth_max) :
    { st with depth_min := st.depth_max } = st := by
  cases st
  simp_all

/-- Full characterization of one step of the outcome-interning loop: entries
are preserved, new entries are fresh solved/unsolved statuses, deepest grows
and stays bounded and is achieved by some interned key, worst either shrinks
or is stomped to 1, and the processed key lands in one of three classes. -/
theorem internOutcome_facts (eng : Engine σ W) (o : Outcome) (out : Option σ)
    (m : States σ) (k : OutcomeArray (Option σ)) (d w : Nat)
    (hub : ∀ t ts, m t = some ts → ts.depth_max ≤ DEPTH_INF)
    (hle : ∀ t ts, m t = some ts → ts.depth_min ≤ ts.depth_max)
    (hd : d ≤ DEPTH_INF) :
    (∀ u stu, m u = some stu → (internOutcome eng o out (m, k, d, w)).1 u = some stu) ∧
    (∀ u stu, (internOutcome eng o out (m, k, d, w)).1 u = some stu → m u = some stu ∨
      (m u = none ∧ out = some u ∧
        (stu = ⟨[], 0, 0⟩ ∨ stu = ⟨[], DEPTH_INF, 1⟩))) ∧
    d ≤ (internOutcome eng o out (m, k, d, w)).2.2.1 ∧
    (internOutcome eng o out (m, k, d, w)).2.2.1 ≤ DEPTH_INF ∧
    ((internOutcome eng o out (m, k, d, w)).2.2.1 = d ∨
      ∃ u stu, out = some u ∧ (internOutcome eng o out (m, k, d, w)).1 u = some stu ∧
        stu.depth_max = (internOutcome eng o out (m, k, d, w)).2.2.1) ∧
    ((internOutcome eng o out (m, k, d, w)).2.2.2 ≤ w ∨
      (internOutcome eng o out (m, k, d, w)).2.2.2 = 1) ∧
    (∀ u, out = some u → ∃ stu, (internOutcome eng o out (m, k, d, w)).1 u = some stu ∧
      (stu.depth_min = stu.depth_max ∨
       (internOutcome eng o out (m, k, d, w)).2.2.2 ≤ stu.depth_min ∨
       (stu.depth_min = 0 ∧ (internOutcome eng o out (m, k, d, w)).2.2.2 ≤ 1))) := by
  cases out with
  | none =>
    refine ⟨?_, ?_, ?_, ?_, ?_, ?_, ?_⟩
    · exact fun u stu h => h
    · exact fun u stu h => .inl h
    · exact le_refl d
    · exact hd
    · exact .inl rfl
    · exact .inl (le_refl w)
    · intro u h
      cases h
  | some t =>
    unfold internOutcome
    simp only []
    cases hm : States.lookup m t with
    | none =>
      simp only [hm]
      have hmt : m t = none := hm
      have hself : ∀ stN : Status σ, States.emplace m t stN t = some stN := by
        intro stN
        unfold States.emplace
        rw [hmt]
        simp
      by_cases hs : eng.isSolved t = true
      · rw [if_pos hs]
        refine ⟨?_, ?_, ?_, ?_, ?_, ?_, ?_⟩
        · exact fun u stu h => emplace_lookup_present m t _ u stu h
        · intro u stu h
          rcases emplace_lookup_cases m t _ u stu h with h1 | ⟨h1, h2, h3⟩
          · exact .inl h1
          · subst h2
            exact .inr ⟨h1, rfl, .inl h3⟩
        · exact le_refl d
        · exact hd
        · exact .inl rfl
        · exact .inl (le_refl w)
        · intro u hu
          cases hu
          exact ⟨⟨[], 0, 0⟩, hself _, .inl rfl⟩
      · rw [if_neg hs]
        refine ⟨?_, ?_, ?_, ?_, ?_, ?_, ?_⟩
        · exact fun u stu h => emplace_lookup_present m t _ u stu h
        · intro u stu h
          rcases emplace_lookup_cases m t _ u stu h with h1 | ⟨h1, h2, h3⟩
          · exact .inl h1
          · subst h2
            exact .inr ⟨h1, rfl, .inr h3⟩
        · exact hd
        · exact le_refl DEPTH_INF
        · exact .inr ⟨t, ⟨[], DEPTH_INF, 1⟩, rfl, hself _, rfl⟩
        · exact .inr rfl
        · intro u hu
          cases hu
          exact ⟨⟨[], DEPTH_INF, 1⟩, hself _, .inr (.inl (le_refl 1))⟩
    | some ts =>
      simp only [hm]
      have hmt : m t = some ts := hm
      have hts := hub t ts hmt
      refine ⟨?_, ?_, ?_, ?_, ?_, ?_, ?_⟩
      · exact fun u stu h => h
      · exact fun u stu h => .inl h
      · exact le_max_left d ts.depth_max
      · show max d ts.depth_max ≤ DEPTH_INF
        omega
      · rcases max_choice d ts.depth_max with h | h
        · exact .inl h
        · exact .inr ⟨t, ts, rfl, hmt, h.symm⟩
      · show (if ts.depth_min < ts.depth_max then min w ts.depth_min else w) ≤ w ∨ _
        split
        · exact .inl (min_le_left _ _)
        · exact .inl (le_refl w)
      · intro u hu
        cases hu
        refine ⟨ts, hmt, ?_⟩
        by_cases hr : ts.depth_min < ts.depth_max
        · rw [if_pos hr]
          exact .inr (.inl (min_le_right _ _))
        · rw [if_neg hr]
          refine .inl ?_
          have := hle t ts hmt
          omega

/-- The three classes a processed key can be in, relative to the running
worst value. -/
theorem classP_mono (stu : Status σ) (w w' : Nat) (hw : w' ≤ w ∨ w' = 1)
    (h : stu.depth_min = stu.depth_max ∨ w ≤ stu.depth_min ∨
      (stu.depth_min = 0 ∧ w ≤ 1)) :
    stu.depth_min = stu.depth_max ∨ w' ≤ stu.depth_min ∨
      (stu.depth_min = 0 ∧ w' ≤ 1) := by
  rcases h with h | h | h
  · exact .inl h
  · rcases hw with hw | hw
    · exact .inr (.inl (le_trans hw h))
    · by_cases h0 : stu.depth_min = 0
      · exact .inr (.inr ⟨h0, by omega⟩)
      · exact .inr (.inl (by omega))
  · exact .inr (.inr ⟨h.1, by rcases hw with hw | hw <;> omega⟩)

/-- Characterization of the whole outcome-interning loop. -/
theorem internFold_facts (eng : Engine σ W) (outs : OutcomeArray (Option σ))
    (m0 : States σ) (w0 : Nat)
    (hub : ∀ t ts, m0 t = some ts → ts.depth_max ≤ DEPTH_INF)
    (hle : ∀ t ts, m0 t = some ts → ts.depth_min ≤ ts.depth_max) :
    (∀ u stu, (Outcome.list.foldl (fun r o => internOutcome eng o (outs.get o) r)
        (m0, (⟨none, none, none⟩ : OutcomeArray (Option σ)), 0, w0)).1 u = some stu →
      m0 u = some stu ∨ (m0 u = none ∧ (∃ o, outs.get o = some u) ∧
        (stu = ⟨[], 0, 0⟩ ∨ stu = ⟨[], DEPTH_INF, 1⟩))) ∧
    (Outcome.list.foldl (fun r o => internOutcome eng o (outs.get o) r)
        (m0, (⟨none, none, none⟩ : OutcomeArray (Option σ)), 0, w0)).2.2.1 ≤ DEPTH_INF ∧
    ((Outcome.list.foldl (fun r o => internOutcome eng o (outs.get o) r)
        (m0, (⟨none, none, none⟩ : OutcomeArray (Option σ)), 0, w0)).2.2.1 = 0 ∨
      ∃ u stu, (∃ o, outs.get o = some u) ∧
        (Outcome.list.foldl (fun r o => internOutcome eng o (outs.get o) r)
          (m0, (⟨none, none, none⟩ : OutcomeArray (Option σ)), 0, w0)).1 u = some stu ∧
        stu.depth_max = (Outcome.list.foldl (fun r o => internOutcome eng o (outs.get o) r)
          (m0, (⟨none, none, none⟩ : OutcomeArray (Option σ)), 0, w0)).2.2.1) ∧
    ((Outcome.list.foldl (fun r o => internOutcome eng o (outs.get o) r)
        (m0, (⟨none, none, none⟩ : OutcomeArray (Option σ)), 0, w0)).2.2.2 ≤ w0 ∨
      (Outcome.list.foldl (fun r o => internOutcome eng o (outs.get o) r)
        (m0, (⟨none, none, none⟩ : OutcomeArray (Option σ)), 0, w0)).2.2.2 ≤ 1) ∧
    (∀ o u, outs.get o = some u →
      ∃ stu, (Outcome.list.foldl (fun r o => internOutcome eng o (outs.get o) r)
          (m0, (⟨none, none, none⟩ : OutcomeArray (Option σ)), 0, w0)).1 u = some stu ∧
        (stu.depth_min = stu.depth_max ∨
         (Outcome.list.foldl (fun r o => internOutcome eng o (outs.get o) r)
            (m0, (⟨none, none, none⟩ : OutcomeArray (Option σ)), 0, w0)).2.2.2 ≤ stu.depth_min ∨
         (stu.depth_min = 0 ∧
          (Outcome.list.foldl (fun r o => internOutcome eng o (outs.get o) r)
            (m0, (⟨none, none, none⟩ : OutcomeArray (Option σ)), 0, w0)).2.2.2 ≤ 1))) := by
  obtain ⟨l, r, b⟩ := outs
  rw [show (Outcome.list.foldl
      (fun r' o => internOutcome eng o ((OutcomeArray.mk l r b).get o) r')
      (m0, (⟨none, none, none⟩ : OutcomeArray (Option σ)), 0, w0)) =
    internOutcome eng .Balances b (internOutcome eng .RightHeavier r
      (internOutcome eng .LeftHeavier l (m0, ⟨none, none, none⟩, 0, w0))) from rfl]
  -- step 1 facts
  obtain ⟨p1, n1, dlo1, dub1, ach1, w1, cl1⟩ :=
    internOutcome_facts eng .LeftHeavier l m0 ⟨none, none, none⟩ 0 w0 hub hle
      (by unfold DEPTH_INF; omega)
  generalize ha1 : internOutcome eng .LeftHeavier l (m0, ⟨none, none, none⟩, 0, w0) = a1
    at p1 n1 dlo1 dub1 ach1 w1 cl1 ⊢
  obtain ⟨m1, k1, d1, w1v⟩ := a1
  replace p1 : ∀ u stu, m0 u = some stu → m1 u = some stu := p1
  replace n1 : ∀ u stu, m1 u = some stu → m0 u = some stu ∨ (m0 u = none ∧ l = some u ∧
    (stu = ⟨[], 0, 0⟩ ∨ stu = ⟨[], DEPTH_INF, 1⟩)) := n1
  replace dub1 : d1 ≤ DEPTH_INF := dub1
  replace ach1 : d1 = 0 ∨ ∃ u stu, l = some u ∧ m1 u = some stu ∧ stu.depth_max = d1 := ach1
  replace w1 : w1v ≤ w0 ∨ w1v = 1 := w1
  replace cl1 : ∀ u, l = some u → ∃ stu, m1 u = some stu ∧
    (stu.depth_min = stu.depth_max ∨ w1v ≤ stu.depth_min ∨
     (stu.depth_min = 0 ∧ w1v ≤ 1)) := cl1
  have hub1 : ∀ t ts, m1 t = some ts → ts.depth_max ≤ DEPTH_INF := by
    intro t ts h
    rcases n1 t ts h with h' | ⟨_, _, h'⟩
    · exact hub t ts h'
    · rcases h' with h' | h' <;> · subst h'; simp [DEPTH_INF]
  have hle1 : ∀ t ts, m1 t = some ts → ts.depth_min ≤ ts.depth_max := by
    intro t ts h
    rcases n1 t ts h with h' | ⟨_, _, h'⟩
    · exact hle t ts h'
    · rcases h' with h' | h' <;> · subst h'; simp [DEPTH_INF]
  -- step 2 facts
  obtain ⟨p2, n2, dlo2, dub2, ach2, w2, cl2⟩ :=
    internOutcome_facts eng .RightHeavier r m1 k1 d1 w1v hub1 hle1 dub1
  generalize ha2 : internOutcome eng .RightHeavier r (m1, k1, d1, w1v) = a2
    at p2 n2 dlo2 dub2 ach2 w2 cl2 ⊢
  obtain ⟨m2, k2, d2, w2v⟩ := a2
  replace p2 : ∀ u stu, m1 u = some stu → m2 u = some stu := p2
  replace n2 : ∀ u stu, m2 u = some stu → m1 u = some stu ∨ (m1 u = none ∧ r = some u ∧
    (stu = ⟨[], 0, 0⟩ ∨ stu = ⟨[], DEPTH_INF, 1⟩)) := n2
  replace dlo2 : d1 ≤ d2 := dlo2
  replace dub2 : d2 ≤ DEPTH_INF := dub2
  replace ach2 : d2 = d1 ∨ ∃ u stu, r = some u ∧ m2 u = some stu ∧ stu.depth_max = d2 := ach2
  replace w2 : w2v ≤ w1v ∨ w2v = 1 := w2
  replace cl2 : ∀ u, r = some u → ∃ stu, m2 u = some stu ∧
    (stu.depth_min = stu.depth_max ∨ w2v ≤ stu.depth_min ∨
     (stu.depth_min = 0 ∧ w2v ≤ 1)) := cl2
  have hub2 : ∀ t ts, m2 t = some ts → ts.depth_max ≤ DEPTH_INF := by
    intro t ts h
    rcases n2 t ts h with h' | ⟨_, _, h'⟩
    · exact hub1 t ts h'
    · rcases h' with h' | h' <;> · subst h'; simp [DEPTH_INF]
  have hle2 : ∀ t ts, m2 t = some ts → ts.depth_min ≤ ts.depth_max := by
    intro t ts h
    rcases n2 t ts h with h' | ⟨_, _, h'⟩
    · exact hle1 t ts h'
    · rcases h' with h' | h' <;> · subst h'; simp [DEPTH_INF]
  -- step 3 facts
  obtain ⟨p3, n3, dlo3, dub3, ach3, w3, cl3⟩ :=
    internOutcome_facts eng .Balances b m2 k2 d2 w2v hub2 hle2 dub2
  generalize ha3 : internOutcome eng .Balances b (m2, k2, d2, w2v) = a3
    at p3 n3 dlo3 dub3 ach3 w3 cl3 ⊢
  obtain ⟨m3, k3, d3, w3v⟩ := a3
  replace p3 : ∀ u stu, m2 u = some stu → m3 u = some stu := p3
  replace n3 : ∀ u stu, m3 u = some stu → m2 u = some stu ∨ (m2 u = none ∧ b = some u ∧
    (stu = ⟨[], 0, 0⟩ ∨ stu = ⟨[], DEPTH_INF, 1⟩)) := n3
  replace dlo3 : d2 ≤ d3 := dlo3
  replace dub3 : d3 ≤ DEPTH_INF := dub3
  replace ach3 : d3 = d2 ∨ ∃ u stu, b = some u ∧ m3 u = some stu ∧ stu.depth_max = d3 := ach3
  replace w3 : w3v ≤ w2v ∨ w3v = 1 := w3
  replace cl3 : ∀ u, b = some u → ∃ stu, m3 u = some stu ∧
    (stu.depth_min = stu.depth_max ∨ w3v ≤ stu.depth_min ∨
     (stu.depth_min = 0 ∧ w3v ≤ 1)) := cl3
  refine ⟨?_, ?_, ?_, ?_, ?_⟩
  · show ∀ u stu, m3 u = some stu → m0 u = some stu ∨ (m0 u = none ∧
      (∃ o, (OutcomeArray.mk l r b).get o = some u) ∧
      (stu = ⟨[], 0, 0⟩ ∨ stu = ⟨[], DEPTH_INF, 1⟩))
    intro u stu h
    rcases n3 u stu h with h' | ⟨hn, ho, hf⟩
    · rcases n2 u stu h' with h'' | ⟨hn, ho, hf⟩
      · rcases n1 u stu h'' with h3 | ⟨hn, ho, hf⟩
        · exact .inl h3
        · exact .inr ⟨hn, ⟨.LeftHeavier, ho⟩, hf⟩
      · have hm0 : m0 u = none := by
          cases hq : m0 u with
          | none => rfl
          | some x =>
            have hx : m1 u = some x := p1 u x hq
            rw [hx] at hn
            cases hn
        exact .inr ⟨hm0, ⟨.RightHeavier, ho⟩, hf⟩
    · have hm1 : m1 u = none := by
        cases hq : m1 u with
        | none => rfl
        | some x =>
          have hx : m2 u = some x := p2 u x hq
          rw [hx] at hn
          cases hn
      have hm0 : m0 u = none := by
        cases hq : m0 u with
        | none => rfl
        | some x =>
          have hx : m1 u = some x := p1 u x hq
          rw [hx] at hm1
          cases hm1
      exact .inr ⟨hm0, ⟨.Balances, ho⟩, hf⟩
  · exact dub3
  · show d3 = 0 ∨ ∃ u stu, (∃ o, (OutcomeArray.mk l r b).get o = some u) ∧
      m3 u = some stu ∧ stu.depth_max = d3
    rcases ach3 with h3 | ⟨u, stu, ho, hu, hx⟩
    · rcases ach2 with h2 | ⟨u, stu, ho, hu, hx⟩
      · rcases ach1 with h1 | ⟨u, stu, ho, hu, hx⟩
        · exact .inl (by omega)
        · exact .inr ⟨u, stu, ⟨.LeftHeavier, ho⟩, p3 u stu (p2 u stu hu), by omega⟩
      · exact .inr ⟨u, stu, ⟨.RightHeavier, ho⟩, p3 u stu hu, by omega⟩
    · exact .inr ⟨u, stu, ⟨.Balances, ho⟩, hu, hx⟩
  · show w3v ≤ w0 ∨ w3v ≤ 1
    rcases w3 with h3 | h3 <;> rcases w2 with h2 | h2 <;> rcases w1 with h1 | h1 <;>
      first
      | exact .inl (by omega)
      | exact .inr (by omega)
  · show ∀ o u, (OutcomeArray.mk l r b).get o = some u → ∃ stu, m3 u = some stu ∧
      (stu.depth_min = stu.depth_max ∨ w3v ≤ stu.depth_min ∨
       (stu.depth_min = 0 ∧ w3v ≤ 1))
    intro o u ho
    cases o with
    | LeftHeavier =>
      obtain ⟨stu, hu, hcl⟩ := cl1 u ho
      refine ⟨stu, p3 u stu (p2 u stu hu), ?_⟩
      exact classP_mono stu w2v w3v w3 (classP_mono stu w1v w2v w2 hcl)
    | RightHeavier =>
      obtain ⟨stu, hu, hcl⟩ := cl2 u ho
      exact ⟨stu, p3 u stu hu, classP_mono stu w2v w3v w3 hcl⟩
    | Balances =>
      obtain ⟨stu, hu, hcl⟩ := cl3 u ho
      exact ⟨stu, hu, hcl⟩

/-- The child classes used by EFInv.childOK are stable when worst shrinks or
is stomped down to 1. -/
theorem childOK_mono (stk : Status σ) (stM : Status σ) (stM' : Status σ) (w w' : Nat)
    (hw : w' ≤ w ∨ w' ≤ 1) (hmax : stM'.depth_max ≤ stM.depth_max)
    (h : (stk.depth_min = stk.depth_max ∧ stM.depth_max ≤ 1 + stk.depth_max) ∨
      w ≤ stk.depth_min ∨ (stk.depth_min = 0 ∧ w ≤ 1)) :
    (stk.depth_min = stk.depth_max ∧ stM'.depth_max ≤ 1 + stk.depth_max) ∨
      w' ≤ stk.depth_min ∨ (stk.depth_min = 0 ∧ w' ≤ 1) := by
  rcases h with ⟨h1, h2⟩ | h | ⟨h1, h2⟩
  · exact .inl ⟨h1, le_trans hmax h2⟩
  · rcases hw with hw | hw
    · exact .inr (.inl (le_trans hw h))
    · by_cases h0 : stk.depth_min = 0
      · exact .inr (.inr ⟨h0, hw⟩)
      · exact .inr (.inl (by omega))
  · exact .inr (.inr ⟨h1, by omega⟩)

/-- The per-entry invariant facts transfer over interning, which only adds
fresh solved or fresh unsolved entries. -/
theorem entry_facts_transfer (eng : Engine σ W) (rank : σ → Nat)
    (mA mB : States σ)
    (hnew : ∀ u stu, mB u = some stu → mA u = some stu ∨
      (stu = ⟨[], 0, 0⟩ ∨ stu = ⟨[], DEPTH_INF, 1⟩))
    (hpres : ∀ u stu, mA u = some stu → mB u = some stu)
    (hle : ∀ u stu, mA u = some stu → stu.depth_min ≤ stu.depth_max)
    (hub : ∀ u stu, mA u = some stu → stu.depth_max ≤ DEPTH_INF)
    (hunexp : ∀ u stu, mA u = some stu → stu.isExpanded = false →
      stu.depth_min ≤ 1 ∨ (stu.depth_min = stu.depth_max ∧ AllSkip eng u))
    (hclosed : ∀ u stu, mA u = some stu → ∀ c ∈ stu.children, ∀ k ∈ childKeys c,
      rank k < rank u ∧ ∃ stk, mA k = some stk)
    (hkbound : ∀ u stu, mA u = some stu → stu.depth_min ≠ stu.depth_max →
      ∀ c ∈ stu.children, ∃ k ∈ childKeys c, ∃ stk, mA k = some stk ∧
        (stu.depth_min ≤ 1 + stk.depth_min ∨
         (stk.depth_min = 0 ∧ stu.depth_min ≤ 2)))
    (hkmax1 : ∀ u stu, mA u = some stu → stu.depth_min ≠ stu.depth_max →
      ∀ c ∈ stu.children, ∃ k ∈ childKeys c, ∃ stk, mA k = some stk ∧
        1 ≤ stk.depth_max) :
    (∀ u stu, mB u = some stu → stu.depth_min ≤ stu.depth_max) ∧
    (∀ u stu, mB u = some stu → stu.depth_max ≤ DEPTH_INF) ∧
    (∀ u stu, mB u = some stu → stu.isExpanded = false →
      stu.depth_min ≤ 1 ∨ (stu.depth_min = stu.depth_max ∧ AllSkip eng u)) ∧
    (∀ u stu, mB u = some stu → ∀ c ∈ stu.children, ∀ k ∈ childKeys c,
      rank k < rank u ∧ ∃ stk, mB k = some stk) ∧
    (∀ u stu, mB u = some stu → stu.depth_min ≠ stu.depth_max →
      ∀ c ∈ stu.children, ∃ k ∈ childKeys c, ∃ stk, mB k = some stk ∧
        (stu.depth_min ≤ 1 + stk.depth_min ∨
         (stk.depth_min = 0 ∧ stu.depth_min ≤ 2))) ∧
    (∀ u stu, mB u = some stu → stu.depth_min ≠ stu.depth_max →
      ∀ c ∈ stu.children, ∃ k ∈ childKeys c, ∃ stk, mB k = some stk ∧
        1 ≤ stk.depth_max) := by
  refine ⟨?_, ?_, ?_, ?_, ?_, ?_⟩
  · intro u stu h
    rcases hnew u stu h with h' | h' | h'
    · exact hle u stu h'
    · subst h'; simp [DEPTH_INF]
    · subst h'; simp [DEPTH_INF]
  · intro u stu h
    rcases hnew u stu h with h' | h' | h'
    · exact hub u stu h'
    · subst h'; simp [DEPTH_INF]
    · subst h'; simp [DEPTH_INF]
  · intro u stu h hx
    rcases hnew u stu h with h' | h' | h'
    · exact hunexp u stu h' hx
    · subst h'
      simp [Status.isExpanded, DEPTH_INF] at hx
    · subst h'
      exact .inl (le_refl 1)
  · intro u stu h c hc k hk
    rcases hnew u stu h with h' | h' | h'
    · obtain ⟨hr, stk, hstk⟩ := hclosed u stu h' c hc k hk
      exact ⟨hr, stk, hpres k stk hstk⟩
    · subst h'; cases hc
    · subst h'; cases hc
  · intro u stu h hx c hc
    rcases hnew u stu h with h' | h' | h'
    · obtain ⟨k, hk, stk, hstk, hcl⟩ := hkbound u stu h' hx c hc
      exact ⟨k, hk, stk, hpres k stk hstk, hcl⟩
    · subst h'; cases hc
    · subst h'; cases hc
  · intro u stu h hx c hc
    rcases hnew u stu h with h' | h' | h'
    · obtain ⟨k, hk, stk, hstk, hcl⟩ := hkmax1 u stu h' hx c hc
      exact ⟨k, hk, stk, hpres k stk hstk, hcl⟩
    · subst h'; cases hc
    · subst h'; cases hc

/-- A kbound witness can be retargeted when the witnessed entry raises its
depth_min without skipping back to 0. -/
theorem kbound_retarget (du : Nat) (stOld stNew : Status σ)
    (hmono : stOld.depth_min ≤ stNew.depth_min)
    (hflip : stOld.depth_min = 0 → stNew.depth_min = 0 ∨ 1 ≤ stNew.depth_min)
    (h : du ≤ 1 + stOld.depth_min ∨ (stOld.depth_min = 0 ∧ du ≤ 2)) :
    du ≤ 1 + stNew.depth_min ∨ (stNew.depth_min = 0 ∧ du ≤ 2) := by
  rcases h with h | ⟨h0, h2⟩
  · exact .inl (by omega)
  · rcases hflip h0 with h' | h'
    · exact .inr ⟨h', h2⟩
    · exact .inl (by omega)

theorem mem_childKeys_of_get (keys : OutcomeArray (Option σ)) (wn : Nat) (o : Outcome)
    (u : σ) (h : keys.get o = some u) : u ∈ childKeys (⟨keys, wn⟩ : EChild σ) := by
  unfold childKeys
  rw [List.mem_filterMap]
  exact ⟨o, by cases o <;> simp [Outcome.list], h⟩

theorem get_of_mem_childKeys (keys : OutcomeArray (Option σ)) (wn : Nat) (u : σ)
    (h : u ∈ childKeys (⟨keys, wn⟩ : EChild σ)) : ∃ o, keys.get o = some u := by
  unfold childKeys at h
  rw [List.mem_filterMap] at h
  obtain ⟨o, _, ho⟩ := h
  exact ⟨o, ho⟩

/-- A retained weighing has at least one effective outcome. -/
theorem effOuts_some (eng : Engine σ W) (s : σ) (w : W) (himp : ¬ Skipped eng s w) :
    ∃ o u, (effOuts eng s w).get o = some u := by
  unfold Skipped at himp
  unfold effOuts
  rcases ha : eng.applyW s w with ⟨l, r, b⟩
  rw [ha] at himp
  cases hsym : eng.symW w <;> cases l <;> cases r <;> cases b <;>
    simp_all [Outcome.list, OutcomeArray.get, OutcomeArray.set] <;>
    first
    | exact ⟨.LeftHeavier, _, rfl⟩
    | exact ⟨.RightHeavier, _, rfl⟩
    | exact ⟨.Balances, _, rfl⟩

/-- Witness facts about a freshly recorded child. -/
theorem newChild_facts (eng : Engine σ W) (s : σ) (w : W) (i : Nat)
    (hskip : ¬ Skipped eng s w) (mF : States σ) (dF wF : Nat) (hdF : dF ≠ 0)
    (hach : dF = 0 ∨ ∃ u stu, (∃ o, (effOuts eng s w).get o = some u) ∧
      mF u = some stu ∧ stu.depth_max = dF)
    (hcls : ∀ o u, (effOuts eng s w).get o = some u → ∃ stu, mF u = some stu ∧
      (stu.depth_min = stu.depth_max ∨ wF ≤ stu.depth_min ∨
       (stu.depth_min = 0 ∧ wF ≤ 1))) :
    (∃ k ∈ childKeys (⟨effOuts eng s w, i⟩ : EChild σ), ∃ stk, mF k = some stk ∧
      1 ≤ stk.depth_max) ∧
    (∃ k ∈ childKeys (⟨effOuts eng s w, i⟩ : EChild σ), ∃ stk, mF k = some stk) ∧
    (∀ D : Nat, D ≤ dF + 1 →
      ∃ k ∈ childKeys (⟨effOuts eng s w, i⟩ : EChild σ), ∃ stk, mF k = some stk ∧
        ((stk.depth_min = stk.depth_max ∧ D ≤ 1 + stk.depth_max) ∨
         wF ≤ stk.depth_min ∨ (stk.depth_min = 0 ∧ wF ≤ 1))) := by
  rcases hach with hach | ⟨u, stu, ⟨o, ho⟩, hu, hx⟩
  · exact absurd hach hdF
  refine ⟨⟨u, mem_childKeys_of_get _ i o u ho, stu, hu, by omega⟩,
    ⟨u, mem_childKeys_of_get _ i o u ho, stu, hu⟩, ?_⟩
  intro D hD
  by_cases hex : ∃ o' u', (effOuts eng s w).get o' = some u' ∧ ∃ stu',
      mF u' = some stu' ∧ (wF ≤ stu'.depth_min ∨ (stu'.depth_min = 0 ∧ wF ≤ 1))
  · obtain ⟨o', u', ho', stu', hu', hcl⟩ := hex
    refine ⟨u', mem_childKeys_of_get _ i o' u' ho', stu', hu', ?_⟩
    rcases hcl with hcl | hcl
    · exact .inr (.inl hcl)
    · exact .inr (.inr hcl)
  · -- every key is resolved; use the deepest achiever
    push_neg at hex
    obtain ⟨stu2, hu2, hcl2⟩ := hcls o u ho
    have hres : stu.depth_min = stu.depth_max := by
      rw [hu] at hu2
      cases hu2
      rcases hcl2 with h | h | h
      · exact h
      · have := hex o u ho stu hu
        omega
      · have := hex o u ho stu hu
        omega
    exact ⟨u, mem_childKeys_of_get _ i o u ho, stu, hu, .inl ⟨hres, by omega⟩⟩

theorem update_cases (m : States σ) (s : σ) (stN : Status σ) (u : σ) (stu : Status σ)
    (h : States.update m s stN u = some stu) :
    (u = s ∧ stu = stN) ∨ (u ≠ s ∧ m u = some stu) := by
  rw [update_lookup] at h
  by_cases he : u = s
  · rw [if_pos he] at h
    cases hms : m s with
    | none =>
      rw [hms] at h
      cases h
    | some x =>
      rw [hms] at h
      cases h
      exact .inl ⟨he, rfl⟩
  · rw [if_neg he] at h
    exact .inr ⟨he, h⟩

theorem isExpanded_of_children_ne (st : Status σ) (h : st.children ≠ []) :
    st.isExpanded = true := by
  unfold Status.isExpanded
  cases hc : st.children with
  | nil => exact absurd hc h
  | cons c cs => simp

/-- Recording one child keeps the expand accumulator invariant. -/
theorem record_efinv (eng : Engine σ W) (rank : σ → Nat) (s : σ) (i : Nat) (w : W)
    (m0 : States σ) (st0 : Status σ) (h0min : st0.depth_min ≤ 1)
    (hskip : ¬ Skipped eng s w)
    (mF : States σ) (dF wF Dnew : Nat) (stS : Status σ)
    (hsF : mF s = some stS)
    (hsmin : stS.depth_min = st0.depth_min)
    (hsmax : stS.depth_max ≤ st0.depth_max)
    (le' : ∀ u stu, mF u = some stu → stu.depth_min ≤ stu.depth_max)
    (ub' : ∀ u stu, mF u = some stu → stu.depth_max ≤ DEPTH_INF)
    (unexp' : ∀ u stu, mF u = some stu → stu.isExpanded = false →
      stu.depth_min ≤ 1 ∨ (stu.depth_min = stu.depth_max ∧ AllSkip eng u))
    (pos' : ∀ u stu, mF u = some stu → u ≠ s → stu.isExpanded = true →
      stu.depth_min ≠ stu.depth_max → 1 ≤ stu.depth_min)
    (closed' : ∀ u stu, mF u = some stu → ∀ c ∈ stu.children, ∀ k ∈ childKeys c,
      rank k < rank u ∧ ∃ stk, mF k = some stk)
    (kbound' : ∀ u stu, mF u = some stu → stu.depth_min ≠ stu.depth_max →
      ∀ c ∈ stu.children, ∃ k ∈ childKeys c, ∃ stk, mF k = some stk ∧
        (stu.depth_min ≤ 1 + stk.depth_min ∨
         (stk.depth_min = 0 ∧ stu.depth_min ≤ 2)))
    (kmax1' : ∀ u stu, mF u = some stu → stu.depth_min ≠ stu.depth_max →
      ∀ c ∈ stu.children, ∃ k ∈ childKeys c, ∃ stk, mF k = some stk ∧
        1 ≤ stk.depth_max)
    (pres' : ∀ u stu, m0 u = some stu → u ≠ s → mF u = some stu)
    (oldOK : ∀ c ∈ stS.children, ∃ k ∈ childKeys c, ∃ stk, mF k = some stk ∧
      ((stk.depth_min = stk.depth_max ∧ stS.depth_max ≤ 1 + stk.depth_max) ∨
       wF ≤ stk.depth_min ∨ (stk.depth_min = 0 ∧ wF ≤ 1)))
    (oldK1 : stS.depth_min ≠ stS.depth_max →
      ∀ c ∈ stS.children, ∃ k ∈ childKeys c, ∃ stk, mF k = some stk ∧
        1 ≤ stk.depth_max)
    (hkrank : ∀ o u, (effOuts eng s w).get o = some u → rank u < rank s)
    (hkne : ∀ o u, (effOuts eng s w).get o = some u → u ≠ s)
    (hcls : ∀ o u, (effOuts eng s w).get o = some u → ∃ stu, mF u = some stu ∧
      (stu.depth_min = stu.depth_max ∨ wF ≤ stu.depth_min ∨
       (stu.depth_min = 0 ∧ wF ≤ 1)))
    (hach : dF = 0 ∨ ∃ u stu, (∃ o, (effOuts eng s w).get o = some u) ∧
      mF u = some stu ∧ stu.depth_max = dF)
    (hdF : dF ≠ 0)
    (hwFub : wF ≤ DEPTH_INF)
    (hD1 : 1 ≤ Dnew) (hDle : Dnew ≤ dF + 1) (hDmax : Dnew ≤ stS.depth_max)
    (hDub : Dnew ≤ DEPTH_INF) (seen' : List (Multiset (Option σ))) :
    EFInv eng rank s m0 st0
      ⟨States.update mF s ⟨stS.children ++ [⟨effOuts eng s w, i⟩], Dnew, stS.depth_min⟩,
       seen', wF⟩ := by
  obtain ⟨hNk1, hNany, hNok⟩ := newChild_facts eng s w i hskip mF dF wF hdF hach hcls
  have hupd_key : ∀ (k : σ), (∃ o, (effOuts eng s w).get o = some k) ∨ k ≠ s →
      ∀ stk, mF k = some stk →
      States.update mF s ⟨stS.children ++ [⟨effOuts eng s w, i⟩], Dnew, stS.depth_min⟩ k
        = some stk := by
    intro k hor stk hstk
    have hkne2 : k ≠ s := by
      rcases hor with ⟨o, ho⟩ | h
      · exact hkne o k ho
      · exact h
    rw [update_lookup_ne _ _ _ _ hkne2]
    exact hstk
  refine ⟨?_, ?_, ?_, ?_, ?_, ?_, ?_, ?_, ?_, ?_, ?_, ?_⟩
  · -- le
    intro u stu h
    rcases update_cases _ _ _ u stu h with ⟨he, hv⟩ | ⟨hne, hv⟩
    · subst hv
      show stS.depth_min ≤ Dnew
      omega
    · exact le' u stu hv
  · -- ub
    intro u stu h
    rcases update_cases _ _ _ u stu h with ⟨he, hv⟩ | ⟨hne, hv⟩
    · subst hv
      exact hDub
    · exact ub' u stu hv
  · -- unexp
    intro u stu h hx
    rcases update_cases _ _ _ u stu h with ⟨he, hv⟩ | ⟨hne, hv⟩
    · subst hv
      rw [isExpanded_of_children_ne _ (by simp)] at hx
      cases hx
    · exact unexp' u stu hv hx
  · -- pos
    intro u stu h hne hexp hx
    rcases update_cases _ _ _ u stu h with ⟨he, hv⟩ | ⟨hne2, hv⟩
    · exact absurd he hne
    · exact pos' u stu hv hne hexp hx
  · -- closed
    intro u stu h c hc k hk
    rcases update_cases _ _ _ u stu h with ⟨he, hv⟩ | ⟨hne, hv⟩
    · subst hv
      rw [he]
      have hc2 : c ∈ stS.children ++ [(⟨effOuts eng s w, i⟩ : EChild σ)] := hc
      rcases List.mem_append.mp hc2 with hold | hnew2
      · obtain ⟨hr, stk, hstk⟩ := closed' s stS hsF c hold k hk
        refine ⟨hr, stk, ?_⟩
        exact hupd_key k (.inr (by
          intro he2
          rw [he2] at hr
          exact lt_irrefl _ hr)) stk hstk
      · rw [List.mem_singleton] at hnew2
        subst hnew2
        obtain ⟨o, ho⟩ := get_of_mem_childKeys _ i k hk
        obtain ⟨stk, hstk, _⟩ := hcls o k ho
        exact ⟨hkrank o k ho, stk, hupd_key k (.inl ⟨o, ho⟩) stk hstk⟩
    · obtain ⟨hr, stk, hstk⟩ := closed' u stu hv c hc k hk
      refine ⟨hr, ?_⟩
      by_cases hks : k = s
      · rw [hks]
        exact ⟨_, update_lookup_self mF s _ stS hsF⟩
      · exact ⟨stk, hupd_key k (.inr hks) stk hstk⟩
  · -- kbound
    intro u stu h hx c hc
    rcases update_cases _ _ _ u stu h with ⟨he, hv⟩ | ⟨hne, hv⟩
    · subst hv
      have hc2 : c ∈ stS.children ++ [(⟨effOuts eng s w, i⟩ : EChild σ)] := hc
      have hmin1 : stS.depth_min ≤ 1 := by omega
      rcases List.mem_append.mp hc2 with hold | hnew2
      · obtain ⟨k, hk, stk, hstk, _⟩ := oldOK c hold
        have hkr := closed' s stS hsF c hold k hk
        refine ⟨k, hk, stk, hupd_key k (.inr (by
          intro he2
          rw [he2] at hkr
          exact lt_irrefl _ hkr.1)) stk hstk, ?_⟩
        refine .inl ?_
        show stS.depth_min ≤ 1 + stk.depth_min
        omega
      · rw [List.mem_singleton] at hnew2
        subst hnew2
        obtain ⟨k, hk, stk, hstk⟩ := hNany
        obtain ⟨o, ho⟩ := get_of_mem_childKeys _ i k hk
        refine ⟨k, hk, stk, hupd_key k (.inl ⟨o, ho⟩) stk hstk, .inl ?_⟩
        show stS.depth_min ≤ 1 + stk.depth_min
        omega
    · obtain ⟨k, hk, stk, hstk, hcl⟩ := kbound' u stu hv hx c hc
      by_cases hks : k = s
      · rw [hks] at hstk
        rw [hsF] at hstk
        cases hstk
        refine ⟨k, hk, _, by rw [hks]; exact update_lookup_self mF s _ stS hsF, ?_⟩
        exact kbound_retarget stu.depth_min stS _ (le_refl _) (fun h0 => .inl h0) hcl
      · exact ⟨k, hk, stk, hupd_key k (.inr hks) stk hstk, hcl⟩
  · -- kmax1
    intro u stu h hx c hc
    rcases update_cases _ _ _ u stu h with ⟨he, hv⟩ | ⟨hne, hv⟩
    · subst hv
      have hc2 : c ∈ stS.children ++ [(⟨effOuts eng s w, i⟩ : EChild σ)] := hc
      rcases List.mem_append.mp hc2 with hold | hnew2
      · have hx2 : stS.depth_min ≠ Dnew := hx
        have hxS : stS.depth_min ≠ stS.depth_max := by omega
        obtain ⟨k, hk, stk, hstk, hcl⟩ := oldK1 hxS c hold
        have hkr := closed' s stS hsF c hold k hk
        exact ⟨k, hk, stk, hupd_key k (.inr (by
          intro he2
          rw [he2] at hkr
          exact lt_irrefl _ hkr.1)) stk hstk, hcl⟩
      · rw [List.mem_singleton] at hnew2
        subst hnew2
        obtain ⟨k, hk, stk, hstk, hcl⟩ := hNk1
        obtain ⟨o, ho⟩ := get_of_mem_childKeys _ i k hk
        exact ⟨k, hk, stk, hupd_key k (.inl ⟨o, ho⟩) stk hstk, hcl⟩
    · obtain ⟨k, hk, stk, hstk, hcl⟩ := kmax1' u stu hv hx c hc
      by_cases hks : k = s
      · refine ⟨k, hk, _, by rw [hks]; exact update_lookup_self mF s _ stS hsF, ?_⟩
        show 1 ≤ Dnew
        exact hD1
      · exact ⟨k, hk, stk, hupd_key k (.inr hks) stk hstk, hcl⟩
  · -- pres
    intro u stu hm0 hne
    exact hupd_key u (.inr hne) stu (pres' u stu hm0 hne)
  · -- sentry
    refine ⟨_, update_lookup_self mF s _ stS hsF, ?_, ?_, ?_⟩
    · show stS.depth_min = st0.depth_min
      exact hsmin
    · show Dnew ≤ st0.depth_max
      omega
    · exact hD1
  · -- worstUB
    exact hwFub
  · -- childOK
    intro st' hst' c hc
    have hst2 : st' = ⟨stS.children ++ [⟨effOuts eng s w, i⟩], Dnew, stS.depth_min⟩ := by
      have h2 : States.update mF s
          ⟨stS.children ++ [⟨effOuts eng s w, i⟩], Dnew, stS.depth_min⟩ s = some st' := hst'
      rw [update_lookup_self mF s _ stS hsF] at h2
      cases h2
      rfl
    subst hst2
    have hc2 : c ∈ stS.children ++ [(⟨effOuts eng s w, i⟩ : EChild σ)] := hc
    rcases List.mem_append.mp hc2 with hold | hnew2
    · obtain ⟨k, hk, stk, hstk, hcl⟩ := oldOK c hold
      have hkr := closed' s stS hsF c hold k hk
      refine ⟨k, hk, stk, hupd_key k (.inr (by
        intro he2
        rw [he2] at hkr
        exact lt_irrefl _ hkr.1)) stk hstk, ?_⟩
      rcases hcl with ⟨h1, h2⟩ | h | h
      · refine .inl ⟨h1, ?_⟩
        show Dnew ≤ 1 + stk.depth_max
        omega
      · exact .inr (.inl h)
      · exact .inr (.inr h)
    · rw [List.mem_singleton] at hnew2
      subst hnew2
      obtain ⟨k, hk, stk, hstk, hcl⟩ := hNok Dnew hDle
      obtain ⟨o, ho⟩ := get_of_mem_childKeys _ i k hk
      exact ⟨k, hk, stk, hupd_key k (.inl ⟨o, ho⟩) stk hstk, hcl⟩
  · -- skipNil
    intro st' hst' hnil
    have hst2 : st' = ⟨stS.children ++ [⟨effOuts eng s w, i⟩], Dnew, stS.depth_min⟩ := by
      have h2 : States.update mF s
          ⟨stS.children ++ [⟨effOuts eng s w, i⟩], Dnew, stS.depth_min⟩ s = some st' := hst'
      rw [update_lookup_self mF s _ stS hsF] at h2
      cases h2
      rfl
    subst hst2
    simp at hnil

/-- One weighing of the expand loop preserves the accumulator invariant; the
early return produces a fully invariant map that resolves s at depth 1. -/
theorem expandStep_efinv (eng : Engine σ W) (rank : σ → Nat)
    (hR : RankedEngine eng rank) (s : σ) (i : Nat) (w : W)
    (hw : w ∈ eng.weighings s) (m0 : States σ) (st0 : Status σ)
    (h0min : st0.depth_min ≤ 1) (acc : ExpandAcc σ)
    (hE : EFInv eng rank s m0 st0 acc) :
    (∀ acc', expandStep eng s i w acc = .ok acc' →
      EFInv eng rank s m0 st0 acc' ∧
      (∀ st' stp, acc'.states s = some st' → acc.states s = some stp →
        st'.children = [] → stp.children = [] ∧ Skipped eng s w)) ∧
    (∀ m', expandStep eng s i w acc = .error m' →
      InvS eng rank m' ∧
      (∀ u stu, m0 u = some stu → u ≠ s → m' u = some stu) ∧
      (∃ st', m' s = some st' ∧ st'.depth_min = 1 ∧ st'.depth_max = 1)) := by
  obtain ⟨stS, hsS, hsmin, hsmax, hsmax1⟩ := hE.sentry
  unfold expandStep
  simp only []
  by_cases hskip0 : (Outcome.list.filter
      (fun o => ((eng.applyW s w).get o).isNone)).length ≥ 2
  · have hskip : Skipped eng s w := hskip0
    rw [if_pos hskip0]
    refine ⟨?_, ?_⟩
    · intro acc' h
      cases h
      refine ⟨hE, ?_⟩
      intro st' stp h1 h2 h3
      rw [h1] at h2
      cases h2
      exact ⟨h3, hskip⟩
    · intro m' h
      cases h
  · have hskip : ¬ Skipped eng s w := hskip0
    rw [if_neg hskip0]
    rw [show (if eng.symW w then (eng.applyW s w).set .RightHeavier none
        else eng.applyW s w) = effOuts eng s w from rfl]
    obtain ⟨hnew, hdub, hach, hwev, hcls⟩ :=
      internFold_facts eng (effOuts eng s w) acc.states acc.worst hE.ub hE.le
    have hkeys := internFold_keys eng (effOuts eng s w) acc.states acc.worst
    have hpresF := internFold_preserves eng (effOuts eng s w) acc.states acc.worst
    generalize hres : (Outcome.list.foldl
      (fun r o => internOutcome eng o ((effOuts eng s w).get o) r)
      (acc.states, (⟨none, none, none⟩ : OutcomeArray (Option σ)), 0, acc.worst)) = res
      at hnew hdub hach hwev hcls hkeys hpresF ⊢
    obtain ⟨mF, kF, dF, wF⟩ := res
    replace hnew : ∀ u stu, mF u = some stu → acc.states u = some stu ∨
      (acc.states u = none ∧ (∃ o, (effOuts eng s w).get o = some u) ∧
       (stu = ⟨[], 0, 0⟩ ∨ stu = ⟨[], DEPTH_INF, 1⟩)) := hnew
    replace hdub : dF ≤ DEPTH_INF := hdub
    replace hach : dF = 0 ∨ ∃ u stu, (∃ o, (effOuts eng s w).get o = some u) ∧
      mF u = some stu ∧ stu.depth_max = dF := hach
    replace hwev : wF ≤ acc.worst ∨ wF ≤ 1 := hwev
    replace hcls : ∀ o u, (effOuts eng s w).get o = some u → ∃ stu, mF u = some stu ∧
      (stu.depth_min = stu.depth_max ∨ wF ≤ stu.depth_min ∨
       (stu.depth_min = 0 ∧ wF ≤ 1)) := hcls
    replace hkeys : kF = effOuts eng s w := hkeys
    replace hpresF : ∀ u stu, acc.states u = some stu → mF u = some stu :=
      fun u stu h => hpresF u stu h
    subst hkeys
    obtain ⟨le', ub', unexp', closed', kbound', kmax1'⟩ :=
      entry_facts_transfer eng rank acc.states mF
        (fun u stu h => by
          rcases hnew u stu h with h' | ⟨_, _, hf⟩
          · exact .inl h'
          · exact .inr hf)
        hpresF hE.le hE.ub hE.unexp hE.closed hE.kbound hE.kmax1
    have pos' : ∀ u stu, mF u = some stu → u ≠ s → stu.isExpanded = true →
        stu.depth_min ≠ stu.depth_max → 1 ≤ stu.depth_min := by
      intro u stu h hne hexp hx
      rcases hnew u stu h with h' | ⟨_, _, hf⟩
      · exact hE.pos u stu h' hne hexp hx
      · rcases hf with hf | hf
        · subst hf
          simp at hx
        · subst hf
          simp [Status.isExpanded, DEPTH_INF] at hexp
    have hsF : mF s = some stS := hpresF s stS hsS
    have hkrank : ∀ o u, (effOuts eng s w).get o = some u → rank u < rank s :=
      fun o u h => hR s w hw hskip o u h
    have hkne : ∀ o u, (effOuts eng s w).get o = some u → u ≠ s := by
      intro o u h he
      subst he
      exact lt_irrefl _ (hkrank o u h)
    have hwFub : wF ≤ DEPTH_INF := by
      have := hE.worstUB
      unfold DEPTH_INF at *
      omega
    by_cases hd0 : (dF == 0) = true
    · -- early return
      rw [if_pos hd0]
      rw [show States.lookup mF s = some stS from hsF]
      refine ⟨?_, ?_⟩
      · intro acc' h
        cases h
      · intro m' h
        cases h
        refine ⟨?_, ?_, ?_⟩
        · -- InvS of the updated map
          refine ⟨?_, ?_, ?_, ?_, ?_, ?_, ?_⟩
          · intro u stu h
            rcases update_cases mF s _ u stu h with ⟨he, hv⟩ | ⟨hne, hv⟩
            · subst hv
              simp
            · exact le' u stu hv
          · intro u stu h
            rcases update_cases mF s _ u stu h with ⟨he, hv⟩ | ⟨hne, hv⟩
            · subst hv
              simp [DEPTH_INF]
            · exact ub' u stu hv
          · intro u stu h hx
            rcases update_cases mF s _ u stu h with ⟨he, hv⟩ | ⟨hne, hv⟩
            · subst hv
              simp [Status.isExpanded, DEPTH_INF] at hx
            · exact unexp' u stu hv hx
          · intro u stu h hexp hx
            rcases update_cases mF s _ u stu h with ⟨he, hv⟩ | ⟨hne, hv⟩
            · subst hv
              simp at hx
            · exact pos' u stu hv hne hexp hx
          · intro u stu h c hc k hk
            rcases update_cases mF s _ u stu h with ⟨he, hv⟩ | ⟨hne, hv⟩
            · subst hv
              have hc2 : c ∈ [(⟨effOuts eng s w, i⟩ : EChild σ)] := hc
              rw [List.mem_singleton] at hc2
              subst hc2
              obtain ⟨o, ho⟩ := get_of_mem_childKeys _ i k hk
              obtain ⟨stk, hstk, _⟩ := hcls o k ho
              rw [he]
              refine ⟨hkrank o k ho, stk, ?_⟩
              rw [update_lookup_ne _ _ _ _ (hkne o k ho)]
              exact hstk
            · obtain ⟨hr, stk, hstk⟩ := closed' u stu hv c hc k hk
              refine ⟨hr, ?_⟩
              by_cases hks : k = s
              · rw [hks]
                exact ⟨_, update_lookup_self mF s _ stS hsF⟩
              · exact ⟨stk, by rw [update_lookup_ne _ _ _ _ hks]; exact hstk⟩
          · intro u stu h hx c hc
            rcases update_cases mF s _ u stu h with ⟨he, hv⟩ | ⟨hne, hv⟩
            · subst hv
              simp at hx
            · obtain ⟨k, hk, stk, hstk, hcl⟩ := kbound' u stu hv hx c hc
              by_cases hks : k = s
              · rw [hks] at hstk
                rw [hsF] at hstk
                cases hstk
                refine ⟨k, hk, _, by rw [hks]; exact update_lookup_self mF s _ stS hsF, ?_⟩
                refine kbound_retarget stu.depth_min stS
                  { stS with
                    children := [⟨effOuts eng s w, i⟩],
                    depth_min := 1,
                    depth_max := 1 } ?_ ?_ hcl
                · show stS.depth_min ≤ 1
                  omega
                · intro _
                  exact .inr (le_refl 1)
              · exact ⟨k, hk, stk, by rw [update_lookup_ne _ _ _ _ hks]; exact hstk, hcl⟩
          · intro u stu h hx c hc
            rcases update_cases mF s _ u stu h with ⟨he, hv⟩ | ⟨hne, hv⟩
            · subst hv
              simp at hx
            · obtain ⟨k, hk, stk, hstk, hcl⟩ := kmax1' u stu hv hx c hc
              by_cases hks : k = s
              · refine ⟨k, hk, _, by rw [hks]; exact update_lookup_self mF s _ stS hsF, ?_⟩
                show (1 : Nat) ≤ 1
                exact le_refl 1
              · exact ⟨k, hk, stk, by rw [update_lookup_ne _ _ _ _ hks]; exact hstk, hcl⟩
        · intro u stu hm0 hne
          rw [update_lookup_ne _ _ _ _ hne]
          exact hpresF u stu (hE.pres u stu hm0 hne)
        · exact ⟨_, update_lookup_self mF s _ stS hsF, rfl, rfl⟩
    · rw [if_neg hd0]
      have hdF : dF ≠ 0 := fun h => hd0 (by rw [h]; rfl)
      have presM : ∀ u stu, m0 u = some stu → u ≠ s → mF u = some stu :=
        fun u stu hm0 hne => hpresF u stu (hE.pres u stu hm0 hne)
      have oldOK : ∀ c ∈ stS.children, ∃ k ∈ childKeys c, ∃ stk, mF k = some stk ∧
          ((stk.depth_min = stk.depth_max ∧ stS.depth_max ≤ 1 + stk.depth_max) ∨
           wF ≤ stk.depth_min ∨ (stk.depth_min = 0 ∧ wF ≤ 1)) := by
        intro c hc
        obtain ⟨k, hk, stk, hstk, hcl⟩ := hE.childOK stS hsS c hc
        exact ⟨k, hk, stk, hpresF k stk hstk,
          childOK_mono stk stS stS acc.worst wF hwev (le_refl _) hcl⟩
      have oldK1 : stS.depth_min ≠ stS.depth_max →
          ∀ c ∈ stS.children, ∃ k ∈ childKeys c, ∃ stk, mF k = some stk ∧
            1 ≤ stk.depth_max := by
        intro hx c hc
        obtain ⟨k, hk, stk, hstk, hcl⟩ := hE.kmax1 s stS hsS hx c hc
        exact ⟨k, hk, stk, hpresF k stk hstk, hcl⟩
      by_cases hseen : acc.seen.contains (probeOf (effOuts eng s w)) = true
      · rw [if_pos hseen]
        refine ⟨?_, ?_⟩
        · intro acc' h
          cases h
          refine ⟨⟨le', ub', unexp', pos', closed', kbound', kmax1', presM,
            ⟨stS, hsF, hsmin, hsmax, hsmax1⟩, hwFub, ?_, ?_⟩, ?_⟩
          · intro st' hst' c hc
            have h2 : mF s = some st' := hst'
            rw [hsF] at h2
            cases h2
            exact oldOK c hc
          · intro st' hst' hnil
            have h2 : mF s = some st' := hst'
            rw [hsF] at h2
            cases h2
            obtain ⟨hs0, _⟩ := hE.skipNil stS hsS hnil
            rw [hs0] at hseen
            simp at hseen
          · intro st' stp h1 h2 h3
            have h1b : mF s = some st' := h1
            rw [hsF] at h1b
            cases h1b
            obtain ⟨hs0, _⟩ := hE.skipNil stS hsS h3
            rw [hs0] at hseen
            simp at hseen
        · intro m' h
          cases h
      · rw [if_neg hseen]
        rw [show States.lookup mF s = some stS from hsF]
        simp only []
        by_cases hlow : dF < DEPTH_INF ∧
            ({stS with children := stS.children ++ [⟨effOuts eng s w, i⟩]} :
              Status σ).depth_max > dF + 1
        · rw [if_pos hlow]
          have hlow2 : stS.depth_max > dF + 1 := hlow.2
          refine ⟨?_, ?_⟩
          · intro acc' h
            cases h
            refine ⟨?_, ?_⟩
            · exact record_efinv eng rank s i w m0 st0 h0min hskip mF dF wF (dF + 1)
                stS hsF hsmin hsmax le' ub' unexp' pos' closed' kbound' kmax1' presM
                oldOK oldK1 hkrank hkne hcls hach hdF hwFub
                (by omega) (le_refl _) (by omega) (by
                  have := hlow.1
                  unfold DEPTH_INF at *
                  omega)
                (acc.seen ++ [probeOf (effOuts eng s w)])
            · intro st' stp h1 h2 h3
              have hst2 : st' = ⟨stS.children ++ [⟨effOuts eng s w, i⟩], dF + 1,
                  stS.depth_min⟩ := by
                have h2b : States.update mF s ⟨stS.children ++ [⟨effOuts eng s w, i⟩],
                    dF + 1, stS.depth_min⟩ s = some st' := h1
                rw [update_lookup_self mF s _ stS hsF] at h2b
                cases h2b
                rfl
              subst hst2
              simp at h3
          · intro m' h
            cases h
        · rw [if_neg hlow]
          have hDle : stS.depth_max ≤ dF + 1 := by
            have hub2 := hE.ub s stS hsS
            rw [Classical.not_and_iff_or_not_not] at hlow
            rcases hlow with h | h
            · unfold DEPTH_INF at *
              omega
            · have h2 : ¬ (stS.depth_max > dF + 1) := h
              omega
          refine ⟨?_, ?_⟩
          · intro acc' h
            cases h
            refine ⟨?_, ?_⟩
            · exact record_efinv eng rank s i w m0 st0 h0min hskip mF dF wF
                stS.depth_max stS hsF hsmin hsmax le' ub' unexp' pos' closed'
                kbound' kmax1' presM oldOK oldK1 hkrank hkne hcls hach hdF hwFub
                hsmax1 hDle (le_refl _) (hE.ub s stS hsS)
                (acc.seen ++ [probeOf (effOuts eng s w)])
            · intro st' stp h1 h2 h3
              have hst2 : st' = ⟨stS.children ++ [⟨effOuts eng s w, i⟩],
                  stS.depth_max, stS.depth_min⟩ := by
                have h2b : States.update mF s ⟨stS.children ++ [⟨effOuts eng s w, i⟩],
                    stS.depth_max, stS.depth_min⟩ s = some st' := h1
                rw [update_lookup_self mF s _ stS hsF] at h2b
                cases h2b
                rfl
              subst hst2
              simp at h3
          · intro m' h
            cases h

/-- A skipped weighing leaves the accumulator untouched. -/
theorem expandStep_skip (eng : Engine σ W) (s : σ) (i : Nat) (w : W)
    (acc : ExpandAcc σ) (h : Skipped eng s w) :
    expandStep eng s i w acc = .ok acc := by
  unfold expandStep
  simp only []
  have h2 : (List.filter (fun o => ((eng.applyW s w).get o).isNone)
      Outcome.list).length ≥ 2 := h
  rw [if_pos h2]

/-- When every weighing of the list is skipped, the fold is the identity. -/
theorem expandFold_allskip (eng : Engine σ W) (s : σ) :
    ∀ (ws : List W) (i : Nat) (acc : ExpandAcc σ), (∀ w ∈ ws, Skipped eng s w) →
    expandFold eng s i ws acc = .ok acc := by
  intro ws
  induction ws with
  | nil => intro i acc _; rfl
  | cons w ws ih =>
    intro i acc hAS
    rw [show expandFold eng s i (w :: ws) acc =
      (match expandStep eng s i w acc with
       | .error m => .error m
       | .ok acc1 => expandFold eng s (i + 1) ws acc1) from rfl]
    rw [expandStep_skip eng s i w acc (hAS w (List.mem_cons_self w ws))]
    exact ih (i + 1) acc (fun w' hw' => hAS w' (List.mem_cons_of_mem w hw'))

/-- The expand fold preserves EFInv, propagates the empty-children/All-skipped
fact backwards, and on early return yields the full invariant with the state
resolved at depth 1. -/
theorem expandFold_efinv (eng : Engine σ W) (rank : σ → Nat)
    (hR : RankedEngine eng rank) (s : σ) (m0 : States σ) (st0 : Status σ)
    (h0min : st0.depth_min ≤ 1) :
    ∀ (ws : List W) (i : Nat), (∀ w ∈ ws, w ∈ eng.weighings s) →
    ∀ acc, EFInv eng rank s m0 st0 acc →
    (∀ acc', expandFold eng s i ws acc = .ok acc' →
      EFInv eng rank s m0 st0 acc' ∧
      (∀ st', acc'.states s = some st' → st'.children = [] →
        (∀ stp, acc.states s = some stp → stp.children = []) ∧
        ∀ w ∈ ws, Skipped eng s w)) ∧
    (∀ m', expandFold eng s i ws acc = .error m' →
      InvS eng rank m' ∧
      (∀ u stu, m0 u = some stu → u ≠ s → m' u = some stu) ∧
      (∃ st', m' s = some st' ∧ st'.depth_min = 1 ∧ st'.depth_max = 1)) := by
  intro ws
  induction ws with
  | nil =>
    intro i hmem acc hE
    refine ⟨?_, ?_⟩
    · intro acc' h
      cases h
      refine ⟨hE, ?_⟩
      intro st' h1 h2
      refine ⟨?_, ?_⟩
      · intro stp hp
        rw [h1] at hp
        cases hp
        exact h2
      · intro w hw
        exact absurd hw (List.not_mem_nil w)
    · intro m' h
      cases h
  | cons w ws ih =>
    intro i hmem acc hE
    have hstep := expandStep_efinv eng rank hR s i w
      (hmem w (List.mem_cons_self w ws)) m0 st0 h0min acc hE
    have hunf : expandFold eng s i (w :: ws) acc =
        (match expandStep eng s i w acc with
         | .error m => .error m
         | .ok acc1 => expandFold eng s (i + 1) ws acc1) := rfl
    cases hes : expandStep eng s i w acc with
    | error m1 =>
      obtain ⟨hI1, hp1, hs1⟩ := hstep.2 m1 hes
      rw [hunf, hes]
      refine ⟨?_, ?_⟩
      · intro acc' h
        cases h
      · intro m' h
        cases h
        exact ⟨hI1, hp1, hs1⟩
    | ok acc1 =>
      obtain ⟨hE1, hprop⟩ := hstep.1 acc1 hes
      have hih := ih (i + 1) (fun w' hw' => hmem w' (List.mem_cons_of_mem w hw')) acc1 hE1
      rw [hunf, hes]
      refine ⟨?_, ?_⟩
      · intro acc' h
        obtain ⟨hE', hprop'⟩ := hih.1 acc' h
        refine ⟨hE', ?_⟩
        intro st' h1 h2
        obtain ⟨hmid, hskws⟩ := hprop' st' h1 h2
        obtain ⟨stm, hsm, _⟩ := hE1.sentry
        have hnil1 : stm.children = [] := hmid stm hsm
        refine ⟨?_, ?_⟩
        · intro stp hp
          exact (hprop stm stp hsm hp hnil1).1
        · intro w' hw'
          rcases List.mem_cons.mp hw' with he | ht
          · rw [he]
            obtain ⟨stp0, hsp0, _⟩ := hE.sentry
            exact (hprop stm stp0 hsm hsp0 hnil1).2
          · exact hskws w' ht
      · intro m' h
        exact hih.2 m' h

/-- An unexpanded status has infinite depth_max and no children. -/
theorem unexpanded_facts (st : Status σ) (h : st.isExpanded = false) :
    st.depth_max = DEPTH_INF ∧ st.children = [] := by
  unfold Status.isExpanded at h
  rw [Bool.or_eq_false_iff] at h
  obtain ⟨h1, h2⟩ := h
  constructor
  · simpa using h1
  · simpa using h2

/-- Raising the depth_min of the expanded node keeps the search invariant,
provided the new value is justified at the node itself. -/
theorem efinv_update_invs (eng : Engine σ W) (rank : σ → Nat) (s : σ)
    (m0 : States σ) (st0 : Status σ) (acc : ExpandAcc σ)
    (hE : EFInv eng rank s m0 st0 acc) (stF : Status σ)
    (hsF : acc.states s = some stF) (v : Nat)
    (hv1 : stF.depth_min ≤ v) (hv2 : v ≤ stF.depth_max) (hv3 : 1 ≤ v)
    (hunexpS : ({ stF with depth_min := v } : Status σ).isExpanded = false →
      v = stF.depth_max ∧ AllSkip eng s)
    (hkbS : v ≠ stF.depth_max →
      ∀ c ∈ stF.children, ∃ k ∈ childKeys c, k ≠ s ∧ ∃ stk, acc.states k = some stk ∧
        (v ≤ 1 + stk.depth_min ∨ (stk.depth_min = 0 ∧ v ≤ 2)))
    (hkmS : v ≠ stF.depth_max →
      ∀ c ∈ stF.children, ∃ k ∈ childKeys c, k ≠ s ∧ ∃ stk, acc.states k = some stk ∧
        1 ≤ stk.depth_max) :
    InvS eng rank (States.update acc.states s { stF with depth_min := v }) := by
  have hself : States.update acc.states s { stF with depth_min := v } s =
      some { stF with depth_min := v } := update_lookup_self acc.states s _ stF hsF
  have hpm : ∀ u stu, acc.states u = some stu →
      ∃ stu', States.update acc.states s { stF with depth_min := v } u = some stu' := by
    intro u stu hau
    by_cases he : u = s
    · subst he
      exact ⟨_, hself⟩
    · exact ⟨stu, by rw [update_lookup_ne acc.states s _ u he]; exact hau⟩
  refine ⟨?_, ?_, ?_, ?_, ?_, ?_, ?_⟩
  · intro u stu h
    rcases update_cases acc.states s _ u stu h with ⟨he, hst⟩ | ⟨hne, hm⟩
    · subst hst
      exact hv2
    · exact hE.le u stu hm
  · intro u stu h
    rcases update_cases acc.states s _ u stu h with ⟨he, hst⟩ | ⟨hne, hm⟩
    · subst hst
      exact hE.ub s stF hsF
    · exact hE.ub u stu hm
  · intro u stu h hux
    rcases update_cases acc.states s _ u stu h with ⟨he, hst⟩ | ⟨hne, hm⟩
    · subst hst
      subst he
      obtain ⟨hveq, hAS⟩ := hunexpS hux
      exact .inr ⟨hveq, hAS⟩
    · exact hE.unexp u stu hm hux
  · intro u stu h hexp hres
    rcases update_cases acc.states s _ u stu h with ⟨he, hst⟩ | ⟨hne, hm⟩
    · subst hst
      exact hv3
    · exact hE.pos u stu hm hne hexp hres
  · intro u stu h c hc k hk
    rcases update_cases acc.states s _ u stu h with ⟨he, hst⟩ | ⟨hne, hm⟩
    · subst hst
      subst he
      obtain ⟨hrk, stk, hstk⟩ := hE.closed u stF hsF c hc k hk
      obtain ⟨stk', hstk'⟩ := hpm k stk hstk
      exact ⟨hrk, stk', hstk'⟩
    · obtain ⟨hrk, stk, hstk⟩ := hE.closed u stu hm c hc k hk
      obtain ⟨stk', hstk'⟩ := hpm k stk hstk
      exact ⟨hrk, stk', hstk'⟩
  · intro u stu h hres c hc
    rcases update_cases acc.states s _ u stu h with ⟨he, hst⟩ | ⟨hne, hm⟩
    · subst hst
      subst he
      have hne' : v ≠ stF.depth_max := hres
      obtain ⟨k, hk, hks, stk, hstk, hcl⟩ := hkbS hne' c hc
      refine ⟨k, hk, stk, ?_, ?_⟩
      · rw [update_lookup_ne acc.states u _ k hks]
        exact hstk
      · exact hcl
    · obtain ⟨k, hk, stk, hstk, hcl⟩ := hE.kbound u stu hm hres c hc
      by_cases hks : k = s
      · subst hks
        rw [hsF] at hstk
        cases hstk
        refine ⟨k, hk, { stF with depth_min := v }, hself, .inl ?_⟩
        rcases hcl with hcl | ⟨h0, h2⟩
        · show stu.depth_min ≤ 1 + v
          omega
        · show stu.depth_min ≤ 1 + v
          omega
      · refine ⟨k, hk, stk, ?_, hcl⟩
        rw [update_lookup_ne acc.states s _ k hks]
        exact hstk
  · intro u stu h hres c hc
    rcases update_cases acc.states s _ u stu h with ⟨he, hst⟩ | ⟨hne, hm⟩
    · subst hst
      subst he
      have hne' : v ≠ stF.depth_max := hres
      obtain ⟨k, hk, hks, stk, hstk, hcl⟩ := hkmS hne' c hc
      refine ⟨k, hk, stk, ?_, hcl⟩
      rw [update_lookup_ne acc.states u _ k hks]
      exact hstk
    · obtain ⟨k, hk, stk, hstk, hcl⟩ := hE.kmax1 u stu hm hres c hc
      by_cases hks : k = s
      · subst hks
        rw [hsF] at hstk
        cases hstk
        refine ⟨k, hk, { stF with depth_min := v }, hself, hcl⟩
      · refine ⟨k, hk, stk, ?_, hcl⟩
        rw [update_lookup_ne acc.states s _ k hks]
        exact hstk

/-- The closing step of expand restores the full search invariant, leaves the
other entries untouched, and moves the node monotonically. -/
theorem expandFinish_invs (eng : Engine σ W) (rank : σ → Nat) (s : σ)
    (m0 : States σ) (st0 : Status σ) (h0min : st0.depth_min ≤ 1)
    (acc : ExpandAcc σ) (hE : EFInv eng rank s m0 st0 acc)
    (hnil : ∀ st', acc.states s = some st' → st'.children = [] → AllSkip eng s) :
    InvS eng rank (expandFinish s acc) ∧
    (∀ u stu, acc.states u = some stu → u ≠ s → expandFinish s acc u = some stu) ∧
    (∃ st', expandFinish s acc s = some st' ∧ st0.depth_min ≤ st'.depth_min ∧
      st'.depth_max ≤ st0.depth_max ∧ 1 ≤ st'.depth_max ∧
      (st'.isExpanded = true ∨ (st'.depth_min = st'.depth_max ∧ AllSkip eng s))) := by
  obtain ⟨stF, hsF, hFmin, hFmax, hFmax1⟩ := hE.sentry
  have hFle : stF.depth_min ≤ stF.depth_max := hE.le s stF hsF
  unfold expandFinish
  rw [show States.lookup acc.states s = some stF from hsF]
  simp only []
  by_cases hw : (acc.worst == DEPTH_INF) = true
  · rw [if_pos hw]
    have hself : States.update acc.states s { stF with depth_min := stF.depth_max } s =
        some { stF with depth_min := stF.depth_max } :=
      update_lookup_self acc.states s _ stF hsF
    refine ⟨efinv_update_invs eng rank s m0 st0 acc hE stF hsF stF.depth_max
      hFle (le_refl _) hFmax1 ?_ ?_ ?_, ?_, ?_⟩
    · intro hux
      refine ⟨rfl, ?_⟩
      obtain ⟨_, hch⟩ := unexpanded_facts _ hux
      exact hnil stF hsF hch
    · intro hne
      exact absurd rfl hne
    · intro hne
      exact absurd rfl hne
    · intro u stu hau hne
      rw [update_lookup_ne acc.states s _ u hne]
      exact hau
    · refine ⟨{ stF with depth_min := stF.depth_max }, hself, ?_, ?_, hFmax1, ?_⟩
      · show st0.depth_min ≤ stF.depth_max
        omega
      · exact hFmax
      · by_cases hcn : stF.children = []
        · exact .inr ⟨rfl, hnil stF hsF hcn⟩
        · exact .inl (isExpanded_of_children_ne _ hcn)
  · rw [if_neg hw]
    have hwne : acc.worst ≠ DEPTH_INF := by simpa using hw
    have hcn : stF.children ≠ [] := by
      intro hcnil
      exact hwne (hE.skipNil stF hsF hcnil).2
    have hsmin1 : stF.depth_min ≤ 1 := by omega
    have hv1 : stF.depth_min ≤ min (acc.worst + 1) stF.depth_max := by
      have : stF.depth_min ≤ acc.worst + 1 := by omega
      omega
    have hv3 : 1 ≤ min (acc.worst + 1) stF.depth_max := by
      have : 1 ≤ acc.worst + 1 := by omega
      omega
    have hself : States.update acc.states s
        { stF with depth_min := min (acc.worst + 1) stF.depth_max } s =
        some { stF with depth_min := min (acc.worst + 1) stF.depth_max } :=
      update_lookup_self acc.states s _ stF hsF
    refine ⟨efinv_update_invs eng rank s m0 st0 acc hE stF hsF
      (min (acc.worst + 1) stF.depth_max) hv1 (min_le_right _ _) hv3 ?_ ?_ ?_, ?_, ?_⟩
    · intro hux
      obtain ⟨_, hch⟩ := unexpanded_facts _ hux
      exact absurd hch hcn
    · intro hne c hc
      obtain ⟨k, hk, stk, hstk, hcl⟩ := hE.childOK stF hsF c hc
      have hks : k ≠ s := by
        intro he
        subst he
        exact lt_irrefl _ (hE.closed k stF hsF c hc k hk).1
      refine ⟨k, hk, hks, stk, hstk, ?_⟩
      rcases hcl with ⟨hres, hA⟩ | hB | ⟨h0, hc1⟩
      · exact .inl (by omega)
      · exact .inl (by omega)
      · exact .inr ⟨h0, by omega⟩
    · intro hne c hc
      have hFres : stF.depth_min ≠ stF.depth_max := by
        intro he
        apply hne
        omega
      obtain ⟨k, hk, stk, hstk, hcl⟩ := hE.kmax1 s stF hsF hFres c hc
      have hks : k ≠ s := by
        intro he
        subst he
        exact lt_irrefl _ (hE.closed k stF hsF c hc k hk).1
      exact ⟨k, hk, hks, stk, hstk, hcl⟩
    · intro u stu hau hne
      rw [update_lookup_ne acc.states s _ u hne]
      exact hau
    · refine ⟨{ stF with depth_min := min (acc.worst + 1) stF.depth_max }, hself,
        ?_, hFmax, hFmax1, .inl (isExpanded_of_children_ne _ hcn)⟩
      show st0.depth_min ≤ min (acc.worst + 1) stF.depth_max
      omega

/-- Manager2::expand preserves the search invariant, moves every entry
monotonically, leaves other entries untouched, never drops a positive
depth_max to zero, and leaves the node expanded or a resolved dead end. -/
theorem expand_invs (eng : Engine σ W) (rank : σ → Nat) (hR : RankedEngine eng rank)
    (s : σ) (m : States σ) (hI : InvS eng rank m) :
    InvS eng rank (expand eng s m) ∧
    MapLe m (expand eng s m) ∧
    (∀ u stu, m u = some stu → u ≠ s → expand eng s m u = some stu) ∧
    (∀ u stu stu', m u = some stu → expand eng s m u = some stu' →
      1 ≤ stu.depth_max → 1 ≤ stu'.depth_max) ∧
    (∀ st', expand eng s m s = some st' → st'.isExpanded = true ∨
      (st'.depth_min = st'.depth_max ∧ AllSkip eng s)) := by
  cases hls : States.lookup m s with
  | none =>
    have hm' : expand eng s m = m := by
      unfold expand expandList
      rw [hls]
    rw [hm']
    refine ⟨hI, mapLe_refl m, fun u stu h _ => h, ?_, ?_⟩
    · intro u stu stu' h h' h1
      rw [h] at h'
      cases h'
      exact h1
    · intro st' h
      have h2 : States.lookup m s = some st' := h
      rw [hls] at h2
      cases h2
  | some st0 =>
    by_cases hexp : st0.isExpanded = true
    · have hm' : expand eng s m = m := by
        unfold expand expandList
        rw [hls]
        simp only []
        rw [if_pos hexp]
      rw [hm']
      refine ⟨hI, mapLe_refl m, fun u stu h _ => h, ?_, ?_⟩
      · intro u stu stu' h h' h1
        rw [h] at h'
        cases h'
        exact h1
      · intro st' h
        have h2 : States.lookup m s = some st' := h
        rw [hls] at h2
        cases h2
        exact .inl hexp
    · have hexpf : st0.isExpanded = false := by
        cases hb : st0.isExpanded
        · rfl
        · exact absurd hb hexp
      obtain ⟨hu255, hunil⟩ := unexpanded_facts st0 hexpf
      have humax1 : 1 ≤ st0.depth_max := by
        rw [hu255]
        unfold DEPTH_INF
        omega
      rcases hI.unexp s st0 hls hexpf with hmin | ⟨hres, hAS⟩
      · -- the node really expands
        have hE0 : EFInv eng rank s m st0
            ⟨m, [], DEPTH_INF⟩ := by
          refine ⟨hI.le, hI.ub, hI.unexp, fun u stu h _ => hI.pos u stu h,
            hI.closed, hI.kbound, hI.kmax1, fun u stu h _ => h,
            ⟨st0, hls, rfl, le_refl _, humax1⟩, le_refl _, ?_, ?_⟩
          · intro st' h1 c hc
            have h2 : States.lookup m s = some st' := h1
            rw [hls] at h2
            cases h2
            rw [hunil] at hc
            exact absurd hc (List.not_mem_nil c)
          · intro st' h1 h2
            exact ⟨rfl, rfl⟩
        have hfold := expandFold_efinv eng rank hR s m st0 hmin
          (eng.weighings s) 0 (fun w hw => hw) ⟨m, [], DEPTH_INF⟩ hE0
        cases hf : expandFold eng s 0 (eng.weighings s) ⟨m, [], DEPTH_INF⟩ with
        | error m1 =>
          have hm' : expand eng s m = m1 := by
            unfold expand expandList
            rw [hls]
            simp only []
            rw [if_neg hexp, hf]
          obtain ⟨hI1, hp1, st1, hs1, hs1min, hs1max⟩ := hfold.2 m1 hf
          rw [hm']
          refine ⟨hI1, ?_, ?_, ?_, ?_⟩
          · intro u stu h
            by_cases he : u = s
            · subst he
              have h2 : States.lookup m u = some stu := h
              rw [hls] at h2
              cases h2
              refine ⟨st1, hs1, ?_, ?_⟩
              · omega
              · omega
            · exact ⟨stu, hp1 u stu h he, le_refl _, le_refl _⟩
          · exact hp1
          · intro u stu stu' h h' h1
            by_cases he : u = s
            · subst he
              rw [hs1] at h'
              cases h'
              omega
            · rw [hp1 u stu h he] at h'
              cases h'
              exact h1
          · intro st' h
            rw [hs1] at h
            cases h
            refine .inl ?_
            unfold Status.isExpanded
            rw [hs1max]
            unfold DEPTH_INF
            simp
        | ok accF =>
          obtain ⟨hEF, hprop⟩ := hfold.1 accF hf
          have hnil : ∀ st', accF.states s = some st' → st'.children = [] →
              AllSkip eng s := fun st' h1 h2 => (hprop st' h1 h2).2
          obtain ⟨hIF, hpF, stN, hsN, hNmin, hNmax, hNmax1, hNexp⟩ :=
            expandFinish_invs eng rank s m st0 hmin accF hEF hnil
          have hm' : expand eng s m = expandFinish s accF := by
            unfold expand expandList
            rw [hls]
            simp only []
            rw [if_neg hexp, hf]
          rw [hm']
          refine ⟨hIF, ?_, ?_, ?_, ?_⟩
          · intro u stu h
            by_cases he : u = s
            · subst he
              have h2 : States.lookup m u = some stu := h
              rw [hls] at h2
              cases h2
              exact ⟨stN, hsN, hNmin, hNmax⟩
            · exact ⟨stu, hpF u stu (hEF.pres u stu h he) he, le_refl _, le_refl _⟩
          · intro u stu h hne
            exact hpF u stu (hEF.pres u stu h hne) hne
          · intro u stu stu' h h' h1
            by_cases he : u = s
            · subst he
              rw [hsN] at h'
              cases h'
              exact hNmax1
            · rw [hpF u stu (hEF.pres u stu h he) he] at h'
              cases h'
              exact h1
          · intro st' h
            rw [hsN] at h
            cases h
            exact hNexp
      · -- every weighing is skipped: expand is the identity
        have hm' : expand eng s m = m := by
          unfold expand expandList
          rw [hls]
          simp only []
          rw [if_neg hexp]
          rw [expandFold_allskip eng s (eng.weighings s) 0 ⟨m, [], DEPTH_INF⟩ hAS]
          show expandFinish s ⟨m, [], DEPTH_INF⟩ = m
          unfold expandFinish
          rw [show States.lookup m s = some st0 from hls]
          simp only []
          rw [if_pos (by rfl)]
          rw [status_min_to_max st0 hres]
          funext u
          rw [update_lookup]
          by_cases he : u = s
          · rw [if_pos he, he]
            rw [show m s = some st0 from hls]
            rfl
          · rw [if_neg he]
        rw [hm']
        refine ⟨hI, mapLe_refl m, fun u stu h _ => h, ?_, ?_⟩
        · intro u stu stu' h h' h1
          rw [h] at h'
          cases h'
          exact h1
        · intro st' h
          have h2 : States.lookup m s = some st' := h
          rw [hls] at h2
          cases h2
          exact .inr ⟨hres, hAS⟩

/-- The inner fold of improveGroup satisfies GFacts, given that the improver
behaves like improve_node at the smaller target. -/
theorem improveGroup_fold_facts (eng : Engine σ W) (rank : σ → Nat) (s : σ)
    (t' : Nat) (impr : σ → States σ → States σ)
    (hImpr : ∀ k m', InvS eng rank m' → (∃ stk, m' k = some stk) →
      InvS eng rank (impr k m') ∧ MapLe m' (impr k m') ∧
      (∀ u stu, m' u = some stu → u ≠ k → rank k ≤ rank u →
        impr k m' u = some stu) ∧
      (∀ u stu stu', m' u = some stu → impr k m' u = some stu' →
        1 ≤ stu.depth_max → 1 ≤ stu'.depth_max) ∧
      (∃ st', impr k m' k = some st' ∧
        (st'.depth_min = st'.depth_max ∨ t' ≤ st'.depth_min))) :
    ∀ (kl : List σ) (m : States σ) (wMax0 wMin0 : Nat),
    InvS eng rank m → (∀ k ∈ kl, rank k < rank s ∧ ∃ stk, m k = some stk) →
    GFacts eng rank s t' m kl wMax0 wMin0
      (List.foldl (fun (r : States σ × Nat × Nat) k =>
        (impr k r.1, max r.2.1 (statusOf (impr k r.1) k).depth_max,
         if (statusOf (impr k r.1) k).isResolved then r.2.2
         else min r.2.2 (statusOf (impr k r.1) k).depth_min))
      (m, wMax0, wMin0) kl) := by
  intro kl
  induction kl with
  | nil =>
    intro m wMax0 wMin0 hI hkl
    refine ⟨hI, mapLe_refl m, fun u stu h _ => h, ?_, le_refl _, .inl rfl,
      le_refl _, ?_, .inr ⟨?_, .inl rfl⟩⟩
    · intro u stu stu' h h' h1
      have h2 : m u = some stu' := h'
      rw [h] at h2
      cases h2
      exact h1
    · intro k hk
      exact absurd hk (List.not_mem_nil k)
    · intro k hk
      exact absurd hk (List.not_mem_nil k)
  | cons k kl ih =>
    intro m wMax0 wMin0 hI hkl
    obtain ⟨hrk, stk0, hstk0⟩ := hkl k (List.mem_cons_self k kl)
    obtain ⟨I1, L1, F1, P1, stk', hstk', hpost⟩ := hImpr k m hI ⟨stk0, hstk0⟩
    have hsv : statusOf (impr k m) k = stk' := by
      unfold statusOf
      rw [show States.lookup (impr k m) k = some stk' from hstk']
      rfl
    have hklnew : ∀ k2 ∈ kl, rank k2 < rank s ∧ ∃ stk2, impr k m k2 = some stk2 := by
      intro k2 hk2
      obtain ⟨hr2, st2, hst2⟩ := hkl k2 (List.mem_cons_of_mem k hk2)
      obtain ⟨st2', hst2', _, _⟩ := L1 k2 st2 hst2
      exact ⟨hr2, st2', hst2'⟩
    simp only [List.foldl_cons, hsv]
    by_cases hres : stk'.isResolved = true
    · rw [if_pos hres]
      have hreq : stk'.depth_min = stk'.depth_max := by
        simpa [Status.isResolved] using hres
      have G := ih (impr k m) (max wMax0 stk'.depth_max) wMin0 I1 hklnew
      refine ⟨G.inv, mapLe_trans L1 G.mle, ?_, ?_, G.wminle, G.wmininv,
        le_trans (le_max_left _ _) G.wmaxge, ?_, ?_⟩
      · intro u stu h hr
        have hne : u ≠ k := by
          intro he
          subst he
          omega
        exact G.frame u stu (F1 u stu h hne (by omega)) hr
      · intro u stu stu' h h' h1
        obtain ⟨stm, hstm, _, _⟩ := L1 u stu h
        exact G.pres1 u stm stu' hstm h' (P1 u stu stm h hstm h1)
      · intro k2 hk2 stk2 h2
        rcases List.mem_cons.mp hk2 with he | ht
        · subst he
          obtain ⟨st2, hst2, hmin2, hmax2⟩ := G.mle k2 stk' hstk'
          rw [h2] at hst2
          cases hst2
          have := G.wmaxge
          omega
        · exact G.dom k2 ht stk2 h2
      · rcases G.classes with ⟨k2, hk2, stk2, h2, hb⟩ | ⟨hall, hach⟩
        · exact .inl ⟨k2, List.mem_cons_of_mem k hk2, stk2, h2, hb⟩
        · refine .inr ⟨?_, ?_⟩
          · intro k2 hk2 stk2 h2
            rcases List.mem_cons.mp hk2 with he | ht
            · subst he
              obtain ⟨st2, hst2, hmin2, hmax2⟩ := G.mle k2 stk' hstk'
              rw [h2] at hst2
              cases hst2
              have hle2 := G.inv.le k2 stk2 h2
              omega
            · exact hall k2 ht stk2 h2
          · rcases hach with hmx | ⟨k2, hk2, stk2, h2, hr2, he2⟩
            · rcases max_choice wMax0 stk'.depth_max with hc | hc
              · exact .inl (by omega)
              · refine .inr ⟨k, List.mem_cons_self k kl, ?_⟩
                obtain ⟨st2, hst2, hmin2, hmax2⟩ := G.mle k stk' hstk'
                have hle2 := G.inv.le k st2 hst2
                refine ⟨st2, hst2, by omega, by omega⟩
            · exact .inr ⟨k2, List.mem_cons_of_mem k hk2, stk2, h2, hr2, he2⟩
    · rw [if_neg hres]
      have hrne : stk'.depth_min ≠ stk'.depth_max := by
        simpa [Status.isResolved] using hres
      have hpost' : t' ≤ stk'.depth_min := by
        rcases hpost with he | ht
        · exact absurd he hrne
        · exact ht
      have G := ih (impr k m) (max wMax0 stk'.depth_max)
        (min wMin0 stk'.depth_min) I1 hklnew
      refine ⟨G.inv, mapLe_trans L1 G.mle, ?_, ?_, ?_, ?_,
        le_trans (le_max_left _ _) G.wmaxge, ?_, ?_⟩
      · intro u stu h hr
        have hne : u ≠ k := by
          intro he
          subst he
          omega
        exact G.frame u stu (F1 u stu h hne (by omega)) hr
      · intro u stu stu' h h' h1
        obtain ⟨stm, hstm, _, _⟩ := L1 u stu h
        exact G.pres1 u stm stu' hstm h' (P1 u stu stm h hstm h1)
      · have h1 := G.wminle
        have h2 : min wMin0 stk'.depth_min ≤ wMin0 := min_le_left _ _
        omega
      · rcases G.wmininv with he | ht
        · rcases min_choice wMin0 stk'.depth_min with hc | hc
          · exact .inl (by omega)
          · exact .inr (by omega)
        · exact .inr ht
      · intro k2 hk2 stk2 h2
        rcases List.mem_cons.mp hk2 with he | ht
        · subst he
          obtain ⟨st2, hst2, hmin2, hmax2⟩ := G.mle k2 stk' hstk'
          rw [h2] at hst2
          cases hst2
          have := G.wmaxge
          omega
        · exact G.dom k2 ht stk2 h2
      · refine .inl ⟨k, List.mem_cons_self k kl, ?_⟩
        obtain ⟨st2, hst2, hmin2, hmax2⟩ := G.mle k stk' hstk'
        refine ⟨st2, hst2, ?_⟩
        have h1 := G.wminle
        have h2 : min wMin0 stk'.depth_min ≤ stk'.depth_min := min_le_right _ _
        omega

theorem mapLe_update (m : States σ) (s : σ) (stS stN : Status σ)
    (hsS : m s = some stS) (hmin : stS.depth_min ≤ stN.depth_min)
    (hmax : stN.depth_max ≤ stS.depth_max) :
    MapLe m (States.update m s stN) := by
  intro u stu h
  by_cases he : u = s
  · subst he
    rw [hsS] at h
    cases h
    exact ⟨stN, update_lookup_self m u stN stS hsS, hmin, hmax⟩
  · refine ⟨stu, ?_, le_refl _, le_refl _⟩
    rw [update_lookup_ne m s stN u he]
    exact h

theorem pres1_update (m : States σ) (s : σ) (stN : Status σ) (h1 : 1 ≤ stN.depth_max) :
    ∀ u stu stu', m u = some stu → States.update m s stN u = some stu' →
      1 ≤ stu.depth_max → 1 ≤ stu'.depth_max := by
  intro u stu stu' h h' hx
  rcases update_cases m s stN u stu' h' with ⟨he, hst⟩ | ⟨hne, hm⟩
  · subst hst
    exact h1
  · rw [h] at hm
    cases hm
    exact hx

theorem frame_update (m : States σ) (s : σ) (stN : Status σ) :
    ∀ u stu, m u = some stu → u ≠ s → States.update m s stN u = some stu :=
  fun u stu h hne => by
    rw [update_lookup_ne m s stN u hne]
    exact h

/-- Replacing the node's status by a monotone, locally justified new status
preserves the search invariant. -/
theorem invs_update_general (eng : Engine σ W) (rank : σ → Nat) (m : States σ)
    (hI : InvS eng rank m) (s : σ) (stS : Status σ) (hsS : m s = some stS)
    (stN : Status σ)
    (hch : stN.children = stS.children)
    (hmin : stS.depth_min ≤ stN.depth_min)
    (hmax : stN.depth_max ≤ stS.depth_max)
    (hle : stN.depth_min ≤ stN.depth_max)
    (hmax1 : 1 ≤ stN.depth_max)
    (hunexpN : stN.isExpanded = false →
      stN.depth_min ≤ 1 ∨ (stN.depth_min = stN.depth_max ∧ AllSkip eng s))
    (hposN : stN.depth_min ≠ stN.depth_max → 1 ≤ stN.depth_min)
    (hkbN : stN.depth_min ≠ stN.depth_max →
      ∀ c ∈ stN.children, ∃ k ∈ childKeys c, k ≠ s ∧ ∃ stk, m k = some stk ∧
        (stN.depth_min ≤ 1 + stk.depth_min ∨
         (stk.depth_min = 0 ∧ stN.depth_min ≤ 2)))
    (hkmN : stN.depth_min ≠ stN.depth_max →
      ∀ c ∈ stN.children, ∃ k ∈ childKeys c, k ≠ s ∧ ∃ stk, m k = some stk ∧
        1 ≤ stk.depth_max) :
    InvS eng rank (States.update m s stN) := by
  have hself : States.update m s stN s = some stN := update_lookup_self m s stN stS hsS
  have hpm : ∀ u stu, m u = some stu →
      ∃ stu', States.update m s stN u = some stu' := by
    intro u stu hau
    by_cases he : u = s
    · subst he
      exact ⟨_, hself⟩
    · exact ⟨stu, by rw [update_lookup_ne m s stN u he]; exact hau⟩
  refine ⟨?_, ?_, ?_, ?_, ?_, ?_, ?_⟩
  · intro u stu h
    rcases update_cases m s stN u stu h with ⟨he, hst⟩ | ⟨hne, hm⟩
    · subst hst
      exact hle
    · exact hI.le u stu hm
  · intro u stu h
    rcases update_cases m s stN u stu h with ⟨he, hst⟩ | ⟨hne, hm⟩
    · subst hst
      have := hI.ub s stS hsS
      omega
    · exact hI.ub u stu hm
  · intro u stu h hux
    rcases update_cases m s stN u stu h with ⟨he, hst⟩ | ⟨hne, hm⟩
    · subst hst
      subst he
      exact hunexpN hux
    · exact hI.unexp u stu hm hux
  · intro u stu h hexp hres
    rcases update_cases m s stN u stu h with ⟨he, hst⟩ | ⟨hne, hm⟩
    · subst hst
      exact hposN hres
    · exact hI.pos u stu hm hexp hres
  · intro u stu h c hc k hk
    rcases update_cases m s stN u stu h with ⟨he, hst⟩ | ⟨hne, hm⟩
    · subst hst
      subst he
      rw [hch] at hc
      obtain ⟨hrk, stk, hstk⟩ := hI.closed u stS hsS c hc k hk
      obtain ⟨stk', hstk'⟩ := hpm k stk hstk
      exact ⟨hrk, stk', hstk'⟩
    · obtain ⟨hrk, stk, hstk⟩ := hI.closed u stu hm c hc k hk
      obtain ⟨stk', hstk'⟩ := hpm k stk hstk
      exact ⟨hrk, stk', hstk'⟩
  · intro u stu h hres c hc
    rcases update_cases m s stN u stu h with ⟨he, hst⟩ | ⟨hne, hm⟩
    · subst hst
      subst he
      obtain ⟨k, hk, hks, stk, hstk, hcl⟩ := hkbN hres c hc
      refine ⟨k, hk, stk, ?_, hcl⟩
      rw [update_lookup_ne m u stu k hks]
      exact hstk
    · obtain ⟨k, hk, stk, hstk, hcl⟩ := hI.kbound u stu hm hres c hc
      by_cases hks : k = s
      · subst hks
        rw [hsS] at hstk
        cases hstk
        refine ⟨k, hk, stN, hself, .inl ?_⟩
        rcases hcl with hcl | ⟨h0, h2⟩
        · show stu.depth_min ≤ 1 + stN.depth_min
          omega
        · show stu.depth_min ≤ 1 + stN.depth_min
          by_cases hz : stN.depth_min = 0
          · omega
          · omega
      · refine ⟨k, hk, stk, ?_, hcl⟩
        rw [update_lookup_ne m s stN k hks]
        exact hstk
  · intro u stu h hres c hc
    rcases update_cases m s stN u stu h with ⟨he, hst⟩ | ⟨hne, hm⟩
    · subst hst
      subst he
      obtain ⟨k, hk, hks, stk, hstk, hcl⟩ := hkmN hres c hc
      refine ⟨k, hk, stk, ?_, hcl⟩
      rw [update_lookup_ne m u stu k hks]
      exact hstk
    · obtain ⟨k, hk, stk, hstk, hcl⟩ := hI.kmax1 u stu hm hres c hc
      by_cases hks : k = s
      · subst hks
        rw [hsS] at hstk
        cases hstk
        exact ⟨k, hk, stN, hself, hmax1⟩
      · refine ⟨k, hk, stk, ?_, hcl⟩
        rw [update_lookup_ne m s stN k hks]
        exact hstk

/-- The do/while child loop of improve_node: invariants, monotonicity, the
worst accumulator, and per-group kbound witnesses; the early return leaves the
node resolved without lowering depth_min. -/
theorem improveChildren_facts (eng : Engine σ W) (rank : σ → Nat) (s : σ)
    (t' : Nat) (impr : σ → States σ → States σ)
    (hImpr : ∀ k m', InvS eng rank m' → (∃ stk, m' k = some stk) →
      InvS eng rank (impr k m') ∧ MapLe m' (impr k m') ∧
      (∀ u stu, m' u = some stu → u ≠ k → rank k ≤ rank u →
        impr k m' u = some stu) ∧
      (∀ u stu stu', m' u = some stu → impr k m' u = some stu' →
        1 ≤ stu.depth_max → 1 ≤ stu'.depth_max) ∧
      (∃ st', impr k m' k = some st' ∧
        (st'.depth_min = st'.depth_max ∨ t' ≤ st'.depth_min))) :
    ∀ (cs : List (EChild σ)) (m : States σ) (wMin : Nat) (stS : Status σ),
    InvS eng rank m → m s = some stS → stS.depth_min ≠ stS.depth_max →
    (∀ c ∈ cs, c ∈ stS.children) →
    wMin ≤ DEPTH_INF → (wMin = DEPTH_INF ∨ t' ≤ wMin) →
    (∀ r, improveChildren impr s cs m wMin = .ok r →
      InvS eng rank r.1 ∧ MapLe m r.1 ∧
      (∀ u stu, m u = some stu → u ≠ s → rank s ≤ rank u → r.1 u = some stu) ∧
      (∀ u stu stu', m u = some stu → r.1 u = some stu' →
        1 ≤ stu.depth_max → 1 ≤ stu'.depth_max) ∧
      r.2 ≤ wMin ∧ (r.2 = DEPTH_INF ∨ t' ≤ r.2) ∧
      (∃ stS', r.1 s = some stS' ∧ stS'.children = stS.children ∧
        stS'.depth_min = stS.depth_min ∧ stS'.depth_max ≤ stS.depth_max ∧
        stS'.depth_min ≠ stS'.depth_max ∧
        (∀ c ∈ cs,
          (∃ k ∈ childKeys c, ∃ stk, r.1 k = some stk ∧ r.2 ≤ stk.depth_min) ∨
          (∃ k ∈ childKeys c, ∃ stk, r.1 k = some stk ∧
            stk.depth_min = stk.depth_max ∧
            stS'.depth_max ≤ 1 + stk.depth_max)))) ∧
    (∀ m2, improveChildren impr s cs m wMin = .error m2 →
      InvS eng rank m2 ∧ MapLe m m2 ∧
      (∀ u stu, m u = some stu → u ≠ s → rank s ≤ rank u → m2 u = some stu) ∧
      (∀ u stu stu', m u = some stu → m2 u = some stu' →
        1 ≤ stu.depth_max → 1 ≤ stu'.depth_max) ∧
      (∃ stS', m2 s = some stS' ∧ stS'.depth_min = stS.depth_min ∧
        stS'.depth_min = stS'.depth_max ∧ stS'.depth_max ≤ stS.depth_max)) := by
  intro cs
  induction cs with
  | nil =>
    intro m wMin stS hI hsS hres hsub hwub hwinv
    refine ⟨?_, ?_⟩
    · intro r h
      cases h
      refine ⟨hI, mapLe_refl m, fun u stu h _ _ => h, ?_, le_refl _, hwinv,
        stS, hsS, rfl, rfl, le_refl _, hres, ?_⟩
      · intro u stu stu' h h' h1
        have h2 : m u = some stu' := h'
        rw [h] at h2
        cases h2
        exact h1
      · intro c hc
        exact absurd hc (List.not_mem_nil c)
    · intro m2 h
      cases h
  | cons c cs ih =>
    intro m wMin stS hI hsS hres hsub hwub hwinv
    have hcmem : c ∈ stS.children := hsub c (List.mem_cons_self c cs)
    have hchne : stS.children ≠ [] := List.ne_nil_of_mem hcmem
    have hkeys : ∀ k ∈ childKeys c, rank k < rank s ∧ ∃ stk, m k = some stk := by
      intro k hk
      obtain ⟨hrk, stk, hstk⟩ := hI.closed s stS hsS c hcmem k hk
      exact ⟨hrk, stk, hstk⟩
    have hgr : improveGroup impr c m wMin =
        List.foldl (fun (r : States σ × Nat × Nat) k =>
          (impr k r.1, max r.2.1 (statusOf (impr k r.1) k).depth_max,
           if (statusOf (impr k r.1) k).isResolved then r.2.2
           else min r.2.2 (statusOf (impr k r.1) k).depth_min))
        (m, 0, wMin) (childKeys c) := rfl
    have G : GFacts eng rank s t' m (childKeys c) 0 wMin
        (improveGroup impr c m wMin) := by
      rw [hgr]
      exact improveGroup_fold_facts eng rank s t' impr hImpr (childKeys c) m 0 wMin
        hI hkeys
    have hs1 : (improveGroup impr c m wMin).1 s = some stS :=
      G.frame s stS hsS (le_refl _)
    have hstat : statusOf (improveGroup impr c m wMin).1 s = stS := by
      unfold statusOf
      rw [show States.lookup (improveGroup impr c m wMin).1 s = some stS from hs1]
      rfl
    -- the worst group max dominates a key with depth_max >= 1
    have hwmax1 : 1 ≤ (improveGroup impr c m wMin).2.1 := by
      obtain ⟨k1, hk1, stk1, hstk1, h1max⟩ := G.inv.kmax1 s stS hs1 hres c hcmem
      have := G.dom k1 hk1 stk1 hstk1
      omega
    have hle2 : stS.depth_min ≤ (improveGroup impr c m wMin).2.1 + 1 := by
      obtain ⟨k, hk, stk, hstk, hcl⟩ := G.inv.kbound s stS hs1 hres c hcmem
      have hdomk := G.dom k hk stk hstk
      have hlek := G.inv.le k stk hstk
      rcases hcl with h1 | ⟨h0, h2⟩
      · omega
      · omega
    have hw1le : (improveGroup impr c m wMin).2.2 ≤ wMin := G.wminle
    have hw1ub : (improveGroup impr c m wMin).2.2 ≤ DEPTH_INF := le_trans hw1le hwub
    have hw1inv : (improveGroup impr c m wMin).2.2 = DEPTH_INF ∨
        t' ≤ (improveGroup impr c m wMin).2.2 := by
      rcases G.wmininv with he | ht
      · rcases hwinv with h1 | h1
        · exact .inl (by omega)
        · exact .inr (by omega)
      · exact .inr ht
    have hunf : improveChildren impr s (c :: cs) m wMin =
        (if (improveGroup impr c m wMin).2.1 ≠ DEPTH_INF ∧
            (improveGroup impr c m wMin).2.1 + 1 <
              (statusOf (improveGroup impr c m wMin).1 s).depth_max then
          if ({ statusOf (improveGroup impr c m wMin).1 s with
                depth_max := (improveGroup impr c m wMin).2.1 + 1 } :
                Status σ).isResolved then
            Except.error (States.update (improveGroup impr c m wMin).1 s
              { statusOf (improveGroup impr c m wMin).1 s with
                depth_max := (improveGroup impr c m wMin).2.1 + 1 })
          else
            improveChildren impr s cs
              (States.update (improveGroup impr c m wMin).1 s
                { statusOf (improveGroup impr c m wMin).1 s with
                  depth_max := (improveGroup impr c m wMin).2.1 + 1 })
              (improveGroup impr c m wMin).2.2
        else improveChildren impr s cs (improveGroup impr c m wMin).1
          (improveGroup impr c m wMin).2.2) := rfl
    rw [hunf, hstat]
    by_cases hcond : (improveGroup impr c m wMin).2.1 ≠ DEPTH_INF ∧
        (improveGroup impr c m wMin).2.1 + 1 < stS.depth_max
    · rw [if_pos hcond]
      have hpmin : ({ stS with depth_max := (improveGroup impr c m wMin).2.1 + 1 } :
          Status σ).depth_min = stS.depth_min := rfl
      have hpmax : ({ stS with depth_max := (improveGroup impr c m wMin).2.1 + 1 } :
          Status σ).depth_max = (improveGroup impr c m wMin).2.1 + 1 := rfl
      by_cases hres2 : ({ stS with
          depth_max := (improveGroup impr c m wMin).2.1 + 1 } :
          Status σ).isResolved = true
      · rw [if_pos hres2]
        have hreq2 : stS.depth_min = (improveGroup impr c m wMin).2.1 + 1 := by
          simpa [Status.isResolved] using hres2
        have hIu : InvS eng rank (States.update (improveGroup impr c m wMin).1 s
            { stS with depth_max := (improveGroup impr c m wMin).2.1 + 1 }) := by
          refine invs_update_general eng rank _ G.inv s stS hs1 _ rfl (le_refl _)
            (by simp only [hpmax]; omega) (by simp only [hpmin, hpmax]; omega)
            (by simp only [hpmax]; omega) ?_ ?_ ?_ ?_
          · intro hux
            have := isExpanded_of_children_ne
              ({ stS with depth_max := (improveGroup impr c m wMin).2.1 + 1 } :
                Status σ) hchne
            rw [this] at hux
            cases hux
          · intro hne
            simp only [hpmin, hpmax] at hne
            simp only [hpmin]
            omega
          · intro hne
            simp only [hpmin, hpmax] at hne
            exact absurd hreq2 hne
          · intro hne
            simp only [hpmin, hpmax] at hne
            exact absurd hreq2 hne
        refine ⟨?_, ?_⟩
        · intro r h
          cases h
        · intro m2 h
          cases h
          refine ⟨hIu, ?_, ?_, ?_, ?_⟩
          · exact mapLe_trans G.mle (mapLe_update _ s stS _ hs1 (le_refl _) (by simp only [hpmax]; omega))
          · intro u stu h hne hr
            exact frame_update _ s _ u stu (G.frame u stu h hr) hne
          · intro u stu stu' h h' h1
            obtain ⟨stm, hstm, _, _⟩ := G.mle u stu h
            exact pres1_update _ s _ (by simp only [hpmax]; omega) u stm stu' hstm h' (G.pres1 u stu stm h hstm h1)
          · refine ⟨_, update_lookup_self _ s _ stS hs1, rfl, ?_, ?_⟩
            · show stS.depth_min = (improveGroup impr c m wMin).2.1 + 1
              omega
            · show (improveGroup impr c m wMin).2.1 + 1 ≤ stS.depth_max
              omega
      · rw [if_neg hres2]
        have hrne2 : stS.depth_min ≠ (improveGroup impr c m wMin).2.1 + 1 := by
          intro he
          apply hres2
          show ((stS.depth_min == (improveGroup impr c m wMin).2.1 + 1)) = true
          rw [he]
          simp
        have hIu : InvS eng rank (States.update (improveGroup impr c m wMin).1 s
            { stS with depth_max := (improveGroup impr c m wMin).2.1 + 1 }) := by
          refine invs_update_general eng rank _ G.inv s stS hs1 _ rfl (le_refl _)
            (by simp only [hpmax]; omega) (by simp only [hpmin, hpmax]; omega)
            (by simp only [hpmax]; omega) ?_ ?_ ?_ ?_
          · intro hux
            have := isExpanded_of_children_ne
              ({ stS with depth_max := (improveGroup impr c m wMin).2.1 + 1 } :
                Status σ) hchne
            rw [this] at hux
            cases hux
          · intro hne
            exact G.inv.pos s stS hs1 (isExpanded_of_children_ne stS hchne) hres
          · intro hne c2 hc2
            obtain ⟨k, hk, stk, hstk, hcl⟩ := G.inv.kbound s stS hs1 hres c2 hc2
            have hks : k ≠ s := by
              intro he
              subst he
              exact lt_irrefl _ (G.inv.closed k stS hs1 c2 hc2 k hk).1
            exact ⟨k, hk, hks, stk, hstk, hcl⟩
          · intro hne c2 hc2
            obtain ⟨k, hk, stk, hstk, hcl⟩ := G.inv.kmax1 s stS hs1 hres c2 hc2
            have hks : k ≠ s := by
              intro he
              subst he
              exact lt_irrefl _ (G.inv.closed k stS hs1 c2 hc2 k hk).1
            exact ⟨k, hk, hks, stk, hstk, hcl⟩
        have hs2 : States.update (improveGroup impr c m wMin).1 s
            { stS with depth_max := (improveGroup impr c m wMin).2.1 + 1 } s =
            some { stS with depth_max := (improveGroup impr c m wMin).2.1 + 1 } :=
          update_lookup_self _ s _ stS hs1
        have R := ih (States.update (improveGroup impr c m wMin).1 s
            { stS with depth_max := (improveGroup impr c m wMin).2.1 + 1 })
          (improveGroup impr c m wMin).2.2
          { stS with depth_max := (improveGroup impr c m wMin).2.1 + 1 }
          hIu hs2 (by simp only [hpmin, hpmax]; omega)
          (fun c2 hc2 => hsub c2 (List.mem_cons_of_mem c hc2)) hw1ub hw1inv
        refine ⟨?_, ?_⟩
        · intro r h
          obtain ⟨RI, RL, RF, RP, Rle, Rinv, stS', hsS', hch', hmin', hmax', hres', RGD⟩ :=
            R.1 r h
          refine ⟨RI, ?_, ?_, ?_, ?_, Rinv, stS', hsS', ?_, ?_, ?_, hres', ?_⟩
          · exact mapLe_trans G.mle (mapLe_trans
              (mapLe_update _ s stS
                { stS with depth_max := (improveGroup impr c m wMin).2.1 + 1 }
                hs1 (le_refl _) (by simp only [hpmax]; omega)) RL)
          · intro u stu h1 hne hr
            exact RF u stu (frame_update _ s _ u stu (G.frame u stu h1 hr) hne) hne hr
          · intro u stu stu' h1 h' hx
            obtain ⟨stm, hstm, _, _⟩ := G.mle u stu h1
            obtain ⟨stm2, hstm2, _, _⟩ := mapLe_update _ s stS
              { stS with depth_max := (improveGroup impr c m wMin).2.1 + 1 }
              hs1 (le_refl _) (by simp only [hpmax]; omega) u stm hstm
            exact RP u stm2 stu' hstm2 h'
              (pres1_update _ s _ (by simp only [hpmax]; omega) u stm stm2 hstm hstm2
                (G.pres1 u stu stm h1 hstm hx))
          · omega
          · exact hch'
          · exact hmin'
          · show stS'.depth_max ≤ stS.depth_max
            have h2 : stS'.depth_max ≤ ({ stS with
              depth_max := (improveGroup impr c m wMin).2.1 + 1 } :
              Status σ).depth_max := hmax'
            simp only [hpmax] at h2
            omega
          · intro c2 hc2
            rcases List.mem_cons.mp hc2 with he | ht
            · rw [he]
              rcases G.classes with ⟨k, hk, stk, hstk, hb⟩ | ⟨hall, hach⟩
              · have hks : k ≠ s := by
                  intro he2
                  subst he2
                  exact absurd (hkeys k hk).1 (lt_irrefl _)
                have hstk2 : States.update (improveGroup impr c m wMin).1 s
                    { stS with depth_max := (improveGroup impr c m wMin).2.1 + 1 } k =
                    some stk := frame_update _ s _ k stk hstk hks
                obtain ⟨stk3, hstk3, hmin3, _⟩ := RL k stk hstk2
                exact .inl ⟨k, hk, stk3, hstk3, by omega⟩
              · rcases hach with h0 | ⟨k, hk, stk, hstk, hrs, hmx⟩
                · omega
                · have hks : k ≠ s := by
                    intro he2
                    subst he2
                    exact absurd (hkeys k hk).1 (lt_irrefl _)
                  have hstk2 : States.update (improveGroup impr c m wMin).1 s
                      { stS with depth_max := (improveGroup impr c m wMin).2.1 + 1 } k =
                      some stk := frame_update _ s _ k stk hstk hks
                  obtain ⟨stk3, hstk3, hmin3, hmax3⟩ := RL k stk hstk2
                  have hle3 := RI.le k stk3 hstk3
                  refine .inr ⟨k, hk, stk3, hstk3, by omega, ?_⟩
                  have : stS'.depth_max ≤ (improveGroup impr c m wMin).2.1 + 1 := hmax'
                  omega
            · exact RGD c2 ht
        · intro m2 h
          obtain ⟨RI, RL, RF, RP, stS', hsS', hmin', hres', hmax'⟩ := R.2 m2 h
          refine ⟨RI, ?_, ?_, ?_, stS', hsS', ?_, hres', ?_⟩

          · exact mapLe_trans G.mle (mapLe_trans
              (mapLe_update _ s stS
                { stS with depth_max := (improveGroup impr c m wMin).2.1 + 1 }
                hs1 (le_refl _) (by simp only [hpmax]; omega)) RL)
          · intro u stu h1 hne hr
            exact RF u stu (frame_update _ s _ u stu (G.frame u stu h1 hr) hne) hne hr
          · intro u stu stu' h1 h' hx
            obtain ⟨stm, hstm, _, _⟩ := G.mle u stu h1
            obtain ⟨stm2, hstm2, _, _⟩ := mapLe_update _ s stS
              { stS with depth_max := (improveGroup impr c m wMin).2.1 + 1 }
              hs1 (le_refl _) (by simp only [hpmax]; omega) u stm hstm
            exact RP u stm2 stu' hstm2 h'
              (pres1_update _ s _ (by simp only [hpmax]; omega) u stm stm2 hstm hstm2
                (G.pres1 u stu stm h1 hstm hx))
          · exact hmin'
          · show stS'.depth_max ≤ stS.depth_max
            have h2 : stS'.depth_max ≤ ({ stS with
              depth_max := (improveGroup impr c m wMin).2.1 + 1 } :
              Status σ).depth_max := hmax'
            simp only [hpmax] at h2
            omega
    · rw [if_neg hcond]
      have R := ih (improveGroup impr c m wMin).1 (improveGroup impr c m wMin).2.2
        stS G.inv hs1 hres (fun c2 hc2 => hsub c2 (List.mem_cons_of_mem c hc2))
        hw1ub hw1inv
      have hcond' : (improveGroup impr c m wMin).2.1 = DEPTH_INF ∨
          stS.depth_max ≤ (improveGroup impr c m wMin).2.1 + 1 := by
        rcases Classical.em ((improveGroup impr c m wMin).2.1 = DEPTH_INF) with h | h
        · exact .inl h
        · refine .inr ?_
          by_cases h2 : (improveGroup impr c m wMin).2.1 + 1 < stS.depth_max
          · exact absurd ⟨h, h2⟩ hcond
          · omega
      refine ⟨?_, ?_⟩
      · intro r h
        obtain ⟨RI, RL, RF, RP, Rle, Rinv, stS', hsS', hch', hmin', hmax', hres', RGD⟩ :=
          R.1 r h
        refine ⟨RI, mapLe_trans G.mle RL, ?_, ?_, by omega, Rinv,
          stS', hsS', hch', hmin', hmax', hres', ?_⟩
        · intro u stu h1 hne hr
          exact RF u stu (G.frame u stu h1 hr) hne hr
        · intro u stu stu' h1 h' hx
          obtain ⟨stm, hstm, _, _⟩ := G.mle u stu h1
          exact RP u stm stu' hstm h' (G.pres1 u stu stm h1 hstm hx)
        · intro c2 hc2
          rcases List.mem_cons.mp hc2 with he | ht
          · subst he
            rcases G.classes with ⟨k, hk, stk, hstk, hb⟩ | ⟨hall, hach⟩
            · obtain ⟨stk3, hstk3, hmin3, _⟩ := RL k stk hstk
              exact .inl ⟨k, hk, stk3, hstk3, by omega⟩
            · rcases hach with h0 | ⟨k, hk, stk, hstk, hrs, hmx⟩
              · omega
              · obtain ⟨stk3, hstk3, hmin3, hmax3⟩ := RL k stk hstk
                have hle3 := RI.le k stk3 hstk3
                refine .inr ⟨k, hk, stk3, hstk3, by omega, ?_⟩
                rcases hcond' with hc' | hc'
                · have hub' := RI.ub s stS' hsS'
                  omega
                · omega
          · exact RGD c2 ht
      · intro m2 h
        obtain ⟨RI, RL, RF, RP, stS', hsS', hmin', hres', hmax'⟩ := R.2 m2 h
        refine ⟨RI, mapLe_trans G.mle RL, ?_, ?_, stS', hsS', hmin', hres', hmax'⟩
        · intro u stu h1 hne hr
          exact RF u stu (G.frame u stu h1 hr) hne hr
        · intro u stu stu' h1 h' hx
          obtain ⟨stm, hstm, _, _⟩ := G.mle u stu h1
          exact RP u stm stu' hstm h' (G.pres1 u stu stm h1 hstm hx)

/-- Manager2::improve_node preserves the search invariant, moves every entry
monotonically, touches no entry of rank at least the target node (other than
the node itself), never zeroes a positive depth_max, and afterwards the node
is resolved or has depth_min at least the target. -/
theorem improve_invs (eng : Engine σ W) (rank : σ → Nat)
    (hR : RankedEngine eng rank) :
    ∀ (t : Nat) (s : σ) (m : States σ), InvS eng rank m → (∃ st0, m s = some st0) →
    InvS eng rank (improve eng t s m) ∧
    MapLe m (improve eng t s m) ∧
    (∀ u stu, m u = some stu → u ≠ s → rank s ≤ rank u →
      improve eng t s m u = some stu) ∧
    (∀ u stu stu', m u = some stu → improve eng t s m u = some stu' →
      1 ≤ stu.depth_max → 1 ≤ stu'.depth_max) ∧
    (∃ st', improve eng t s m s = some st' ∧
      (st'.depth_min = st'.depth_max ∨ t ≤ st'.depth_min)) := by
  intro t
  induction t with
  | zero =>
    intro s m hI hpres
    obtain ⟨st0, hs0⟩ := hpres
    obtain ⟨EI, EL, EF, EP, EE⟩ := expand_invs eng rank hR s m hI
    obtain ⟨st1, hs1, _, _⟩ := EL s st0 hs0
    have hv0 : improve eng 0 s m =
        (if ((statusOf (expand eng s m) s).isResolved ||
            decide ((statusOf (expand eng s m) s).depth_min ≥ 0)) = true then
          expand eng s m
        else expand eng s m) := improve.eq_def eng 0 s m
    have hv : improve eng 0 s m = expand eng s m := hv0.trans (ite_self _)
    rw [hv]
    exact ⟨EI, EL, fun u stu h hne _ => EF u stu h hne, EP,
      ⟨st1, hs1, .inr (Nat.zero_le _)⟩⟩
  | succ t' ih =>
    intro s m hI hpres
    obtain ⟨st0, hs0⟩ := hpres
    obtain ⟨EI, EL, EF, EP, EE⟩ := expand_invs eng rank hR s m hI
    obtain ⟨st1, hs1, hm01, hm02⟩ := EL s st0 hs0
    have hstat1 : statusOf (expand eng s m) s = st1 := by
      unfold statusOf
      rw [show States.lookup (expand eng s m) s = some st1 from hs1]
      rfl
    have hv : improve eng (t' + 1) s m =
        (if ((statusOf (expand eng s m) s).isResolved ||
            decide ((statusOf (expand eng s m) s).depth_min ≥ t' + 1)) = true then
          expand eng s m
        else
          match improveChildren (improve eng t') s
              (statusOf (expand eng s m) s).children (expand eng s m) DEPTH_INF with
          | Except.error m1 => m1
          | Except.ok (m1, worstMin) =>
            if (worstMin == DEPTH_INF) = true then
              States.update m1 s
                (⟨(statusOf m1 s).children, (statusOf m1 s).depth_max,
                  (statusOf m1 s).depth_max⟩ : Status σ)
            else
              States.update m1 s
                (⟨(statusOf m1 s).children, (statusOf m1 s).depth_max,
                  min (worstMin + 1) (statusOf m1 s).depth_max⟩ : Status σ)) :=
      improve.eq_def eng (t' + 1) s m
    rw [hstat1] at hv
    by_cases hc : (st1.isResolved || decide (st1.depth_min ≥ t' + 1)) = true
    · rw [if_pos hc] at hv
      rw [hv]
      refine ⟨EI, EL, fun u stu h hne _ => EF u stu h hne, EP, st1, hs1, ?_⟩
      rcases Bool.or_eq_true_iff.mp hc with h1 | h1
      · exact .inl (by simpa [Status.isResolved] using h1)
      · exact .inr (by simpa using h1)
    · rw [if_neg hc] at hv
      have hcb : (st1.isResolved || decide (st1.depth_min ≥ t' + 1)) = false :=
        Bool.eq_false_iff.mpr hc
      rw [Bool.or_eq_false_iff] at hcb
      have hne : st1.depth_min ≠ st1.depth_max := by
        simpa [Status.isResolved] using hcb.1
      have hlt : st1.depth_min < t' + 1 := by
        have := hcb.2
        simpa using this
      have hex : st1.isExpanded = true := by
        rcases EE st1 hs1 with h | ⟨h, _⟩
        · exact h
        · exact absurd h hne
      have IC := improveChildren_facts eng rank s t' (improve eng t')
        (fun k m' hIk hpk => ih k m' hIk hpk) st1.children (expand eng s m)
        DEPTH_INF st1 EI hs1 hne (fun c hc2 => hc2) (le_refl _) (.inl rfl)
      cases hic : improveChildren (improve eng t') s st1.children
          (expand eng s m) DEPTH_INF with
      | error m1 =>
        rw [hic] at hv
        replace hv : improve eng (t' + 1) s m = m1 := hv
        obtain ⟨RI, RL, RF, RP, stS', hsS', hmin', hres', hmax'⟩ := IC.2 m1 hic
        rw [hv]
        refine ⟨RI, mapLe_trans EL RL, ?_, ?_, stS', hsS', .inl hres'⟩
        · intro u stu h hneu hr
          exact RF u stu (EF u stu h hneu) hneu hr
        · intro u stu stu' h h' hx
          obtain ⟨stm, hstm, _, _⟩ := EL u stu h
          exact RP u stm stu' hstm h' (EP u stu stm h hstm hx)
      | ok r =>
        obtain ⟨m1, worstMin⟩ := r
        rw [hic] at hv
        replace hv : improve eng (t' + 1) s m =
            (if (worstMin == DEPTH_INF) = true then
              States.update m1 s
                (⟨(statusOf m1 s).children, (statusOf m1 s).depth_max,
                  (statusOf m1 s).depth_max⟩ : Status σ)
            else
              States.update m1 s
                (⟨(statusOf m1 s).children, (statusOf m1 s).depth_max,
                  min (worstMin + 1) (statusOf m1 s).depth_max⟩ : Status σ)) := hv
        obtain ⟨RI, RL, RF, RP, Rle, Rinv, stS', hsS', hch', hmin', hmax', hres', RGD⟩ :=
          IC.1 (m1, worstMin) hic
        have hstatF : statusOf m1 s = stS' := by
          unfold statusOf
          rw [show States.lookup m1 s = some stS' from hsS']
          rfl
        rw [hstatF] at hv
        have hle' := RI.le s stS' hsS'
        have hmax1' : 1 ≤ stS'.depth_max := by omega
        by_cases hwm : (worstMin == DEPTH_INF) = true
        · rw [if_pos hwm] at hv
          have hIu : InvS eng rank (States.update m1 s
              (⟨stS'.children, stS'.depth_max, stS'.depth_max⟩ : Status σ)) := by
            refine invs_update_general eng rank m1 RI s stS' hsS' _ rfl hle'
              (le_refl _) (le_refl _) hmax1' ?_ ?_ ?_ ?_
            · intro hux
              obtain ⟨hm255, hcnil⟩ := unexpanded_facts _ hux
              have hc1 : stS'.children = [] := hcnil
              have hc2 : stS'.depth_max = DEPTH_INF := hm255
              have hcn1 : st1.children = [] := by rw [← hch']; exact hc1
              unfold Status.isExpanded at hex
              rw [hcn1] at hex
              simp at hex
              have := EI.ub s st1 hs1
              omega
            · intro hne2
              exact absurd rfl hne2
            · intro hne2
              exact absurd rfl hne2
            · intro hne2
              exact absurd rfl hne2
          rw [hv]
          have hself : States.update m1 s
              (⟨stS'.children, stS'.depth_max, stS'.depth_max⟩ : Status σ) s =
              some (⟨stS'.children, stS'.depth_max, stS'.depth_max⟩ : Status σ) :=
            update_lookup_self m1 s _ stS' hsS'
          refine ⟨hIu, ?_, ?_, ?_, ?_⟩
          · refine mapLe_trans EL (mapLe_trans RL
              (mapLe_update m1 s stS' _ hsS' hle' (le_refl _)))
          · intro u stu h hneu hr
            exact frame_update m1 s _ u stu (RF u stu (EF u stu h hneu) hneu hr) hneu
          · intro u stu stu' h h' hx
            obtain ⟨stm, hstm, _, _⟩ := EL u stu h
            obtain ⟨stm2, hstm2, _, _⟩ := RL u stm hstm
            exact pres1_update m1 s
              (⟨stS'.children, stS'.depth_max, stS'.depth_max⟩ : Status σ)
              hmax1' u stm2 stu' hstm2 h'
              (RP u stm stm2 hstm hstm2 (EP u stu stm h hstm hx))
          · exact ⟨_, hself, .inl rfl⟩
        · rw [if_neg hwm] at hv
          have hwne : worstMin ≠ DEPTH_INF := by simpa using hwm
          have hwge : t' ≤ worstMin := by
            rcases Rinv with h | h
            · exact absurd h hwne
            · exact h
          have hchn : st1.children ≠ [] := by
            intro hnil
            rw [hnil] at hic
            cases hic
            exact hwne rfl
          have hchn' : stS'.children ≠ [] := by
            rw [hch']
            exact hchn
          have hminle : stS'.depth_min ≤ min (worstMin + 1) stS'.depth_max := by
            have h1 : stS'.depth_min = st1.depth_min := hmin'
            omega
          have hIu : InvS eng rank (States.update m1 s
              (⟨stS'.children, stS'.depth_max,
                min (worstMin + 1) stS'.depth_max⟩ : Status σ)) := by
            refine invs_update_general eng rank m1 RI s stS' hsS' _ rfl hminle
              (le_refl _)
              (by show min (worstMin + 1) stS'.depth_max ≤ stS'.depth_max; omega)
              hmax1' ?_ ?_ ?_ ?_
            · intro hux
              have hexp2 := isExpanded_of_children_ne
                (⟨stS'.children, stS'.depth_max,
                  min (worstMin + 1) stS'.depth_max⟩ : Status σ) hchn'
              rw [hexp2] at hux
              cases hux
            · intro hne2
              show 1 ≤ min (worstMin + 1) stS'.depth_max
              omega
            · intro hne2 c hcm
              have hcm' : c ∈ stS'.children := hcm
              rw [hch'] at hcm'
              have hks : ∀ k ∈ childKeys c, k ≠ s := by
                intro k hk he
                subst he
                exact lt_irrefl _ (RI.closed k stS' hsS' c hcm k hk).1
              rcases RGD c hcm' with ⟨k, hk, stk, hstk, hb⟩ |
                ⟨k, hk, stk, hstk, hrsk, hbd⟩
              · refine ⟨k, hk, hks k hk, stk, hstk, .inl ?_⟩
                show min (worstMin + 1) stS'.depth_max ≤ 1 + stk.depth_min
                omega
              · refine ⟨k, hk, hks k hk, stk, hstk, .inl ?_⟩
                show min (worstMin + 1) stS'.depth_max ≤ 1 + stk.depth_min
                omega
            · intro hne2 c hcm
              obtain ⟨k, hk, stk, hstk, h1k⟩ := RI.kmax1 s stS' hsS' hres' c hcm
              have hks : k ≠ s := by
                intro he
                subst he
                exact lt_irrefl _ (RI.closed k stS' hsS' c hcm k hk).1
              exact ⟨k, hk, hks, stk, hstk, h1k⟩
          rw [hv]
          have hself : States.update m1 s
              (⟨stS'.children, stS'.depth_max,
                min (worstMin + 1) stS'.depth_max⟩ : Status σ) s =
              some (⟨stS'.children, stS'.depth_max,
                min (worstMin + 1) stS'.depth_max⟩ : Status σ) :=
            update_lookup_self m1 s _ stS' hsS'
          refine ⟨hIu, ?_, ?_, ?_, ?_⟩
          · refine mapLe_trans EL (mapLe_trans RL
              (mapLe_update m1 s stS' _ hsS' hminle (le_refl _)))
          · intro u stu h hneu hr
            exact frame_update m1 s _ u stu (RF u stu (EF u stu h hneu) hneu hr) hneu
          · intro u stu stu' h h' hx
            obtain ⟨stm, hstm, _, _⟩ := EL u stu h
            obtain ⟨stm2, hstm2, _, _⟩ := RL u stm hstm
            exact pres1_update m1 s
              (⟨stS'.children, stS'.depth_max,
                min (worstMin + 1) stS'.depth_max⟩ : Status σ)
              hmax1' u stm2 stu' hstm2 h'
              (RP u stm stm2 hstm hstm2 (EP u stu stm h hstm hx))
          · refine ⟨_, hself, ?_⟩
            rcases min_choice (worstMin + 1) stS'.depth_max with hmc | hmc
            · refine .inr ?_
              show t' + 1 ≤ min (worstMin + 1) stS'.depth_max
              omega
            · refine .inl ?_
              show min (worstMin + 1) stS'.depth_max = stS'.depth_max
              omega

/-- The cleared map satisfies the search invariant. -/
theorem clearMap_invs (eng : Engine σ W) (rank : σ → Nat) :
    InvS eng rank (clearMap eng) := by
  have hlook : ∀ u stu, clearMap eng u = some stu →
      stu = ({} : Status σ) := by
    intro u stu h
    unfold clearMap at h
    by_cases he : u = eng.root
    · rw [if_pos he] at h
      cases h
      rfl
    · rw [if_neg he] at h
      cases h
  refine ⟨?_, ?_, ?_, ?_, ?_, ?_, ?_⟩
  · intro u stu h
    rw [hlook u stu h]
    show (0 : Nat) ≤ DEPTH_INF
    unfold DEPTH_INF
    omega
  · intro u stu h
    rw [hlook u stu h]
  · intro u stu h _
    rw [hlook u stu h]
    exact .inl (by show (0 : Nat) ≤ 1; omega)
  · intro u stu h hexp hres
    rw [hlook u stu h] at hexp
    simp [Status.isExpanded] at hexp
  · intro u stu h c hc
    rw [hlook u stu h] at hc
    exact absurd hc (List.not_mem_nil c)
  · intro u stu h hres c hc
    rw [hlook u stu h] at hc
    exact absurd hc (List.not_mem_nil c)
  · intro u stu h hres c hc
    rw [hlook u stu h] at hc
    exact absurd hc (List.not_mem_nil c)

/-- The tail of solveTrace always starts with its seed map. -/
theorem solveTraceAux_head (eng : Engine σ W) (stop : Nat) :
    ∀ (fuel : Nat) (m : States σ), ∃ l, solveTraceAux eng stop fuel m = m :: l := by
  intro fuel m
  cases fuel with
  | zero => exact ⟨[], rfl⟩
  | succ fuel =>
    have hunf : solveTraceAux eng stop (fuel + 1) m =
        (if ((statusOf m eng.root).isResolved ||
            decide (¬ (statusOf m eng.root).depth_min < stop)) = true then [m]
        else m :: solveTraceAux eng stop fuel
          (improve eng ((statusOf m eng.root).depth_min + 1) eng.root m)) := rfl
    rw [hunf]
    by_cases hcnd : ((statusOf m eng.root).isResolved ||
        decide (¬ (statusOf m eng.root).depth_min < stop)) = true
    · rw [if_pos hcnd]
      exact ⟨[], rfl⟩
    · rw [if_neg hcnd]
      exact ⟨_, rfl⟩

/-- Along the driver loop, consecutive maps are monotone and every map keeps
the search invariant. -/
theorem solveTraceAux_chain (eng : Engine σ W) (rank : σ → Nat)
    (hR : RankedEngine eng rank) (stop : Nat) :
    ∀ (fuel : Nat) (m : States σ), InvS eng rank m →
    (∃ st0, m eng.root = some st0) →
    List.Chain' MapLe (solveTraceAux eng stop fuel m) ∧
    (∀ m2 ∈ solveTraceAux eng stop fuel m, InvS eng rank m2) := by
  intro fuel
  induction fuel with
  | zero =>
    intro m hI hpres
    refine ⟨List.chain'_singleton m, ?_⟩
    intro m2 hm2
    have hm2b : m2 ∈ [m] := hm2
    rw [List.mem_singleton] at hm2b
    rw [hm2b]
    exact hI
  | succ fuel ih =>
    intro m hI hpres
    have hunf : solveTraceAux eng stop (fuel + 1) m =
        (if ((statusOf m eng.root).isResolved ||
            decide (¬ (statusOf m eng.root).depth_min < stop)) = true then [m]
        else m :: solveTraceAux eng stop fuel
          (improve eng ((statusOf m eng.root).depth_min + 1) eng.root m)) := rfl
    rw [hunf]
    by_cases hcnd : ((statusOf m eng.root).isResolved ||
        decide (¬ (statusOf m eng.root).depth_min < stop)) = true
    · rw [if_pos hcnd]
      refine ⟨List.chain'_singleton m, ?_⟩
      intro m2 hm2
      rw [List.mem_singleton] at hm2
      rw [hm2]
      exact hI
    · rw [if_neg hcnd]
      obtain ⟨II, IL, IF2, IP, _⟩ := improve_invs eng rank hR
        ((statusOf m eng.root).depth_min + 1) eng.root m hI hpres
      obtain ⟨st0, hs0⟩ := hpres
      obtain ⟨st1, hs1, _, _⟩ := IL eng.root st0 hs0
      have hih := ih (improve eng ((statusOf m eng.root).depth_min + 1) eng.root m)
        II ⟨st1, hs1⟩
      obtain ⟨l, hl⟩ := solveTraceAux_head eng stop fuel
        (improve eng ((statusOf m eng.root).depth_min + 1) eng.root m)
      constructor
      · rw [hl]
        rw [hl] at hih
        exact List.Chain'.cons IL hih.1
      · intro m2 hm2
        rcases List.mem_cons.mp hm2 with he | ht
        · rw [he]
          exact hI
        · exact hih.2 m2 ht

/-- C6: along the solve_breadth trace, every entry's depth_min never
decreases, depth_max never increases, and depth_min ≤ depth_max holds in
every map of the trace. -/
theorem c6_monotone_bounds (eng : Engine σ W) (rank : σ → Nat)
    (hR : RankedEngine eng rank) (stop fuel : Nat) :
    List.Chain' MapLe (solveTrace eng stop fuel) ∧
    (∀ m ∈ solveTrace eng stop fuel, ∀ u st, States.lookup m u = some st →
      st.depth_min ≤ st.depth_max) := by
  have hI0 : InvS eng rank (clearMap eng) := clearMap_invs eng rank
  have hroot0 : clearMap eng eng.root = some ({} : Status σ) := by
    unfold clearMap
    rw [if_pos rfl]
  obtain ⟨EI, EL, EF, EP, EE⟩ := expand_invs eng rank hR eng.root (clearMap eng) hI0
  obtain ⟨st1, hs1, _, _⟩ := EL eng.root ({} : Status σ) hroot0
  have haux := solveTraceAux_chain eng rank hR stop fuel
    (expand eng eng.root (clearMap eng)) EI ⟨st1, hs1⟩
  have hunf : solveTrace eng stop fuel =
      clearMap eng :: solveTraceAux eng stop fuel
        (expand eng eng.root (clearMap eng)) := rfl
  rw [hunf]
  obtain ⟨l, hl⟩ := solveTraceAux_head eng stop fuel
    (expand eng eng.root (clearMap eng))
  constructor
  · rw [hl]
    rw [hl] at haux
    exact List.Chain'.cons EL haux.1
  · intro m hm u st hlk
    rcases List.mem_cons.mp hm with he | ht
    · rw [he] at hlk
      exact hI0.le u st hlk
    · exact (haux.2 m ht).le u st hlk

theorem c6_witness :
    List.Chain' MapLe (solveTrace toyEngine 3 3) ∧
    (∀ m ∈ solveTrace toyEngine 3 3, ∀ u st, States.lookup m u = some st →
      st.depth_min ≤ st.depth_max) :=
  c6_monotone_bounds toyEngine toyRank
    (by
      intro s w hw hsk o t ht
      by_cases hs : s = 0
      · subst hs
        have happ : effOuts toyEngine 0 w =
            (⟨some 1, some 2, none⟩ : OutcomeArray (Option Nat)) := by
          unfold effOuts toyEngine
          simp
        rw [happ] at ht
        cases o with
        | LeftHeavier =>
          have ht2 : some 1 = some t := ht
          cases ht2
          show toyRank 1 < toyRank 0
          decide
        | RightHeavier =>
          have ht2 : some 2 = some t := ht
          cases ht2
          show toyRank 2 < toyRank 0
          decide
        | Balances =>
          have ht2 : (none : Option Nat) = some t := ht
          cases ht2
      · exfalso
        have h2 : toyEngine.weighings s = [] := by
          show (if s = 0 then [0] else []) = []
          rw [if_neg hs]
        rw [h2] at hw
        exact absurd hw (List.not_mem_nil w)) 3 3

end Balance
